import Mathlib

/-!
# ruphin/wifi: localisation algorithms over a simulated access-point field

A shallow embedding of `map.go`, `fingerprinting.go`, `centroid.go`,
`configuration.go` and, of `engine.go`, the construction of the engine, the
replacement transaction, `seed` and the first test cycle of `Run`.

Conventions of the embedding:
* Go `int` ids are `Int` (ids are only compared, never computed with).
* Go `float64` coordinates and signal strengths are exact rationals `ℚ`;
  rounding is not modelled there. Where rounding decides a statement, the
  operation is embedded a second time over `F64`, a model of binary64 with
  rounding to nearest, ties to even.
* A Go `[50]int` array is a list together with a proof that its length is 50.
* A Go `panic` is the `none` result of an `Option`-valued function.
* `for` loops over indices are recursions on a fuel argument; the fuel
  passed by the caller is the bound on the number of iterations.
* The package-level variables `accessPointCount` and `random` are the fields of
  `Globals`, passed to and returned by the functions that use them.
* The panics of `validate` are the `.error` results of an `Except`, with their
  messages.
* The propagation model (`signalReceived`, `signalStrength`, `Read`) is written
  over a number type `α` with the functions of package `math` as a parameter;
  the theorems take the reals and the real logarithm and square root for them.
-/

namespace wifi

/-! ## map.go: Location, Signal, Signals, Key -/

/-- Source: `type Location struct { X, Y float64 }`. -/
structure Location where
  X : ℚ
  Y : ℚ
deriving DecidableEq

/-- Source: `NewLocation`. -/
def NewLocation (x y : ℚ) : Location := ⟨x, y⟩

/-- Source: `type Signal struct { id int; signalStrength float64 }`. -/
structure Signal where
  id : Int
  signalStrength : ℚ
deriving DecidableEq

/-- Source: `type Signals []Signal`. -/
abbrev Signals := List Signal

/-- Source: `const keyLength int = 50`. -/
def keyLength : Nat := 50

/-- Source: `type Key [keyLength]int`. -/
structure Key where
  ids : List Int
  size : ids.length = keyLength
deriving DecidableEq

/-- Array read `key[i]`; every read in the source is guarded by `i < keyLength`. -/
def Key.get (k : Key) (i : Nat) : Int := k.ids.getD i 0

/-- The zero value of `Key` (`var key Key`). -/
def Key.zero : Key := ⟨List.replicate keyLength 0, by simp⟩

/-! ## fingerprinting.go: setDifference -/

/-- First loop of `setDifference`: the ascending merge. Returns `(i1, distance)`. -/
def setDifferenceMerge (ids1 ids2 : Key) : Nat → Nat → Nat → Nat → Nat × Nat
  | 0, i1, _, distance => (i1, distance)
  | fuel + 1, i1, i2, distance =>
    if i1 < keyLength ∧ i2 < keyLength ∧ ids1.get i1 ≠ 0 ∧ ids2.get i2 ≠ 0 then
      if ids1.get i1 < ids2.get i2 then
        setDifferenceMerge ids1 ids2 fuel (i1 + 1) i2 (distance + 1)
      else if ids1.get i1 > ids2.get i2 then
        setDifferenceMerge ids1 ids2 fuel i1 (i2 + 1) distance
      else
        setDifferenceMerge ids1 ids2 fuel (i1 + 1) (i2 + 1) distance
    else (i1, distance)

/-- Second loop of `setDifference`: count what is left of `ids1`. -/
def setDifferenceRest (ids1 : Key) : Nat → Nat → Nat → Nat
  | 0, _, distance => distance
  | fuel + 1, i1, distance =>
    if i1 < keyLength ∧ ids1.get i1 ≠ 0 then
      setDifferenceRest ids1 fuel (i1 + 1) (distance + 1)
    else distance

/-- Source: `setDifference(ids1, ids2 Key) int`. Each iteration of the first
loop advances `i1` or `i2`, both below `keyLength`; the second advances `i1`. -/
def setDifference (ids1 ids2 : Key) : Nat :=
  let r := setDifferenceMerge ids1 ids2 (2 * keyLength) 0 0 0
  setDifferenceRest ids1 keyLength r.1 r.2

/-- Pad a list of ids with zeros up to `keyLength` (used to write keys down). -/
def padKey (l : List Int) (h : l.length ≤ keyLength) : Key :=
  ⟨l ++ List.replicate (keyLength - l.length) 0, by simp; omega⟩

/-- The non-zero prefix of a key: the ids it holds. -/
def Key.idList (k : Key) : List Int := k.ids.takeWhile (fun x => x ≠ 0)

/-- A key is well-formed when it is a strictly ascending run of positive ids
followed only by zeros. -/
def Key.WellFormed (k : Key) : Prop :=
  k.idList.Pairwise (· < ·) ∧ (∀ x ∈ k.idList, 0 < x) ∧
    ∀ x ∈ k.ids.dropWhile (fun x => x ≠ 0), x = 0

instance (k : Key) : Decidable k.WellFormed := by
  unfold Key.WellFormed; infer_instance

/-- The set of ids a key holds: its non-zero entries. -/
def Key.idSet (k : Key) : Finset Int := (k.ids.filter (fun x => x ≠ 0)).toFinset

/-! ## map.go: Signals.Key and the sorting helpers -/

/-- Source: `sort.Ints(ids)`. The library routine returns the ascending
arrangement of its input, which is unique; insertion sort computes it. -/
def sortInts (ids : List Int) : List Int := ids.insertionSort (· ≤ ·)

/-- Source: `sort.Sort(ByID(signals))`, ordering by `signals[i].id < signals[j].id`.
For signals with pairwise distinct ids the ascending arrangement is unique. -/
def sortByID (signals : Signals) : Signals :=
  signals.insertionSort (fun s t => s.id ≤ t.id)

/-- Source: `func (signals Signals) Key() Key`. `none` is the panic
`"** err: Signal length exceeds maximum keysize."`; otherwise the sorted ids
are copied over the front of a zero key. -/
def Signals.Key (signals : Signals) : Option Key :=
  if h : signals.length > keyLength then none
  else
    let ids := sortInts (signals.map (fun s => s.id))
    some ⟨ids ++ List.replicate (keyLength - ids.length) 0, by
      have : ids.length = signals.length := by simp [ids, sortInts]
      simp only [List.length_append, List.length_replicate]
      omega⟩

/-! ## Calls that may panic -/

/-- Outcome of a method call on a receiver of type `σ`: it returns `α` and
leaves the receiver in a new state, or it panics, leaving the receiver in the
state it had when the panic was raised. -/
inductive Outcome (σ α : Type) where
  | ok : σ → α → Outcome σ α
  | panic : σ → Outcome σ α

/-- The receiver's state after the call, returned or panicked. -/
def Outcome.state {σ α : Type} : Outcome σ α → σ
  | .ok s _ => s
  | .panic s => s

/-- The returned value, when the call returned. -/
def Outcome.value {σ α : Type} : Outcome σ α → Option α
  | .ok _ a => some a
  | .panic _ => none

/-- Whether the call panicked. -/
def Outcome.panicked {σ α : Type} : Outcome σ α → Bool
  | .ok _ _ => false
  | .panic _ => true

/-! ## fingerprinting.go -/

/-- Source: `type fingerprint struct { signals Signals; location *Location }`. -/
structure fingerprint where
  signals : Signals
  location : Location
deriving DecidableEq

/-- Source: `type fingerprints []fingerprint`. -/
abbrev fingerprints := List fingerprint

/-- Source: `func (fingerprints fingerprints) locations() []*Location`. -/
def fingerprints.locations (fps : fingerprints) : List Location :=
  fps.map (fun fp => fp.location)

/-- Source: `type food struct { location *Location; signals Signals }`. -/
structure food where
  location : Location
  signals : Signals
deriving DecidableEq

/-- Source: `type fingerprinting struct`. The Go map `map[Key]fingerprints` is
an association list with one entry per key; the order of its entries is the
order in which `range` visits them. -/
structure fingerprinting where
  fingerprintMap : List (Key × fingerprints)
  food : List food
  bestMatches : Nat
  enhanced : Bool
  learning : Bool
  smart : Bool
deriving DecidableEq

/-- Source: `NewFingerprinting`. -/
def NewFingerprinting : fingerprinting := ⟨[], [], 4, false, false, false⟩

/-- Source: `NewEnhancedFingerprinting`. -/
def NewEnhancedFingerprinting : fingerprinting := ⟨[], [], 4, true, false, false⟩

/-- Source: `NewLearningFingerprinting`. -/
def NewLearningFingerprinting : fingerprinting := ⟨[], [], 4, false, true, false⟩

/-- Source: `NewEnhancedLearningFingerprinting`. -/
def NewEnhancedLearningFingerprinting : fingerprinting := ⟨[], [], 4, true, true, false⟩

/-- Source: `NewSmartLearningFingerprinting`. -/
def NewSmartLearningFingerprinting : fingerprinting := ⟨[], [], 4, false, true, true⟩

/-- Source: `f.fingerprintMap[key] = append(f.fingerprintMap[key], fingerprint)`.
A missing key reads as the nil slice, so the fingerprint starts a new entry. -/
def mapAppend : List (Key × fingerprints) → Key → fingerprint → List (Key × fingerprints)
  | [], key, fp => [(key, [fp])]
  | (k, fps) :: rest, key, fp =>
    if k = key then (k, fps ++ [fp]) :: rest else (k, fps) :: mapAppend rest key fp

/-- Source: `func (f *fingerprinting) feed(signals Signals, location *Location)`.
The panic of `signals.Key()` is raised before the map is written. -/
def fingerprinting.feed (f : fingerprinting) (signals : Signals) (location : Location) :
    Outcome fingerprinting Unit :=
  if f.enhanced ∧ signals.length = 0 then .ok f ()
  else
    let signals := sortByID signals
    match Signals.Key signals with
    | none => .panic f
    | some key =>
      .ok { f with fingerprintMap := mapAppend f.fingerprintMap key ⟨signals, location⟩ } ()

/-- Source: the loop of `euclidianDistance`, returning the accumulated `sum`
of squared strength differences over the ids met in both lists. -/
def euclidianDistanceSum : Signals → Signals → ℚ → ℚ
  | [], _, sum => sum
  | _ :: _, [], sum => sum
  | s1 :: r1, s2 :: r2, sum =>
    if s1.id = s2.id then
      euclidianDistanceSum r1 r2
        (sum + (s1.signalStrength - s2.signalStrength) * (s1.signalStrength - s2.signalStrength))
    else if s1.id < s2.id then euclidianDistanceSum r1 (s2 :: r2) sum
    else euclidianDistanceSum (s1 :: r1) r2 sum

/-- Source: `type stuf struct { location *Location; distance float64 }`. The
field holds the radicand of `math.Sqrt(sum)`: the square root is increasing, so
`ByDistance.Less` orders the radicands as it orders the distances. -/
structure stuf where
  location : Location
  distance : ℚ
deriving DecidableEq

/-- Source: `sort.Sort(ByDistance(s))`, ordering by `s[i].distance < s[j].distance`. -/
def sortByDistance (s : List stuf) : List stuf :=
  s.insertionSort (fun a b => a.distance ≤ b.distance)

/-- Source: `func average(locations []*Location) *Location`. -/
def average (locations : List Location) : Location :=
  ⟨(locations.map (fun l => l.X)).sum / locations.length,
   (locations.map (fun l => l.Y)).sum / locations.length⟩

/-- Source: `pointerMap[dist] = append(pointerMap[dist], fingerprints...)` for
`dist` inside the slice. -/
def appendBucket : List fingerprints → Nat → fingerprints → List fingerprints
  | [], _, _ => []
  | b :: rest, 0, fps => (b ++ fps) :: rest
  | b :: rest, d + 1, fps => b :: appendBucket rest d fps

/-- Source: the first loop of `read`, over the entries of the fingerprint map.
`none` is the index-out-of-range panic of `pointerMap[dist]`. -/
def fillBuckets (ids : Key) :
    List (Key × fingerprints) → List fingerprints → Option (List fingerprints)
  | [], pointerMap => some pointerMap
  | (key, fps) :: rest, pointerMap =>
    let dist := setDifference ids key
    if dist < pointerMap.length then fillBuckets ids rest (appendBucket pointerMap dist fps)
    else none

/-- Source: the second loop of `read`, over `pointerMap` from index `distance`
on: the result is `(locations, breakers)`, with `none` for the nil `breakers`. -/
def selectBuckets (bestMatches len : Nat) :
    Nat → List fingerprints → List Location → List Location × Option fingerprints
  | _, [], locations => (locations, none)
  | distance, fps :: rest, locations =>
    if distance = len then (locations, none)
    else if locations.length + fps.length > bestMatches then (locations, some fps)
    else selectBuckets bestMatches len (distance + 1) rest (locations ++ fps.locations)

/-- Source: the batch loop `for _, food := range f.food { f.feed(...) }`. -/
def feedAll : fingerprinting → List food → Outcome fingerprinting Unit
  | f, [] => .ok f ()
  | f, fd :: rest =>
    match f.feed fd.signals fd.location with
    | .ok f1 _ => feedAll f1 rest
    | .panic f1 => .panic f1

/-- Source: the `if f.learning` block of `read`. -/
def fingerprinting.learn (f : fingerprinting) (signals : Signals) (location : Location) :
    Outcome fingerprinting Unit :=
  if f.learning then
    if f.smart then
      let f1 := { f with food := f.food ++ [⟨location, signals⟩] }
      if f1.food.length > 1000 then
        match feedAll f1 f1.food with
        | .ok f2 _ => .ok { f2 with food := [] } ()
        | .panic f2 => .panic f2
      else .ok f1 ()
    else f.feed signals location
  else .ok f ()

/-- Source: the `if breakers != nil` block of `read`: the locations that enter
the average. `none` is the slice-bounds panic of `s[:f.bestMatches - len(locations)]`. -/
def breakTies (bestMatches : Nat) (signals : Signals) (locations : List Location) :
    Option fingerprints → Option (List Location)
  | none => some locations
  | some breakers =>
    let s := sortByDistance
      (breakers.map (fun fp => ⟨fp.location, euclidianDistanceSum signals fp.signals 0⟩))
    if bestMatches < locations.length ∨ s.length < bestMatches - locations.length then none
    else some (locations ++
      (s.take (bestMatches - locations.length)).map (fun st => st.location))

/-- Source: `read` from `if locations == nil && breakers == nil` on. A slice
that was only ever appended nothing to is still nil, so `locations == nil`
is `locations = []`. -/
def fingerprinting.estimate (f : fingerprinting) (signals : Signals)
    (locations : List Location) (breakers : Option fingerprints) :
    Outcome fingerprinting (Option Location × Bool) :=
  if locations = [] ∧ breakers = none then .ok f (none, false)
  else
    match breakTies f.bestMatches signals locations breakers with
    | none => .panic f
    | some locations =>
      let location := average locations
      match f.learn signals location with
      | .ok f1 _ => .ok f1 (some location, true)
      | .panic f1 => .panic f1

/-- Source: `func (f *fingerprinting) read(signals Signals, realLocation *Location)
(*Location, bool)`. The returned pair is `(estimate, success)`. -/
def fingerprinting.read (f : fingerprinting) (signals : Signals) (_realLocation : Location) :
    Outcome fingerprinting (Option Location × Bool) :=
  let pointerMap : List fingerprints := List.replicate 50 []
  let signals := sortByID signals
  match Signals.Key signals with
  | none => .panic f
  | some ids =>
    match fillBuckets ids f.fingerprintMap pointerMap with
    | none => .panic f
    | some pointerMap =>
      let r := selectBuckets f.bestMatches signals.length 0 pointerMap []
      f.estimate signals r.1 r.2

/-! ## map.go: Location.enhance -/

/-- Source: `func (l *Location) enhance(realLocation *Location)`; the constant
`0.1` is the rational `1/10`. -/
def Location.enhance (l realLocation : Location) : Location :=
  ⟨l.X + ((realLocation.X - l.X) * (1 / 10)), l.Y + ((realLocation.Y - l.Y) * (1 / 10))⟩

/-! ## centroid.go -/

/-- Source: `type centroidAccessPoint struct { x, y []float64; location *Location }`. -/
structure centroidAccessPoint where
  x : List ℚ
  y : List ℚ
  location : Option Location
deriving DecidableEq

/-- Source: `type centroid struct`. The Go map `map[int]centroidAccessPoint` is
a function from ids to optional entries; the code never iterates over it. -/
structure centroid where
  accessPointMap : Int → Option centroidAccessPoint
  minMatches : Nat
  enhanced : Bool
  learning : Bool
  smart : Bool

/-- Source: `NewCentroid`. -/
def NewCentroid : centroid := ⟨fun _ => none, 4, false, false, false⟩

/-- Source: `NewEnhancedCentroid`. -/
def NewEnhancedCentroid : centroid := ⟨fun _ => none, 4, true, false, false⟩

/-- Source: `NewLearningCentroid`. -/
def NewLearningCentroid : centroid := ⟨fun _ => none, 4, false, true, false⟩

/-- Source: `NewEnhancedLearningCentroid`. -/
def NewEnhancedLearningCentroid : centroid := ⟨fun _ => none, 4, true, true, false⟩

/-- Source: `NewSmartLearningCentroid`. -/
def NewSmartLearningCentroid : centroid := ⟨fun _ => none, 4, false, true, true⟩

/-- Source: the summing loops `x = 0; for _, value := range xs { x += value }`. -/
def sumLoop (xs : List ℚ) : ℚ := xs.foldl (fun acc value => acc + value) 0

/-- Source: the body of the loop of `centroid.feed` for one signal id. A
missing key reads as the zero `centroidAccessPoint`. -/
def centroid.feedSignal (c : centroid) (id : Int) (location : Location) : centroid :=
  let accessPoint := (c.accessPointMap id).getD ⟨[], [], none⟩
  let x := accessPoint.x ++ [location.X]
  let y := accessPoint.y ++ [location.Y]
  let cached :=
    if x.length ≥ c.minMatches ∧ (¬ c.smart ∨ x.length < 300) then
      some (NewLocation (sumLoop x / x.length) (sumLoop y / y.length))
    else accessPoint.location
  { c with accessPointMap := fun k => if k = id then some ⟨x, y, cached⟩ else c.accessPointMap k }

/-- Source: `func (c *centroid) feed(signals Signals, location *Location)`. -/
def centroid.feed (c : centroid) (signals : Signals) (location : Location) : centroid :=
  signals.foldl (fun c signal => c.feedSignal signal.id location) c

/-- Source: the first loop of `centroid.read`, filling `xList` and `yList`. -/
def centroid.collect (c : centroid) : Signals → List ℚ × List ℚ → List ℚ × List ℚ
  | [], lists => lists
  | signal :: rest, (xList, yList) =>
    match c.accessPointMap signal.id with
    | some accessPoint =>
      match accessPoint.location with
      | some l => c.collect rest (xList ++ [l.X], yList ++ [l.Y])
      | none => c.collect rest (xList, yList)
    | none => c.collect rest (xList, yList)

/-- Source: `func (c *centroid) read(signals Signals, realLocation *Location)
(*Location, bool)`. The result is the state after the call and the returned
pair `(estimate, success)`. -/
def centroid.read (c : centroid) (signals : Signals) (realLocation : Location) :
    centroid × (Option Location × Bool) :=
  let lists := c.collect signals ([], [])
  if lists.1.length = 0 then (c, (none, false))
  else
    let x := sumLoop lists.1 / lists.1.length
    let y := sumLoop lists.2 / lists.2.length
    let location := NewLocation x y
    let location := if c.enhanced then location.enhance realLocation else location
    let c := if c.learning then c.feed signals location else c
    (c, (some location, true))

/-- Source: the engine's seeding pattern, a sequence of `feed` calls. -/
def centroid.feedSeq (c : centroid) (feeds : List (Signals × Location)) : centroid :=
  feeds.foldl (fun c fd => c.feed fd.1 fd.2) c

/-! ## Specification-side notions -/

/-- The cached centroid of an access-point id, if one is established. -/
def centroid.cached (c : centroid) (id : Int) : Option Location :=
  (c.accessPointMap id).bind (fun ap => ap.location)

/-- The recorded sample history of an access-point id: its `x` and `y` lists. -/
def centroid.history (c : centroid) (id : Int) : List ℚ × List ℚ :=
  match c.accessPointMap id with
  | some ap => (ap.x, ap.y)
  | none => ([], [])

/-- Arithmetic mean of a list of rationals. -/
def mean (xs : List ℚ) : ℚ := xs.sum / xs.length

/-- The centroid that `feed` leaves cached after recording the first `k`
samples of a history: the mean at the last length at which it recomputes. -/
def cachedAt (smart : Bool) (minMatches : Nat) (xs ys : List ℚ) : Nat → Option Location
  | 0 => none
  | k + 1 =>
    if k + 1 ≥ minMatches ∧ (¬ smart ∨ k + 1 < 300) then
      some ⟨mean (xs.take (k + 1)), mean (ys.take (k + 1))⟩
    else cachedAt smart minMatches xs ys k

/-- The samples a sequence of feeds records for an id, oldest first: one copy
of the fed location for every signal of that id. -/
def samplesOf (id : Int) : List (Signals × Location) → List Location
  | [] => []
  | fd :: rest =>
    List.replicate ((fd.1.filter (fun s => s.id = id)).length) fd.2 ++ samplesOf id rest

/-- The invariant of centroid states: every entry records as many `x` as `y`
samples, and its cached centroid is the one `feed` computes from them. -/
def centroid.Inv (c : centroid) : Prop :=
  ∀ id ap, c.accessPointMap id = some ap →
    ap.x.length = ap.y.length ∧
      ap.location = cachedAt c.smart c.minMatches ap.x ap.y ap.x.length


/-- `KeyOf k xs`: the key `k` is the ascending positive run `xs` padded with zeros. -/
def KeyOf (k : Key) (xs : List Int) : Prop :=
  xs.Pairwise (· < ·) ∧ (∀ x ∈ xs, 0 < x) ∧ xs.length ≤ keyLength ∧
    (∀ i, k.get i = xs.getD i 0) ∧ k.idSet = xs.toFinset

/-- Number of entries of `xs` that do not occur in `ys`. -/
def countNotIn (xs ys : List Int) : Nat := (xs.filter (fun x => x ∉ ys)).length

/-- The stored fingerprints whose key lies at distance `d` from `ids`, in the
order of the map entries: the content of bucket `d` of `read`. -/
def groupAt (ids : Key) : List (Key × fingerprints) → Nat → fingerprints
  | [], _ => []
  | (k, fps) :: rest, d =>
    if setDifference ids k = d then fps ++ groupAt ids rest d else groupAt ids rest d

/-- A signal set with pairwise distinct positive ids. -/
def DistinctPositive (signals : Signals) : Prop :=
  (signals.map (fun s => s.id)).Nodup ∧ ∀ s ∈ signals, 0 < s.id

instance (signals : Signals) : Decidable (DistinctPositive signals) := by
  unfold DistinctPositive; infer_instance

/-- What `feed` maintains of a fingerprint map when it is fed signal sets with
pairwise distinct positive ids: every entry holds at least one fingerprint, and
each fingerprint of an entry has distinct positive ids and the entry's key. -/
def StoredOK (m : List (Key × fingerprints)) : Prop :=
  ∀ e ∈ m, e.2 ≠ [] ∧
    ∀ fp ∈ e.2, DistinctPositive fp.signals ∧ Signals.Key fp.signals = some e.1

/-- The centroid states the program can reach: a freshly constructed variant
(empty map, `minMatches = 4`, any flags), followed by `feed` and `read` calls. -/
inductive centroid.Reachable : centroid → Prop where
  | new (c : centroid) : c.accessPointMap = (fun _ => none) → c.minMatches = 4 →
      centroid.Reachable c
  | feed (c : centroid) (signals : Signals) (location : Location) :
      centroid.Reachable c → centroid.Reachable (c.feed signals location)
  | read (c : centroid) (signals : Signals) (hint : Location) :
      centroid.Reachable c → centroid.Reachable (c.read signals hint).1

/-- A stored fingerprint shares an access-point id with the query. -/
def SharesId (q : Signals) (fp : fingerprint) : Prop :=
  ∃ s ∈ q, ∃ t ∈ fp.signals, s.id = t.id

instance (q : Signals) (fp : fingerprint) : Decidable (SharesId q fp) := by
  unfold SharesId; infer_instance

/-- The state used to illustrate `read`: the plain variant after one `feed` of
the signals `3, 1` at the location `(1, 2)`. -/
def sampleFingerprinting : fingerprinting :=
  ⟨[(padKey [1, 3] (by decide), [⟨[⟨1, -70⟩, ⟨3, -60⟩], ⟨1, 2⟩⟩])], [], 4, false, false, false⟩

/-- The feeds used to illustrate the smart cap: 299 samples of id 1 at the
origin, then one at `(299, 299)`. -/
def cappedFeeds : List (Signals × Location) :=
  List.replicate 299 ([⟨1, -60⟩], ⟨0, 0⟩) ++ [([⟨1, -60⟩], ⟨299, 299⟩)]

/-- The same feeds with the sample at `(299, 299)` recorded first. -/
def cappedFeedsSwapped : List (Signals × Location) :=
  ([⟨1, -60⟩], ⟨299, 299⟩) :: List.replicate 299 ([⟨1, -60⟩], ⟨0, 0⟩)

/-- Four feeds of id 1 at the corners of a square, id 2 seen once. -/
def squareFeeds : List (Signals × Location) :=
  [([⟨1, -60⟩, ⟨2, -80⟩], ⟨0, 0⟩), ([⟨1, -61⟩], ⟨4, 0⟩), ([⟨1, -62⟩], ⟨0, 4⟩),
    ([⟨1, -63⟩], ⟨4, 4⟩)]

/-! ## map.go: distance -/

/-- Source: the radicand `x*x + y*y` of `func distance(l1, l2 *Location) float64`;
the distance itself is its square root. -/
def distanceSq (l1 l2 : Location) : ℚ :=
  (l1.X - l2.X) * (l1.X - l2.X) + (l1.Y - l2.Y) * (l1.Y - l2.Y)

/-- The same centroid algorithm with the `enhanced` flag cleared. -/
def centroid.plain (c : centroid) : centroid := { c with enhanced := false }

/-- Number of fingerprints a fingerprint map stores. -/
def storedCount (m : List (Key × fingerprints)) : Nat :=
  (m.map (fun e => e.2.length)).sum

/-- The learning variant of `sampleFingerprinting`. -/
def sampleLearning : fingerprinting := { sampleFingerprinting with learning := true }

/-- Source: the map read `f.fingerprintMap[key]`; a missing key reads as nil. -/
def mapGet : List (Key × fingerprints) → Key → fingerprints
  | [], _ => []
  | (k, fps) :: rest, key => if k = key then fps else mapGet rest key

/-- The feeds used to illustrate the history of the smart variant: 301 samples
of id 1 at the origin. -/
def overCapFeeds : List (Signals × Location) :=
  List.replicate 301 ([⟨1, -60⟩], ⟨0, 0⟩)

/-- The smart learning variant of `sampleFingerprinting`. -/
def sampleSmart : fingerprinting :=
  { sampleFingerprinting with
    learning := true
    smart := true }

/-- The state used to illustrate the batch buffer: the smart learning variant
with one stored fingerprint and 999 buffered pairs. -/
def almostFullBuffer : fingerprinting :=
  { sampleFingerprinting with
    learning := true
    smart := true
    food := List.replicate 999 ⟨⟨1, 2⟩, [⟨1, -70⟩]⟩ }

/-- The radicand of the Euclidean distance between the query and a stored
fingerprint, as `read` computes it for the tie-break. -/
def fpDistance (signals : Signals) (fp : fingerprint) : ℚ :=
  euclidianDistanceSum signals fp.signals 0

/-- The fingerprints of a bucket in the order `sort.Sort(ByDistance(s))` puts
their locations. -/
def sortFps (signals : Signals) (fps : fingerprints) : fingerprints :=
  fps.insertionSort (fun a b => fpDistance signals a ≤ fpDistance signals b)

/-- The second loop of `read`, gathering the fingerprints instead of their
locations. -/
def selectFps (bestMatches len : Nat) :
    Nat → List fingerprints → fingerprints → fingerprints × Option fingerprints
  | _, [], acc => (acc, none)
  | distance, fps :: rest, acc =>
    if distance = len then (acc, none)
    else if acc.length + fps.length > bestMatches then (acc, some fps)
    else selectFps bestMatches len (distance + 1) rest (acc ++ fps)

/-- The stored fingerprints at a distance below `j` from `ids`, nearest first. -/
def bucketsBelow (ids : Key) (m : List (Key × fingerprints)) (j : Nat) : fingerprints :=
  ((List.range j).map (groupAt ids m)).flatten

/-- The number of stored fingerprints whose key lies at a distance below `n`
from `ids`. -/
def candidateCount (ids : Key) (n : Nat) (m : List (Key × fingerprints)) : Nat :=
  ((m.filter (fun e => setDifference ids e.1 < n)).map (fun e => e.2.length)).sum

/-- Every buffered pair fits a key. -/
def FoodOK (f : fingerprinting) : Prop := ∀ fd ∈ f.food, fd.signals.length ≤ keyLength

instance (f : fingerprinting) : Decidable (FoodOK f) := by
  unfold FoodOK; infer_instance

/-- The state used to illustrate the tie-break: four fingerprints stored under
the key `1 2` and one under the key `1`. -/
def crowdedFingerprinting : fingerprinting :=
  ⟨[(padKey [1, 2] (by decide),
      [⟨[⟨1, -70⟩, ⟨2, -60⟩], ⟨0, 0⟩⟩, ⟨[⟨1, -71⟩, ⟨2, -61⟩], ⟨4, 0⟩⟩,
        ⟨[⟨1, -72⟩, ⟨2, -62⟩], ⟨0, 4⟩⟩, ⟨[⟨1, -73⟩, ⟨2, -63⟩], ⟨4, 4⟩⟩]),
    (padKey [1] (by decide), [⟨[⟨1, -50⟩], ⟨9, 9⟩⟩])], [], 4, false, false, false⟩

/-! ## map.go: access points, the Map and the process-wide variables -/

/-- Source: `type AccessPoint struct { id int; location *Location }`. -/
structure AccessPoint where
  id : Int
  location : Location
deriving DecidableEq

/-- Modelled library: the generator `*rand.Rand` of `math/rand`, as the stream of
its raw draws and a cursor into it. Each call of `Intn` or `Float64` consumes
one draw; every index below `n` is the result of `Intn(n)` for some draw. -/
structure Rand where
  draws : Nat → Nat
  pos : Nat

/-- Modelled library: `Intn(n)` for `n > 0`, a value in `[0, n)`. -/
def Rand.Intn (r : Rand) (n : Nat) : Rand × Nat :=
  ({ r with pos := r.pos + 1 }, r.draws r.pos % n)

/-- Modelled library: `Float64()`, a value in `[0, 1)`. -/
def Rand.Float64 (r : Rand) : Rand × ℚ :=
  ({ r with pos := r.pos + 1 }, ((r.draws r.pos % 2 ^ 53 : Nat) : ℚ) / 2 ^ 53)

/-- Source: the package-level variables `var accessPointCount int` and
`var random *rand.Rand`. -/
structure Globals where
  accessPointCount : Int
  random : Rand

/-- Source: `func NewAccessPoint(location *Location) *AccessPoint`. -/
def NewAccessPoint (g : Globals) (location : Location) : Globals × AccessPoint :=
  ({ g with accessPointCount := g.accessPointCount + 1 },
    ⟨g.accessPointCount + 1, location⟩)

/-- Source: `func NewRandomLocation(xmax, ymax float64) *Location`. -/
def NewRandomLocation (g : Globals) (xmax ymax : ℚ) : Globals × Location :=
  let (r1, u1) := g.random.Float64
  let (r2, u2) := r1.Float64
  ({ g with random := r2 }, NewLocation (u1 * xmax) (u2 * ymax))

/-- Source: `type Map struct { width, height float64; accessPoints []AccessPoint }`. -/
structure Map where
  width : ℚ
  height : ℚ
  accessPoints : List AccessPoint

/-- Source: `func NewMap(width, height float64, source int64) *Map`; `newSource`
stands for `rand.New(rand.NewSource(source))`. -/
def NewMap (g : Globals) (newSource : Int → Rand) (width height : ℚ) (source : Int) :
    Globals × Map :=
  (if source ≠ 0 then { g with random := newSource source } else g, ⟨width, height, []⟩)

/-- Source: `func (m *Map) AddAccessPoint(location *Location)`. -/
def Map.AddAccessPoint (g : Globals) (m : Map) (location : Location) : Globals × Map :=
  let (g1, ap) := NewAccessPoint g location
  (g1, { m with accessPoints := m.accessPoints ++ [ap] })

/-- Source: `func (m *Map) AddRandomAccessPoint()`. -/
def Map.AddRandomAccessPoint (g : Globals) (m : Map) : Globals × Map :=
  let (g1, location) := NewRandomLocation g m.width m.height
  Map.AddAccessPoint g1 m location

/-- Source: the loop of `RemoveAccessPoint`: drop the first access point with the id. -/
def removeFirstWithId (id : Int) : List AccessPoint → List AccessPoint
  | [] => []
  | v :: rest => if v.id = id then rest else v :: removeFirstWithId id rest

/-- Source: `func (m *Map) RemoveAccessPoint(id int)`. -/
def Map.RemoveAccessPoint (m : Map) (id : Int) : Map :=
  { m with accessPoints := removeFirstWithId id m.accessPoints }

/-- Source: `func (m *Map) RemoveOldestAccessPoint()`; the slice expression
`m.accessPoints[1:]` panics on the empty slice. -/
def Map.RemoveOldestAccessPoint (m : Map) : Outcome Map Unit :=
  match m.accessPoints with
  | [] => .panic m
  | _ :: rest => .ok { m with accessPoints := rest } ()

/-- Source: `func (m *Map) RemoveRandomAccessPoint() int`; `random.Intn(0)` panics. -/
def Map.RemoveRandomAccessPoint (g : Globals) (m : Map) : Outcome (Globals × Map) Int :=
  if m.accessPoints.length = 0 then .panic (g, m)
  else
    let (r, i) := g.random.Intn m.accessPoints.length
    match m.accessPoints[i]? with
    | none => .panic ({ g with random := r }, m)
    | some ap =>
      .ok ({ g with random := r }, { m with accessPoints := m.accessPoints.eraseIdx i }) ap.id

/-! ## configuration.go and engine.go: the replacement transaction -/

/-- Source: `type Configuration struct`. -/
structure Configuration where
  MapHeight : ℚ
  MapWidth : ℚ
  AccessPointDensity : Int
  SeedDistance : ℚ
  TestDistance : ℚ
  TestCycles : Int
  ReplacementRate : ℚ
  ReplacementStrategy : Int
  RandomSeed : Int
  OutputDir : String

/-- Source: `const FiFoReplacement = 1`. -/
def FiFoReplacement : Int := 1

/-- Source: `const RandomReplacement = 2`. -/
def RandomReplacement : Int := 2

/-- Source: `type engine struct`, without the `algorithms` map, which the
replacement transaction does not touch. -/
structure engine where
  m : Map
  accessPointGenerations : List Int
  config : Configuration

/-- Source: the conversion `int(x)` of a `float64`: truncation toward zero. -/
def goInt (x : ℚ) : Int := if 0 ≤ x then Int.floor x else -Int.floor (-x)

/-- Source: the removal loop of `replaceAccessPoints`, `count` iterations. -/
def removeLoop (replacementStrategy : Int) :
    Nat → Globals → Map → Outcome (Globals × Map) Unit
  | 0, g, m => .ok (g, m) ()
  | count + 1, g, m =>
    if replacementStrategy = FiFoReplacement then
      match m.RemoveOldestAccessPoint with
      | .ok m1 _ => removeLoop replacementStrategy count g m1
      | .panic m1 => .panic (g, m1)
    else if replacementStrategy = RandomReplacement then
      match Map.RemoveRandomAccessPoint g m with
      | .ok (g1, m1) _ => removeLoop replacementStrategy count g1 m1
      | .panic s => .panic s
    else .panic (g, m)

/-- Source: the addition loop of `replaceAccessPoints`, `count` iterations. -/
def addLoop : Nat → Globals → Map → Globals × Map
  | 0, g, m => (g, m)
  | count + 1, g, m =>
    let (g1, m1) := Map.AddRandomAccessPoint g m
    addLoop count g1 m1

/-- Source: `func (e *engine) replaceAccessPoints()`, up to the call of
`e.m.Draw`, which renders the map and changes no state. The index expression
`e.m.accessPoints[len(e.m.accessPoints)-1]` panics on an empty map. -/
def engine.replaceAccessPoints (g : Globals) (e : engine) : Outcome (Globals × engine) Unit :=
  let replacementRate := e.config.ReplacementRate
  let replacementStrategy := e.config.ReplacementStrategy
  let replacementCount := goInt ((e.m.accessPoints.length : ℚ) * replacementRate)
  match removeLoop replacementStrategy replacementCount.toNat g e.m with
  | .panic (g1, m1) => .panic (g1, { e with m := m1 })
  | .ok (g1, m1) _ =>
    let (g2, m2) := addLoop replacementCount.toNat g1 m1
    match m2.accessPoints.getLast? with
    | none => .panic (g2, { e with m := m2 })
    | some ap =>
      .ok (g2, { e with
        m := m2
        accessPointGenerations := e.accessPointGenerations ++ [ap.id] }) ()

/-- The ids of the access points of a map, in storage order. -/
def Map.ids (m : Map) : List Int := m.accessPoints.map (fun ap => ap.id)

/-- The map states the program can reach: a new map, created when the id
counter is not negative, followed by additions and removals; the id counter is
process-wide, so it may also be advanced by other maps in between. -/
inductive MapReachable : Globals → Map → Prop where
  | newMap (g : Globals) (newSource : Int → Rand) (width height : ℚ) (source : Int) :
      0 ≤ g.accessPointCount →
      MapReachable (NewMap g newSource width height source).1
        (NewMap g newSource width height source).2
  | add (g : Globals) (m : Map) (location : Location) :
      MapReachable g m →
      MapReachable (Map.AddAccessPoint g m location).1 (Map.AddAccessPoint g m location).2
  | addRandom (g : Globals) (m : Map) :
      MapReachable g m →
      MapReachable (Map.AddRandomAccessPoint g m).1 (Map.AddRandomAccessPoint g m).2
  | remove (g : Globals) (m : Map) (id : Int) :
      MapReachable g m → MapReachable g (m.RemoveAccessPoint id)
  | removeOldest (g : Globals) (m m1 : Map) :
      MapReachable g m → m.RemoveOldestAccessPoint = Outcome.ok m1 () → MapReachable g m1
  | removeRandom (g g1 : Globals) (m m1 : Map) (id : Int) :
      MapReachable g m → Map.RemoveRandomAccessPoint g m = Outcome.ok (g1, m1) id →
      MapReachable g1 m1
  | elsewhere (g : Globals) (m : Map) (count : Int) :
      MapReachable g m → g.accessPointCount ≤ count →
      MapReachable { g with accessPointCount := count } m

/-- The invariant of reachable maps: positive, strictly ascending ids, none
above the id counter. -/
def MapInv (g : Globals) (m : Map) : Prop :=
  m.ids.Pairwise (· < ·) ∧ (∀ ap ∈ m.accessPoints, 0 < ap.id) ∧
    (∀ ap ∈ m.accessPoints, ap.id ≤ g.accessPointCount) ∧ 0 ≤ g.accessPointCount

/-- The engine used to illustrate the replacement transaction: four access
points, half of them replaced, oldest first. -/
def sampleEngine : engine :=
  ⟨⟨1000, 1000, [⟨1, ⟨10, 10⟩⟩, ⟨2, ⟨20, 20⟩⟩, ⟨3, ⟨30, 30⟩⟩, ⟨4, ⟨40, 40⟩⟩]⟩, [4],
    ⟨1000, 1000, 4, 5, 10, 3, 1 / 2, FiFoReplacement, 0, "graphs"⟩⟩

/-- The process-wide variables after four access points were created. -/
def sampleGlobals : Globals := ⟨4, ⟨fun i => 7 * i + 3, 0⟩⟩

/-- The process-wide variables at start-up: no access point created yet. -/
def startGlobals : Globals := ⟨0, ⟨fun i => 7 * i + 3, 0⟩⟩

/-- A new map. -/
def sampleMap0 : Globals × Map :=
  NewMap startGlobals (fun s => ⟨fun i => i + s.toNat, 0⟩) 1000 1000 0

/-- The new map after one access point was added. -/
def sampleMap1 : Globals × Map := Map.AddAccessPoint sampleMap0.1 sampleMap0.2 ⟨10, 10⟩

/-- The new map after a second, random, access point was added. -/
def sampleMap2 : Globals × Map := Map.AddRandomAccessPoint sampleMap1.1 sampleMap1.2

/-! ## configuration.go and engine.go: validation and construction -/

/-- Source: `func (config *Configuration) validate()`; `.error` carries the
message of the panic. -/
def Configuration.validate (config : Configuration) : Except String Unit :=
  if config.ReplacementRate ≠ 0 ∧ config.ReplacementStrategy = 0 then
    .error "** err: Replacement Rate set without a Replacement Strategy"
  else if config.AccessPointDensity = 0 then
    .error "** err: Access Point Density cannot be 0"
  else if config.MapWidth < 160 then
    .error "** err: Map Width cannot be less than 160 meters"
  else if config.MapHeight < 160 then
    .error "** err: Map Height cannot be less than 160 meters"
  else if config.SeedDistance = 0 then
    .error "** err: Seed Distance cannot be 0"
  else if config.TestDistance = 0 then
    .error "** err: Test Distance cannot be 0"
  else .ok ()

/-- Specification side: the acceptance condition in the words of the
specification of the configuration input. -/
def Configuration.specValid (config : Configuration) : Prop :=
  160 ≤ config.MapWidth ∧ 160 ≤ config.MapHeight ∧ 0 < config.AccessPointDensity ∧
    0 < config.SeedDistance ∧ 0 < config.TestDistance ∧
    (0 ≤ config.ReplacementRate ∧ config.ReplacementRate ≤ 1) ∧
    (config.ReplacementRate ≠ 0 →
      config.ReplacementStrategy = FiFoReplacement ∨
        config.ReplacementStrategy = RandomReplacement)

/-- Source: `func NewEngine(config *Configuration) *engine`, up to the call of
`engine.m.Draw`, which renders the map and changes no state. The division of
`int` values truncates toward zero. -/
def NewEngine (g : Globals) (newSource : Int → Rand) (config : Configuration) :
    Except String (Globals × engine) :=
  match config.validate with
  | .error msg => .error msg
  | .ok _ =>
    let (g1, engineMap) := NewMap g newSource config.MapWidth config.MapHeight config.RandomSeed
    let accessPointCount :=
      Int.tdiv (goInt (config.MapWidth * config.MapHeight) * config.AccessPointDensity) 1000000
    let (g2, m2) := addLoop accessPointCount.toNat g1 engineMap
    .ok (g2, ⟨m2, [accessPointCount], config⟩)

/-- A configuration with a replacement rate of 2 and a negative density. -/
def looseConfiguration : Configuration :=
  ⟨1000, 1000, -4, 5, 10, 3, 2, FiFoReplacement, 0, "graphs"⟩

/-- A configuration whose replacement strategy is neither of the two known ones. -/
def unknownStrategyConfiguration : Configuration :=
  ⟨1000, 1000, 4, 5, 10, 3, 1 / 2, 3, 42, "graphs"⟩

/-- A query of 50 signals with the ids 1..50: the largest query `Key()` accepts. -/
def fullQuery : Signals := (List.range 50).map (fun (i : Nat) => ⟨(i : Int) + 1, -60⟩)

/-- The plain fingerprinting variant after one feed of a single signal with id 51. -/
def strangerFingerprinting : fingerprinting :=
  (NewFingerprinting.feed [⟨51, -60⟩] ⟨10, 10⟩).state

/-! ## fingerprinting.go: euclidianDistance -/

/-- Source: `func euclidianDistance(signals1, signals2 Signals) float64`; `sqrt`
stands for `math.Sqrt`, from the exact sum into the number type of the result. -/
def euclidianDistance {α : Type} (sqrt : ℚ → α) (signals1 signals2 : Signals) : α :=
  sqrt (euclidianDistanceSum signals1 signals2 0)

/-- Specification side: the signal strength a signal set records for an id, 0
when the id is absent. -/
def strengthOf (s : Signals) (id : Int) : ℚ :=
  match s.find? (fun x => decide (x.id = id)) with
  | some x => x.signalStrength
  | none => 0

/-- Specification side: the ids present in both signal sets. -/
def sharedIds (s1 s2 : Signals) : Finset Int :=
  (s1.map (fun x => x.id)).toFinset ∩ (s2.map (fun x => x.id)).toFinset

/-- Specification side: the sum, over exactly the ids present in both sets, of
the squared difference of their signal strengths. -/
def sharedSquares (s1 s2 : Signals) : ℚ :=
  Finset.sum (sharedIds s1 s2) (fun id => (strengthOf s1 id - strengthOf s2 id) ^ 2)

/-! ## map.go: the propagation model -/

/-- Modelled library: the functions and the constant of package `math` that the
propagation model calls, over the number type `α` that stands for `float64`. -/
structure Math (α : Type) where
  Log : α → α
  Sqrt : α → α
  Sin : α → α
  Pi : α

/-- Source: `func distance(l1, l2 *Location) float64`. -/
def distance {α : Type} [DivisionRing α] (math : Math α) (l1 l2 : Location) : α :=
  let x := l1.X - l2.X
  let y := l1.Y - l2.Y
  math.Sqrt ((x * x + y * y : ℚ) : α)

/-- Source: `func signalReceived(distance float64) bool`; the draw is
`random.Float64()`. -/
def signalReceived {α : Type} [LinearOrderedField α] (math : Math α) (g : Globals)
    (distance : α) : Globals × Bool :=
  let (r, u) := g.random.Float64
  ({ g with random := r }, decide ((u : α) < 0.6 - math.Log (distance / 64 + 0.5)))

/-- Source: the local `rss` of `signalStrength`, the median strength at a
distance; the package variable `log10` is `math.Log(10)`, set by `init`. -/
def rss {α : Type} [LinearOrderedField α] (math : Math α) (distance : α) : α :=
  -58 - (14 * math.Log (distance + 5) / math.Log 10)

/-- Source: the local `stddev` of `signalStrength`. -/
def stddev {α : Type} [LinearOrderedField α] (math : Math α) (distance : α) : α :=
  0.0497 * rss math distance + 6.3438

/-- Source: `func signalStrength(distance float64) float64`; the two draws are
taken in the order of the statements. -/
def signalStrength {α : Type} [LinearOrderedField α] (math : Math α) (g : Globals)
    (distance : α) : Globals × α :=
  let (r1, u1) := g.random.Float64
  let theta := 2 * math.Pi * (u1 : α)
  let (r2, u2) := r1.Float64
  let rho := math.Sqrt (-2 * math.Log (1 - (u2 : α)))
  let scale := stddev math distance * rho
  ({ g with random := r2 }, rss math distance + scale * math.Sin theta)

/-- Source: `type Signal struct`, with the strength in the number type of the
propagation model. -/
structure Reading (α : Type) where
  id : Int
  signalStrength : α

/-- Source: the loop of `Read` over the access points of the map. -/
def readLoop {α : Type} [LinearOrderedField α] (math : Math α) (location : Location) :
    List AccessPoint → Globals → List (Reading α) → Globals × List (Reading α)
  | [], g, signals => (g, signals)
  | ap :: rest, g, signals =>
    let dist := distance math ap.location location
    let (g1, received) := signalReceived math g dist
    if received then
      let (g2, strength) := signalStrength math g1 dist
      readLoop math location rest g2 (signals ++ [⟨ap.id, strength⟩])
    else readLoop math location rest g1 signals

/-- Source: `func (m *Map) Read(location *Location) Signals`. -/
def Map.Read {α : Type} [LinearOrderedField α] (math : Math α) (g : Globals) (m : Map)
    (location : Location) : Globals × List (Reading α) :=
  readLoop math location m.accessPoints g []

/-- Source: one axis of a grid of locations, as in `Run`,
`for y := 85.0; y <= limit; y += testDistance`, and in `seed`, from `0.0`; run
for at most `fuel` steps from the value `y`. -/
def gridAxis (limit testDistance : ℚ) : Nat → ℚ → List ℚ
  | 0, _ => []
  | fuel + 1, y =>
    if y ≤ limit then y :: gridAxis limit testDistance fuel (y + testDistance) else []

/-- Source: the test locations of `Run`, the nested loops over `x` and `y`. -/
def testLocations (fuel : Nat) (mapWidth mapHeight testDistance : ℚ) : List Location :=
  (gridAxis (mapWidth - 85) testDistance fuel 85).flatMap (fun x =>
    (gridAxis (mapHeight - 85) testDistance fuel 85).map (fun y => NewLocation x y))

/-! ## engine.go: the test order of `Run` -/

/-- Source: `locations[i], locations[j] = locations[j], locations[i]`. -/
def swapLocations (locations : List Location) (i j : Nat) : List Location :=
  match locations[i]?, locations[j]? with
  | some a, some b => (locations.set i b).set j a
  | _, _ => locations

/-- Source: the loop `for i := range locations { j := rand.Intn(i + 1); ... }` of
`Run`. `source` is the package-level generator of `math/rand`, which `init`
seeds from the clock; it is not the variable `random` that `NewMap` seeds. -/
def shuffleLocations (source : Rand) (locations : List Location) : Rand × List Location :=
  (List.range locations.length).foldl
    (fun (acc : Rand × List Location) (i : Nat) =>
      ((acc.1.Intn (i + 1)).1, swapLocations acc.2 i (acc.1.Intn (i + 1)).2))
    (source, locations)

/-- Source: the seeding locations of `seed`, the nested loops over `x` and `y`
from 0 to the size of the map. -/
def seedLocations (fuel : Nat) (mapWidth mapHeight distance : ℚ) : List Location :=
  (gridAxis mapWidth distance fuel 0).flatMap (fun x =>
    (gridAxis mapHeight distance fuel 0).map (fun y => NewLocation x y))

/-- A configuration with the explicit seed 42: a map of 170 m by 270 m with one
access point, one seeding location and two test locations. -/
def seededConfiguration : Configuration :=
  ⟨270, 170, 22, 1000, 100, 1, 0, 0, 42, "graphs"⟩

/-! ## float64 arithmetic, for the statements that rounding decides -/

/-- The position of the highest set bit of `n`, and 0 for `n ≤ 1`; the fuel
bounds the number of bits. -/
def log2Loop : Nat → Nat → Nat
  | 0, _ => 0
  | fuel + 1, n => if n ≤ 1 then 0 else log2Loop fuel (n / 2) + 1

/-- The position of the highest set bit of a number below `2^256`. -/
def log2 (n : Nat) : Nat := log2Loop 256 n

/-- The integer square root, bit by bit from bit `i - 1` down. -/
def isqrtLoop (n : Nat) : Nat → Nat → Nat
  | 0, r => r
  | i + 1, r =>
    if (r + 2 ^ i) * (r + 2 ^ i) ≤ n then isqrtLoop n i (r + 2 ^ i) else isqrtLoop n i r

/-- The integer square root of a number below `2^128`. -/
def isqrt (n : Nat) : Nat := isqrtLoop n 64 0

/-- Modelled language: a finite `float64` value `m * 2^e` of the normal range.
Zero is `⟨0, 0⟩`; every other value has `2^52 ≤ |m| < 2^53`. -/
structure F64 where
  m : Int
  e : Int
deriving DecidableEq

/-- Modelled language: rounding of the exact value `m * 2^e` to the nearest
`float64`, ties to the even mantissa (overflow and subnormal values are not
modelled). -/
def F64.round (m e : Int) : F64 :=
  if m = 0 then ⟨0, 0⟩
  else
    let n := m.natAbs
    let b := log2 n
    if b ≤ 52 then ⟨m * ((2 ^ (52 - b) : Nat) : Int), e - ((52 - b : Nat) : Int)⟩
    else
      let k := b - 52
      let q := n / 2 ^ k
      let r := n % 2 ^ k
      let half := 2 ^ (k - 1)
      let q1 := if r > half ∨ (r = half ∧ q % 2 = 1) then q + 1 else q
      if q1 = 2 ^ 53 then ⟨m.sign * ((2 ^ 52 : Nat) : Int), e + ((k + 1 : Nat) : Int)⟩
      else ⟨m.sign * (q1 : Int), e + (k : Int)⟩

/-- Modelled language: rounding of the exact quotient `(a / b) * 2^e`, `b > 0`:
a quotient of at least 55 bits with a sticky bit for the remainder is rounded. -/
def F64.roundQuot (a : Int) (b : Nat) (e : Int) : F64 :=
  let n := a.natAbs
  let s := 56 + log2 b - log2 n
  let q := n * 2 ^ s / b
  let sticky := if n * 2 ^ s % b = 0 then 0 else 1
  F64.round (a.sign * ((2 * q + sticky : Nat) : Int)) (e - (s : Int) - 1)

/-- Modelled language: the `float64` nearest to the rational `a / b`, the value
of a decimal literal. -/
def F64.ofRat (a : Int) (b : Nat) : F64 := F64.roundQuot a b 0

/-- Modelled language: the exact value of a `float64`. -/
def F64.toRat (x : F64) : ℚ := (x.m : ℚ) * (2 : ℚ) ^ x.e

/-- Modelled language: `x + y` on `float64`. -/
def F64.add (x y : F64) : F64 :=
  let e := min x.e y.e
  F64.round (x.m * ((2 ^ (x.e - e).toNat : Nat) : Int) + y.m * ((2 ^ (y.e - e).toNat : Nat) : Int)) e

/-- Modelled language: `x - y` on `float64`. -/
def F64.sub (x y : F64) : F64 := F64.add x ⟨-y.m, y.e⟩

/-- Modelled language: `x * y` on `float64`. -/
def F64.mul (x y : F64) : F64 := F64.round (x.m * y.m) (x.e + y.e)

/-- Modelled language: `x / y` on `float64`, for `y` not zero. -/
def F64.div (x y : F64) : F64 :=
  F64.roundQuot (x.m * y.m.sign) y.m.natAbs (x.e - y.e)

/-- Modelled library: `math.Sqrt` on a `float64` that is not negative,
correctly rounded: the integer square root of the mantissa scaled to at least
108 bits, with a sticky bit when the root is not exact. -/
def F64.sqrt (x : F64) : F64 :=
  if x.m ≤ 0 then ⟨0, 0⟩
  else
    let t : Nat := if x.e % 2 = 0 then 56 else 57
    let n := x.m.natAbs * 2 ^ t
    let r := isqrt n
    if r * r = n then F64.round r ((x.e - (t : Int)) / 2)
    else F64.round ((2 * r + 1 : Nat) : Int) ((x.e - (t : Int)) / 2 - 1)


/-- Source: `type Location struct { X, Y float64 }`, with `float64` coordinates. -/
structure Location64 where
  X : F64
  Y : F64
deriving DecidableEq

/-- Source: `func (l *Location) enhance(realLocation *Location)` in `float64`
arithmetic; `0.1` is the `float64` nearest to 1/10. -/
def Location64.enhance (l realLocation : Location64) : Location64 :=
  ⟨F64.add l.X (F64.mul (F64.sub realLocation.X l.X) (F64.ofRat 1 10)),
    F64.add l.Y (F64.mul (F64.sub realLocation.Y l.Y) (F64.ofRat 1 10))⟩

/-- Source: `func distance(l1, l2 *Location) float64` in `float64` arithmetic. -/
def distance64 (l1 l2 : Location64) : F64 :=
  let x := F64.sub l1.X l2.X
  let y := F64.sub l1.Y l2.Y
  F64.sqrt (F64.add (F64.mul x x) (F64.mul y y))

/-- Source: the recomputation of one coordinate in `centroid.feed` in `float64`
arithmetic: `x = 0; for _, value := range xs { x += value }` and then
`x / float64(len(xs))`. -/
def centroidCoordinate64 (xs : List F64) : F64 :=
  F64.div (xs.foldl (fun acc value => F64.add acc value) ⟨0, 0⟩) (F64.ofRat xs.length 1)

/-- Four feeds of id 1 at the location `(1, 1)`. -/
def unitFeeds : List (Signals × Location) :=
  [([⟨1, -55⟩], ⟨1, 1⟩), ([⟨1, -55⟩], ⟨1, 1⟩), ([⟨1, -55⟩], ⟨1, 1⟩), ([⟨1, -55⟩], ⟨1, 1⟩)]

/-! ## engine.go: the algorithms and the first test cycle of `Run` -/

/-- Source: the interface `algorithm`, with its two implementations
`*fingerprinting` and `*centroid`. -/
inductive algorithm where
  | ofFingerprinting (f : fingerprinting)
  | ofCentroid (c : centroid)

/-- Source: the method `feed` of the interface `algorithm`; `none` is a panic. -/
def algorithm.feed : algorithm → Signals → Location → Option algorithm
  | .ofFingerprinting f, signals, location =>
    match f.feed signals location with
    | .ok f1 _ => some (.ofFingerprinting f1)
    | .panic _ => none
  | .ofCentroid c, signals, location => some (.ofCentroid (c.feed signals location))

/-- Source: the method `read` of the interface `algorithm`; `none` is a panic. -/
def algorithm.read : algorithm → Signals → Location →
    Option (algorithm × (Option Location × Bool))
  | .ofFingerprinting f, signals, location =>
    match f.read signals location with
    | .ok f1 r => some (.ofFingerprinting f1, r)
    | .panic _ => none
  | .ofCentroid c, signals, location =>
    some (.ofCentroid (c.read signals location).1, (c.read signals location).2)

/-- The `Signals` value of the readings of `Read`; `value` gives the strength of
a reading as the rational number its `float64` holds. -/
def toSignals {α : Type} (value : α → ℚ) (readings : List (Reading α)) : Signals :=
  readings.map (fun r => ⟨r.id, value r.signalStrength⟩)

/-- Source: the entries of `algorithmErrors`, `algorithmMisses`,
`centerAlgorithmErrors` and `centerAlgorithmMisses` of `Run` for one algorithm
and one cycle. -/
structure cycleRecord (α : Type) where
  errors : List α
  misses : Nat
  centerErrors : List α
  centerMisses : Nat

/-- Source: the loop `for _, algorithm := range e.algorithms` of `seed`. -/
def feedAlgorithms (signals : Signals) (location : Location) :
    List (String × algorithm) → Option (List (String × algorithm))
  | [] => some []
  | (name, a) :: rest =>
    match a.feed signals location with
    | none => none
    | some a1 => (feedAlgorithms signals location rest).map (fun r => (name, a1) :: r)

/-- Source: `func (e *engine) seed()`, over its grid of locations. -/
def seedLoop {α : Type} [LinearOrderedField α] (math : Math α) (value : α → ℚ) (m : Map) :
    List Location → Globals → List (String × algorithm) →
      Option (Globals × List (String × algorithm))
  | [], g, algorithms => some (g, algorithms)
  | location :: rest, g, algorithms =>
    match feedAlgorithms (toSignals value (Map.Read math g m location).2) location
        algorithms with
    | none => none
    | some fed => seedLoop math value m rest (Map.Read math g m location).1 fed

/-- Source: the test `location.X >= testMinWidth && ... && location.Y <=
testMaxHeight` of `Run`, the square of 500 m around the centre of the map. -/
def inCenter (config : Configuration) (location : Location) : Bool :=
  decide (location.X ≥ config.MapWidth / 2 - 250 ∧ location.X ≤ config.MapWidth / 2 + 250 ∧
    location.Y ≥ config.MapHeight / 2 - 250 ∧ location.Y ≤ config.MapHeight / 2 + 250)

/-- Source: the loop `for name, algorithm := range e.algorithms` of a test
location in `Run`: each algorithm reads the signals, and its error or miss is
recorded; `none` is a panic. -/
def testAlgorithms {α : Type} [LinearOrderedField α] (math : Math α) (center : Bool)
    (signals : Signals) (location : Location) :
    List (String × algorithm × cycleRecord α) →
      Option (List (String × algorithm × cycleRecord α))
  | [] => some []
  | (name, a, record) :: rest =>
    match a.read signals location with
    | none => none
    | some (_, (none, true)) => none
    | some (a1, (some estimatedLocation, true)) =>
      let error := distance math location estimatedLocation
      let record1 : cycleRecord α :=
        if center then { record with centerErrors := record.centerErrors ++ [error] }
        else record
      let record2 : cycleRecord α := { record1 with errors := record1.errors ++ [error] }
      (testAlgorithms math center signals location rest).map
        (fun r => (name, a1, record2) :: r)
    | some (a1, (_, false)) =>
      let record1 : cycleRecord α :=
        if center then { record with centerMisses := record.centerMisses + 1 } else record
      let record2 : cycleRecord α := { record1 with misses := record1.misses + 1 }
      (testAlgorithms math center signals location rest).map
        (fun r => (name, a1, record2) :: r)

/-- Source: the loop `for _, location := range locations` of one cycle of `Run`. -/
def testLoop {α : Type} [LinearOrderedField α] (math : Math α) (value : α → ℚ)
    (config : Configuration) (m : Map) :
    List Location → Globals → List (String × algorithm × cycleRecord α) →
      Option (Globals × List (String × algorithm × cycleRecord α))
  | [], g, records => some (g, records)
  | location :: rest, g, records =>
    match testAlgorithms math (inCenter config location)
        (toSignals value (Map.Read math g m location).2) location records with
    | none => none
    | some tested => testLoop math value config m rest (Map.Read math g m location).1 tested

/-- Source: `func (e *engine) Run()` up to the end of cycle 0: `seed`, the test
grid, its shuffle with the package-level generator `source` of `math/rand`, and
the reads of the algorithms in the shuffled order. The result is the record of
cycle 0 for each algorithm; `fuel` bounds the steps of each grid loop. -/
def engine.firstCycle {α : Type} [LinearOrderedField α] (math : Math α) (value : α → ℚ)
    (g : Globals) (source : Rand) (e : engine) (algorithms : List (String × algorithm))
    (fuel : Nat) : Option (List (String × cycleRecord α)) :=
  match seedLoop math value e.m
      (seedLocations fuel e.config.MapWidth e.config.MapHeight e.config.SeedDistance)
      g algorithms with
  | none => none
  | some (g1, seeded) =>
    match testLoop math value e.config e.m
        (shuffleLocations source
          (testLocations fuel e.config.MapWidth e.config.MapHeight e.config.TestDistance)).2
        g1 (seeded.map (fun p => (p.1, p.2, ⟨[], 0, [], 0⟩))) with
    | none => none
    | some (_, records) => some (records.map (fun p => (p.1, p.2.2)))

/-- Source: the program of `simulator.go` up to the end of cycle 0: `NewEngine`,
`AddAlgorithm` for each algorithm, and `Run`. `g` holds the process-wide
variables as `init` left them and `source` is the package-level generator of
`math/rand`, both seeded from the clock. -/
def simulateFirstCycle {α : Type} [LinearOrderedField α] (math : Math α) (value : α → ℚ)
    (g : Globals) (newSource : Int → Rand) (source : Rand) (config : Configuration)
    (algorithms : List (String × algorithm)) (fuel : Nat) :
    Option (List (String × cycleRecord α)) :=
  match NewEngine g newSource config with
  | .error _ => none
  | .ok (g1, e) => e.firstCycle math value g1 source algorithms fuel

/-- The draw `Float64` returns at the `k`-th call from now. -/
def drawAt (r : Rand) (k : Nat) : ℚ := ((r.draws (r.pos + k) % 2 ^ 53 : Nat) : ℚ) / 2 ^ 53

/-- The plain fingerprinting variant after one feed of a single signal of id 1. -/
def seededFingerprinting (v : ℚ) (location : Location) : fingerprinting :=
  (NewFingerprinting.feed [⟨1, v⟩] location).state

/-- A stream of draws that meets the conditions of the example: 1/4, 1/8, then
1/16 except for 3/4 at the seventh draw. -/
def exampleStream : Nat → Nat :=
  fun i => if i = 0 then 2 ^ 51 else if i = 1 then 2 ^ 50 else if i = 6 then 3 * 2 ^ 51
    else 2 ^ 49

/-! ## Facts about well-formed keys -/

theorem takeWhile_append_zeros (l : List Int)
    (h : ∀ x ∈ l.dropWhile (fun x => x ≠ 0), x = 0) (i : Nat) :
    l.getD i 0 = (l.takeWhile (fun x => x ≠ 0)).getD i 0 := by
  conv_lhs => rw [← List.takeWhile_append_dropWhile (fun x => decide (x ≠ 0)) l]
  by_cases hi : i < (l.takeWhile (fun x => x ≠ 0)).length
  · rw [List.getD_append _ _ _ _ hi]
  · push_neg at hi
    rw [List.getD_append_right _ _ _ _ hi, List.getD_eq_default _ _ hi]
    by_cases hj : i - (l.takeWhile (fun x => x ≠ 0)).length
        < (l.dropWhile (fun x => x ≠ 0)).length
    · rw [List.getD_eq_getElem _ _ hj]
      exact h _ (List.getElem_mem _)
    · exact List.getD_eq_default _ _ (by omega)

theorem filter_ne_zero_eq_takeWhile (l : List Int)
    (h : ∀ x ∈ l.dropWhile (fun x => x ≠ 0), x = 0) :
    l.filter (fun x => x ≠ 0) = l.takeWhile (fun x => x ≠ 0) := by
  conv_lhs => rw [← List.takeWhile_append_dropWhile (fun x => decide (x ≠ 0)) l]
  rw [List.filter_append]
  have h1 : (l.takeWhile (fun x => x ≠ 0)).filter (fun x => x ≠ 0)
      = l.takeWhile (fun x => x ≠ 0) := by
    rw [List.filter_eq_self]
    intro x hx
    have := List.mem_takeWhile_imp (p := fun x => decide (x ≠ 0)) hx
    simpa using this
  have h2 : (l.dropWhile (fun x => x ≠ 0)).filter (fun x => x ≠ 0) = [] := by
    rw [List.filter_eq_nil_iff]
    intro x hx
    simp [h x hx]
  rw [h1, h2, List.append_nil]

theorem KeyOf_of_wellFormed (k : Key) (h : k.WellFormed) : KeyOf k k.idList := by
  obtain ⟨h1, h2, h3⟩ := h
  refine ⟨h1, h2, ?_, ?_, ?_⟩
  · have := (List.takeWhile_sublist (fun x => decide (x ≠ 0)) (l := k.ids)).length_le
    rw [k.size] at this
    exact this
  · intro i
    exact takeWhile_append_zeros k.ids h3 i
  · unfold Key.idSet
    rw [filter_ne_zero_eq_takeWhile k.ids h3]
    rfl

theorem KeyOf.get_ne_zero_iff {k : Key} {xs : List Int} (h : KeyOf k xs) (i : Nat) :
    (i < keyLength ∧ k.get i ≠ 0) ↔ i < xs.length := by
  obtain ⟨_, hpos, hlen, hget, _⟩ := h
  rw [hget i]
  constructor
  · rintro ⟨_, hne⟩
    by_contra hi
    exact hne (List.getD_eq_default _ _ (by omega))
  · intro hi
    refine ⟨by omega, ?_⟩
    rw [List.getD_eq_getElem _ _ hi]
    exact (hpos _ (List.getElem_mem _)).ne'

theorem KeyOf.get_eq {k : Key} {xs : List Int} (h : KeyOf k xs) {i : Nat}
    (hi : i < xs.length) : k.get i = xs[i] := by
  rw [h.2.2.2.1 i, List.getD_eq_getElem _ _ hi]

/-- The second loop counts exactly the entries left in the run. -/
theorem setDifferenceRest_eq {k : Key} {xs : List Int} (h : KeyOf k xs) :
    ∀ (fuel i d : Nat), i ≤ xs.length → xs.length - i ≤ fuel →
      setDifferenceRest k fuel i d = d + (xs.length - i) := by
  intro fuel
  induction fuel with
  | zero =>
    intro i d _ hf
    simp only [setDifferenceRest]
    omega
  | succ n ih =>
    intro i d hi hf
    simp only [setDifferenceRest]
    by_cases hc : i < xs.length
    · rw [if_pos ((h.get_ne_zero_iff i).mpr hc), ih (i + 1) (d + 1) (by omega) (by omega)]
      omega
    · rw [if_neg (fun hh => hc ((h.get_ne_zero_iff i).mp hh))]
      omega

theorem countNotIn_nil_right (xs : List Int) : countNotIn xs [] = xs.length := by
  simp [countNotIn]

theorem countNotIn_cons_of_mem {x : Int} {xs ys : List Int} (h : x ∈ ys) :
    countNotIn (x :: xs) ys = countNotIn xs ys := by
  simp [countNotIn, List.filter_cons, h]

theorem countNotIn_cons_of_not_mem {x : Int} {xs ys : List Int} (h : x ∉ ys) :
    countNotIn (x :: xs) ys = countNotIn xs ys + 1 := by
  simp [countNotIn, List.filter_cons, h]

theorem countNotIn_congr {xs ys zs : List Int} (h : ∀ x ∈ xs, x ∈ ys ↔ x ∈ zs) :
    countNotIn xs ys = countNotIn xs zs := by
  unfold countNotIn
  congr 1
  apply List.filter_congr
  intro x hx
  simp [h x hx]

/-- In an ascending list the element at `i` is below everything after it. -/
theorem lt_of_mem_drop_succ {xs : List Int} (hs : xs.Pairwise (· < ·)) {i : Nat}
    (hi : i < xs.length) : ∀ z ∈ xs.drop (i + 1), xs[i] < z := by
  have h := hs.drop (n := i)
  rw [List.drop_eq_getElem_cons hi, List.pairwise_cons] at h
  exact h.1

/-- The merge loop followed by the counting loop yields the number of entries
of the first run, from `i1` on, that are missing from the second run from `i2` on. -/
theorem setDifferenceMerge_eq {a b : Key} {xs ys : List Int} (ha : KeyOf a xs)
    (hb : KeyOf b ys) :
    ∀ (fuel i1 i2 d : Nat), i1 ≤ xs.length → i2 ≤ ys.length →
      (xs.length - i1) + (ys.length - i2) ≤ fuel →
      setDifferenceRest a keyLength (setDifferenceMerge a b fuel i1 i2 d).1
          (setDifferenceMerge a b fuel i1 i2 d).2
        = d + countNotIn (xs.drop i1) (ys.drop i2) := by
  have hxl : xs.length ≤ keyLength := ha.2.2.1
  intro fuel
  induction fuel with
  | zero =>
    intro i1 i2 d h1 h2 hf
    simp only [setDifferenceMerge]
    rw [setDifferenceRest_eq ha keyLength i1 d h1 (by omega)]
    have : xs.drop i1 = [] := List.drop_eq_nil_of_le (by omega)
    rw [this]
    simp [countNotIn]
    omega
  | succ n ih =>
    intro i1 i2 d h1 h2 hf
    simp only [setDifferenceMerge]
    by_cases hc : i1 < xs.length ∧ i2 < ys.length
    · obtain ⟨hc1, hc2⟩ := hc
      have hcond : i1 < keyLength ∧ i2 < keyLength ∧ a.get i1 ≠ 0 ∧ b.get i2 ≠ 0 := by
        have e1 := (ha.get_ne_zero_iff i1).mpr hc1
        have e2 := (hb.get_ne_zero_iff i2).mpr hc2
        exact ⟨e1.1, e2.1, e1.2, e2.2⟩
      rw [if_pos hcond, ha.get_eq hc1, hb.get_eq hc2]
      have hx := lt_of_mem_drop_succ ha.1 hc1
      have hy := lt_of_mem_drop_succ hb.1 hc2
      rw [List.drop_eq_getElem_cons hc1, List.drop_eq_getElem_cons hc2]
      by_cases hlt : xs[i1] < ys[i2]
      · rw [if_pos hlt, ih (i1 + 1) i2 (d + 1) (by omega) h2 (by omega)]
        have hnm : xs[i1] ∉ ys[i2] :: ys.drop (i2 + 1) := by
          intro hm
          rcases List.mem_cons.mp hm with e | e
          · omega
          · have := hy _ e
            omega
        rw [countNotIn_cons_of_not_mem hnm, List.drop_eq_getElem_cons hc2]
        omega
      · rw [if_neg hlt]
        by_cases hgt : xs[i1] > ys[i2]
        · rw [if_pos hgt, ih i1 (i2 + 1) d h1 (by omega) (by omega)]
          rw [List.drop_eq_getElem_cons hc1]
          congr 1
          apply countNotIn_congr
          intro x hx1
          have hge : xs[i1] ≤ x := by
            rcases List.mem_cons.mp hx1 with e | e
            · omega
            · exact (hx _ e).le
          constructor
          · intro hm
            exact List.mem_cons_of_mem _ hm
          · intro hm
            rcases List.mem_cons.mp hm with e | e
            · omega
            · exact e
        · rw [if_neg hgt, ih (i1 + 1) (i2 + 1) d (by omega) (by omega) (by omega)]
          have heq : xs[i1] = ys[i2] := by omega
          have hm : xs[i1] ∈ ys[i2] :: ys.drop (i2 + 1) := by
            rw [heq]
            exact List.mem_cons_self _ _
          rw [countNotIn_cons_of_mem hm]
          congr 1
          apply countNotIn_congr
          intro x hx1
          have hgt2 : ys[i2] < x := by
            rw [← heq]
            exact hx _ hx1
          constructor
          · intro hm2
            exact List.mem_cons_of_mem _ hm2
          · intro hm2
            rcases List.mem_cons.mp hm2 with e | e
            · omega
            · exact e
    · have hncond : ¬ (i1 < keyLength ∧ i2 < keyLength ∧ a.get i1 ≠ 0 ∧ b.get i2 ≠ 0) := by
        rintro ⟨e1, e2, e3, e4⟩
        exact hc ⟨(ha.get_ne_zero_iff i1).mp ⟨e1, e3⟩, (hb.get_ne_zero_iff i2).mp ⟨e2, e4⟩⟩
      rw [if_neg hncond, setDifferenceRest_eq ha keyLength i1 d h1 (by omega)]
      congr 1
      by_cases hc1 : i1 < xs.length
      · have hy0 : ys.drop i2 = [] := List.drop_eq_nil_of_le (by omega)
        rw [hy0, countNotIn_nil_right, List.length_drop]
      · have hx0 : xs.drop i1 = [] := List.drop_eq_nil_of_le (by omega)
        rw [hx0]
        simp [countNotIn]
        omega

/-- On well-formed keys `setDifference` counts the entries of the first run
that are missing from the second run. -/
theorem setDifference_eq_countNotIn {a b : Key} {xs ys : List Int} (ha : KeyOf a xs)
    (hb : KeyOf b ys) : setDifference a b = countNotIn xs ys := by
  have hyl : ys.length ≤ keyLength := hb.2.2.1
  have hxl : xs.length ≤ keyLength := ha.2.2.1
  have h := setDifferenceMerge_eq ha hb (2 * keyLength) 0 0 0 (Nat.zero_le _) (Nat.zero_le _)
    (by omega)
  simpa [setDifference] using h

theorem countNotIn_eq_card {xs ys : List Int} (hx : xs.Nodup) :
    countNotIn xs ys = (xs.toFinset \ ys.toFinset).card := by
  unfold countNotIn
  have hnd : (xs.filter (fun x => x ∉ ys)).Nodup := hx.filter _
  rw [← List.toFinset_card_of_nodup hnd]
  congr 1
  ext x
  simp

/-- On well-formed keys `setDifference` is the size of the set difference of the
id sets. -/
theorem setDifference_eq_card (a b : Key) (ha : a.WellFormed) (hb : b.WellFormed) :
    setDifference a b = (a.idSet \ b.idSet).card := by
  have ka := KeyOf_of_wellFormed a ha
  have kb := KeyOf_of_wellFormed b hb
  rw [setDifference_eq_countNotIn ka kb, ka.2.2.2.2, kb.2.2.2.2]
  exact countNotIn_eq_card (ka.1.imp (fun h => h.ne))

/-! ## Facts about `Signals.Key` -/

theorem length_sortInts (l : List Int) : (sortInts l).length = l.length := by
  simp [sortInts]

theorem Key_of_length_le (signals : Signals) (h : signals.length ≤ keyLength) :
    ∃ k, signals.Key = some k ∧
      k.ids = sortInts (signals.map (fun s => s.id))
        ++ List.replicate (keyLength - signals.length) 0 := by
  unfold Signals.Key
  rw [dif_neg (by omega)]
  refine ⟨_, rfl, ?_⟩
  simp only [length_sortInts, List.length_map]

theorem Key_of_length_gt (signals : Signals) (h : keyLength < signals.length) :
    signals.Key = none := by
  unfold Signals.Key
  rw [dif_pos h]

theorem sortInts_perm (l : List Int) : (sortInts l).Perm l :=
  List.perm_insertionSort _ l

theorem sortInts_pairwise_lt (l : List Int) (hnd : l.Nodup) :
    (sortInts l).Pairwise (· < ·) := by
  have hs : (sortInts l).Sorted (· ≤ ·) := List.sorted_insertionSort _ l
  have hn : (sortInts l).Nodup := (sortInts_perm l).nodup_iff.mpr hnd
  exact hs.lt_of_le hn

theorem takeWhile_ne_zero_append_zeros (l : List Int) (m : Nat) (h : ∀ x ∈ l, x ≠ 0) :
    (l ++ List.replicate m 0).takeWhile (fun x => x ≠ 0) = l := by
  rw [List.takeWhile_append_of_pos (by simpa using h)]
  simp

theorem dropWhile_ne_zero_append_zeros (l : List Int) (m : Nat) (h : ∀ x ∈ l, x ≠ 0) :
    (l ++ List.replicate m 0).dropWhile (fun x => x ≠ 0) = List.replicate m 0 := by
  rw [List.dropWhile_append_of_pos (by simpa using h)]
  simp

/-- The key of a signal set with distinct positive ids is the sorted id list
padded with zeros; it is well-formed and holds exactly the ids of the set. -/
theorem Key_of_signals_wellFormed (signals : Signals) (k : Key)
    (hk : k.ids = sortInts (signals.map (fun s => s.id))
        ++ List.replicate (keyLength - signals.length) 0)
    (hnd : (signals.map (fun s => s.id)).Nodup) (hpos : ∀ s ∈ signals, 0 < s.id) :
    k.idList = sortInts (signals.map (fun s => s.id)) ∧ k.WellFormed ∧
      k.idSet = (signals.map (fun s => s.id)).toFinset := by
  have hpos2 : ∀ x ∈ sortInts (signals.map (fun s => s.id)), 0 < x := by
    intro x hx
    have := (sortInts_perm _).mem_iff.mp hx
    obtain ⟨s, hs, rfl⟩ := List.mem_map.mp this
    exact hpos s hs
  have hne : ∀ x ∈ sortInts (signals.map (fun s => s.id)), x ≠ 0 :=
    fun x hx => (hpos2 x hx).ne'
  have hid : k.idList = sortInts (signals.map (fun s => s.id)) := by
    unfold Key.idList
    rw [hk]
    exact takeWhile_ne_zero_append_zeros _ _ hne
  have hwf : k.WellFormed := by
    refine ⟨?_, ?_, ?_⟩
    · rw [hid]
      exact sortInts_pairwise_lt _ hnd
    · rw [hid]
      exact hpos2
    · rw [hk, dropWhile_ne_zero_append_zeros _ _ hne]
      intro x hx
      exact (List.mem_replicate.mp hx).2
  refine ⟨hid, hwf, ?_⟩
  rw [(KeyOf_of_wellFormed k hwf).2.2.2.2, hid]
  ext x
  simp only [List.mem_toFinset]
  exact (sortInts_perm _).mem_iff

/-! ## Facts about `fingerprinting.feed` -/

theorem sortByID_perm (signals : Signals) : (sortByID signals).Perm signals :=
  List.perm_insertionSort _ signals

theorem length_sortByID (signals : Signals) : (sortByID signals).length = signals.length :=
  (sortByID_perm signals).length_eq

theorem sortByID_distinctPositive (signals : Signals) (h : DistinctPositive signals) :
    DistinctPositive (sortByID signals) := by
  refine ⟨?_, ?_⟩
  · exact ((sortByID_perm signals).map _).nodup_iff.mpr h.1
  · intro s hs
    exact h.2 s ((sortByID_perm signals).mem_iff.mp hs)

theorem sortByID_ids_toFinset (signals : Signals) :
    ((sortByID signals).map (fun s => s.id)).toFinset
      = (signals.map (fun s => s.id)).toFinset := by
  ext x
  simp only [List.mem_toFinset]
  exact ((sortByID_perm signals).map _).mem_iff

/-- When `Key` returns on a signal set with distinct positive ids, the key is
well-formed and holds exactly the ids of the set. -/
theorem Key_some_wellFormed (signals : Signals) (k : Key) (hk : signals.Key = some k)
    (h : DistinctPositive signals) :
    k.WellFormed ∧ k.idSet = (signals.map (fun s => s.id)).toFinset := by
  have hle : signals.length ≤ keyLength := by
    by_contra hgt
    rw [Key_of_length_gt signals (by omega)] at hk
    exact Option.noConfusion hk
  obtain ⟨k2, hk2, hids⟩ := Key_of_length_le signals hle
  rw [hk] at hk2
  cases hk2
  exact (Key_of_signals_wellFormed signals k hids h.1 h.2).2

theorem mapAppend_storedOK (m : List (Key × fingerprints)) (key : Key) (fp : fingerprint)
    (hm : StoredOK m) (hfp : DistinctPositive fp.signals)
    (hkey : Signals.Key fp.signals = some key) :
    StoredOK (mapAppend m key fp) := by
  induction m with
  | nil =>
    intro e he
    simp only [mapAppend, List.mem_singleton] at he
    subst he
    refine ⟨by simp, ?_⟩
    intro fp2 hfp2
    simp only [List.mem_singleton] at hfp2
    subst hfp2
    exact ⟨hfp, hkey⟩
  | cons e0 rest ih =>
    obtain ⟨k0, fps0⟩ := e0
    have h0 := hm (k0, fps0) (List.mem_cons_self _ _)
    have hrest : StoredOK rest := fun e he => hm e (List.mem_cons_of_mem _ he)
    intro e he
    simp only [mapAppend] at he
    by_cases hk : k0 = key
    · rw [if_pos hk] at he
      rcases List.mem_cons.mp he with rfl | hmem
      · refine ⟨by simp, ?_⟩
        intro fp2 hfp2
        rcases List.mem_append.mp hfp2 with h1 | h1
        · exact h0.2 fp2 h1
        · simp only [List.mem_singleton] at h1
          subst h1
          simp only
          rw [hk]
          exact ⟨hfp, hkey⟩
      · exact hrest e hmem
    · rw [if_neg hk] at he
      rcases List.mem_cons.mp he with rfl | hmem
      · exact h0
      · exact ih hrest e hmem

/-- `feed` on a signal set with distinct positive ids keeps the invariant of the
fingerprint map and touches nothing else. -/
theorem feed_storedOK (f f2 : fingerprinting) (signals : Signals) (location : Location)
    (hfeed : f.feed signals location = Outcome.ok f2 ()) (hs : DistinctPositive signals)
    (hm : StoredOK f.fingerprintMap) :
    StoredOK f2.fingerprintMap ∧ f2.food = f.food ∧ f2.bestMatches = f.bestMatches ∧
      f2.enhanced = f.enhanced ∧ f2.learning = f.learning ∧ f2.smart = f.smart := by
  unfold fingerprinting.feed at hfeed
  by_cases h0 : f.enhanced = true ∧ signals.length = 0
  · rw [if_pos h0] at hfeed
    cases hfeed
    exact ⟨hm, rfl, rfl, rfl, rfl, rfl⟩
  · rw [if_neg h0] at hfeed
    simp only at hfeed
    cases hk : Signals.Key (sortByID signals) with
    | none =>
      rw [hk] at hfeed
      cases hfeed
    | some key =>
      rw [hk] at hfeed
      cases hfeed
      exact ⟨mapAppend_storedOK _ key _ hm (sortByID_distinctPositive _ hs) hk,
        rfl, rfl, rfl, rfl, rfl⟩

/-- Under the invariant every stored key is well-formed. -/
theorem StoredOK.wellFormed {m : List (Key × fingerprints)} (hm : StoredOK m)
    {e : Key × fingerprints} (he : e ∈ m) : e.1.WellFormed := by
  obtain ⟨hne, hall⟩ := hm e he
  obtain ⟨fp, hfp⟩ := List.exists_mem_of_ne_nil _ hne
  exact (Key_some_wellFormed fp.signals e.1 (hall fp hfp).2 (hall fp hfp).1).1

/-- Feeding a sequence of signal sets with distinct positive ids keeps the
invariant of the fingerprint map and touches nothing else. -/
theorem feedAll_storedOK (feeds : List food) :
    ∀ (f f2 : fingerprinting), feedAll f feeds = Outcome.ok f2 () →
      (∀ fd ∈ feeds, DistinctPositive fd.signals) → StoredOK f.fingerprintMap →
      StoredOK f2.fingerprintMap ∧ f2.food = f.food ∧ f2.bestMatches = f.bestMatches ∧
        f2.enhanced = f.enhanced ∧ f2.learning = f.learning ∧ f2.smart = f.smart := by
  induction feeds with
  | nil =>
    intro f f2 h _ hm
    simp only [feedAll] at h
    cases h
    exact ⟨hm, rfl, rfl, rfl, rfl, rfl⟩
  | cons fd rest ih =>
    intro f f2 h hs hm
    simp only [feedAll] at h
    cases h1 : f.feed fd.signals fd.location with
    | panic f1 =>
      rw [h1] at h
      cases h
    | ok f1 u =>
      rw [h1] at h
      obtain ⟨a1, a2, a3, a4, a5, a6⟩ :=
        feed_storedOK f f1 fd.signals fd.location h1 (hs fd (List.mem_cons_self _ _)) hm
      obtain ⟨b1, b2, b3, b4, b5, b6⟩ :=
        ih f1 f2 h (fun x hx => hs x (List.mem_cons_of_mem _ hx)) a1
      exact ⟨b1, b2.trans a2, b3.trans a3, b4.trans a4, b5.trans a5, b6.trans a6⟩

/-- `feed` returns on every signal set of at most 50 signals. -/
theorem feed_ok (f : fingerprinting) (signals : Signals) (location : Location)
    (hlen : signals.length ≤ keyLength) : ∃ f2, f.feed signals location = Outcome.ok f2 () := by
  unfold fingerprinting.feed
  by_cases h0 : f.enhanced = true ∧ signals.length = 0
  · rw [if_pos h0]
    exact ⟨f, rfl⟩
  · rw [if_neg h0]
    obtain ⟨k, hk, _⟩ := Key_of_length_le (sortByID signals) (by rw [length_sortByID]; exact hlen)
    simp only [hk]
    exact ⟨_, rfl⟩

/-- The learning step of `read` returns when the signal set fits a key and the
pending buffer is short of its batch size. -/
theorem learn_ok (f : fingerprinting) (signals : Signals) (location : Location)
    (hlen : signals.length ≤ keyLength) (hfood : f.food.length < 1000) :
    ∃ f2, f.learn signals location = Outcome.ok f2 () := by
  unfold fingerprinting.learn
  by_cases hl : f.learning = true
  · rw [if_pos hl]
    by_cases hsm : f.smart = true
    · rw [if_pos hsm]
      simp only [List.length_append, List.length_singleton]
      rw [if_neg (by omega)]
      exact ⟨_, rfl⟩
    · rw [if_neg hsm]
      exact feed_ok f signals location hlen
  · rw [if_neg hl]
    exact ⟨f, rfl⟩

/-! ## Facts about the loops of `fingerprinting.read` -/

theorem getD_replicate_nil (n i : Nat) :
    (List.replicate n ([] : fingerprints)).getD i [] = [] := by
  by_cases hi : i < n
  · rw [List.getD_eq_getElem _ _ (by simpa using hi), List.getElem_replicate]
  · exact List.getD_eq_default _ _ (by simpa using hi)

theorem length_appendBucket (pm : List fingerprints) (d : Nat) (fps : fingerprints) :
    (appendBucket pm d fps).length = pm.length := by
  induction pm generalizing d with
  | nil => rfl
  | cons b rest ih =>
    cases d with
    | zero => rfl
    | succ d => simp [appendBucket, ih]

theorem getD_appendBucket (pm : List fingerprints) (d : Nat) (fps : fingerprints)
    (hd : d < pm.length) (i : Nat) :
    (appendBucket pm d fps).getD i [] =
      if i = d then pm.getD i [] ++ fps else pm.getD i [] := by
  induction pm generalizing d i with
  | nil => simp at hd
  | cons b rest ih =>
    cases d with
    | zero =>
      cases i with
      | zero => simp [appendBucket]
      | succ i => simp [appendBucket]
    | succ d =>
      cases i with
      | zero => simp [appendBucket]
      | succ i =>
        have := ih d (by simpa using hd) i
        simpa [appendBucket] using this

/-- The first loop of `read` returns when every distance is inside the slice,
and then bucket `d` has gained the fingerprints of the entries at distance `d`. -/
theorem fillBuckets_eq (ids : Key) :
    ∀ (m : List (Key × fingerprints)) (pm : List fingerprints),
      (∀ e ∈ m, setDifference ids e.1 < pm.length) →
      ∃ pm2, fillBuckets ids m pm = some pm2 ∧ pm2.length = pm.length ∧
        ∀ d, pm2.getD d [] = pm.getD d [] ++ groupAt ids m d := by
  intro m
  induction m with
  | nil =>
    intro pm _
    exact ⟨pm, rfl, rfl, fun d => by simp [groupAt]⟩
  | cons e rest ih =>
    intro pm h
    obtain ⟨k, fps⟩ := e
    have hk : setDifference ids k < pm.length := h (k, fps) (List.mem_cons_self _ _)
    have hrest : ∀ e ∈ rest, setDifference ids e.1 < (appendBucket pm (setDifference ids k) fps).length := by
      intro e he
      rw [length_appendBucket]
      exact h e (List.mem_cons_of_mem _ he)
    obtain ⟨pm2, h1, h2, h3⟩ := ih (appendBucket pm (setDifference ids k) fps) hrest
    refine ⟨pm2, ?_, ?_, ?_⟩
    · simp only [fillBuckets]
      rw [if_pos hk]
      exact h1
    · rw [h2, length_appendBucket]
    · intro d
      rw [h3 d, getD_appendBucket pm _ fps hk d]
      simp only [groupAt]
      by_cases hd : d = setDifference ids k
      · rw [if_pos hd, if_pos hd.symm, List.append_assoc]
      · rw [if_neg hd, if_neg (fun h => hd h.symm)]

/-- The first loop of `read` panics when some stored key lies at a distance
outside the slice. -/
theorem fillBuckets_eq_none (ids : Key) :
    ∀ (m : List (Key × fingerprints)) (pm : List fingerprints),
      (∃ e ∈ m, pm.length ≤ setDifference ids e.1) → fillBuckets ids m pm = none := by
  intro m
  induction m with
  | nil =>
    rintro pm ⟨e, he, _⟩
    simp at he
  | cons e rest ih =>
    rintro pm ⟨e2, he2, hle⟩
    obtain ⟨k, fps⟩ := e
    simp only [fillBuckets]
    by_cases hk : setDifference ids k < pm.length
    · rw [if_pos hk]
      apply ih
      rcases List.mem_cons.mp he2 with rfl | hmem
      · exact absurd hk (by simpa using hle)
      · exact ⟨e2, hmem, by rw [length_appendBucket]; exact hle⟩
    · rw [if_neg hk]

/-- The second loop of `read`: it never gathers more than `bestMatches`
locations, a bucket it hands over as `breakers` overflows the budget, and it
comes back empty-handed exactly when every bucket below `len` is empty. -/
theorem selectBuckets_spec (bm n : Nat) :
    ∀ (pm : List fingerprints) (d : Nat) (locs : List Location),
      locs.length ≤ bm → d ≤ n →
      (selectBuckets bm n d pm locs).1.length ≤ bm ∧
      (∀ b, (selectBuckets bm n d pm locs).2 = some b →
        bm < (selectBuckets bm n d pm locs).1.length + b.length) ∧
      (((selectBuckets bm n d pm locs).1 = [] ∧ (selectBuckets bm n d pm locs).2 = none) ↔
        (locs = [] ∧ ∀ i, d + i < n → pm.getD i [] = [])) := by
  intro pm
  induction pm with
  | nil =>
    intro d locs hl _
    simp [selectBuckets, hl]
  | cons b rest ih =>
    intro d locs hl hd
    simp only [selectBuckets]
    by_cases h1 : d = n
    · rw [if_pos h1]
      refine ⟨hl, by simp, ?_⟩
      constructor
      · rintro ⟨h, _⟩
        exact ⟨h, fun i hi => absurd hi (by omega)⟩
      · rintro ⟨h, _⟩
        exact ⟨h, rfl⟩
    · rw [if_neg h1]
      by_cases h2 : locs.length + b.length > bm
      · rw [if_pos h2]
        refine ⟨hl, ?_, ?_⟩
        · intro b2 hb2
          cases hb2
          exact h2
        · constructor
          · rintro ⟨_, h⟩
            exact Option.noConfusion h
          · rintro ⟨hl0, hall⟩
            have hb := hall 0 (by omega)
            simp only [List.getD_cons_zero] at hb
            rw [hl0, hb] at h2
            simp at h2
      · rw [if_neg h2]
        have hl2 : (locs ++ fingerprints.locations b).length ≤ bm := by
          simp only [List.length_append, fingerprints.locations, List.length_map]
          omega
        obtain ⟨i1, i2, i3⟩ := ih (d + 1) (locs ++ fingerprints.locations b) hl2 (by omega)
        refine ⟨i1, i2, ?_⟩
        rw [i3]
        constructor
        · rintro ⟨happ, hall⟩
          obtain ⟨hl0, hb0⟩ := List.append_eq_nil.mp happ
          refine ⟨hl0, ?_⟩
          intro i hi
          cases i with
          | zero =>
            simp only [List.getD_cons_zero]
            exact List.map_eq_nil_iff.mp hb0
          | succ i =>
            simp only [List.getD_cons_succ]
            exact hall i (by omega)
        · rintro ⟨hl0, hall⟩
          have hb := hall 0 (by omega)
          simp only [List.getD_cons_zero] at hb
          refine ⟨by simp [hl0, hb, fingerprints.locations], ?_⟩
          intro i hi
          have := hall (i + 1) (by omega)
          simpa using this

theorem setDifference_lt_card_iff (a b : Key) (ha : a.WellFormed) (hb : b.WellFormed) :
    setDifference a b < a.idSet.card ↔ ∃ x ∈ a.idSet, x ∈ b.idSet := by
  rw [setDifference_eq_card a b ha hb]
  have h := Finset.card_sdiff_add_card_inter a.idSet b.idSet
  constructor
  · intro hlt
    have hpos : 0 < (a.idSet ∩ b.idSet).card := by omega
    obtain ⟨x, hx⟩ := Finset.card_pos.mp hpos
    exact ⟨x, (Finset.mem_inter.mp hx).1, (Finset.mem_inter.mp hx).2⟩
  · rintro ⟨x, hxa, hxb⟩
    have hpos : 0 < (a.idSet ∩ b.idSet).card :=
      Finset.card_pos.mpr ⟨x, Finset.mem_inter.mpr ⟨hxa, hxb⟩⟩
    omega

theorem setDifference_le_card (a b : Key) (ha : a.WellFormed) (hb : b.WellFormed) :
    setDifference a b ≤ a.idSet.card := by
  rw [setDifference_eq_card a b ha hb]
  exact Finset.card_le_card Finset.sdiff_subset

/-- The key of a sorted query with distinct positive ids: it exists when the
query fits, is well-formed, and holds as many ids as the query has signals. -/
theorem query_key (q : Signals) (hq : DistinctPositive q) (hlen : q.length ≤ keyLength) :
    ∃ qk, Signals.Key (sortByID q) = some qk ∧ qk.WellFormed ∧
      qk.idSet = (q.map (fun s => s.id)).toFinset ∧ qk.idSet.card = q.length := by
  obtain ⟨qk, hk, _⟩ := Key_of_length_le (sortByID q) (by rw [length_sortByID]; exact hlen)
  obtain ⟨hwf, hset⟩ := Key_some_wellFormed _ qk hk (sortByID_distinctPositive q hq)
  rw [sortByID_ids_toFinset] at hset
  refine ⟨qk, hk, hwf, hset, ?_⟩
  rw [hset, List.toFinset_card_of_nodup hq.1, List.length_map]

theorem groupAt_eq_nil_iff (ids : Key) (m : List (Key × fingerprints)) (hm : StoredOK m)
    (d : Nat) : groupAt ids m d = [] ↔ ∀ e ∈ m, setDifference ids e.1 ≠ d := by
  induction m with
  | nil => simp [groupAt]
  | cons e rest ih =>
    obtain ⟨k, fps⟩ := e
    have h0 := hm (k, fps) (List.mem_cons_self _ _)
    have hrest : StoredOK rest := fun e he => hm e (List.mem_cons_of_mem _ he)
    simp only [groupAt]
    by_cases hd : setDifference ids k = d
    · rw [if_pos hd]
      constructor
      · intro h
        exact absurd (List.append_eq_nil.mp h).1 h0.1
      · intro h
        exact absurd hd (h (k, fps) (List.mem_cons_self _ _))
    · rw [if_neg hd, ih hrest]
      constructor
      · intro h e he
        rcases List.mem_cons.mp he with rfl | hmem
        · exact hd
        · exact h e hmem
      · intro h e he
        exact h e (List.mem_cons_of_mem _ he)

theorem length_sortByDistance (s : List stuf) : (sortByDistance s).length = s.length :=
  List.length_insertionSort _ s

/-- The tail of `read` returns, and reports success unless it was handed
neither a location nor an overflowing bucket. -/
theorem estimate_ok (f : fingerprinting) (signals : Signals) (locs : List Location)
    (br : Option fingerprints) (hlen : signals.length ≤ keyLength)
    (hfood : f.food.length < 1000) (h1 : locs.length ≤ f.bestMatches)
    (h2 : ∀ b, br = some b → f.bestMatches < locs.length + b.length) :
    ∃ f2 est success, f.estimate signals locs br = Outcome.ok f2 (est, success) ∧
      (success = true ↔ ¬ (locs = [] ∧ br = none)) := by
  unfold fingerprinting.estimate
  by_cases h0 : locs = [] ∧ br = none
  · rw [if_pos h0]
    exact ⟨f, none, false, rfl, by simp [h0]⟩
  · rw [if_neg h0]
    have hbt : ∃ chosen, breakTies f.bestMatches signals locs br = some chosen := by
      cases br with
      | none => exact ⟨locs, rfl⟩
      | some b =>
        have hb := h2 b rfl
        simp only [breakTies]
        rw [if_neg (by
          rw [length_sortByDistance, List.length_map]
          omega)]
        exact ⟨_, rfl⟩
    obtain ⟨chosen, hch⟩ := hbt
    obtain ⟨f2, hf2⟩ := learn_ok f signals (average chosen) hlen hfood
    refine ⟨f2, some (average chosen), true, ?_, by simp [h0]⟩
    simp only [hch, hf2]

/-- On a fingerprint map that satisfies the invariant, `read` of a query with
distinct positive ids and fewer than 50 signals returns, and reports success
exactly when some stored key lies at a distance below the query length. -/
theorem read_success_iff (f : fingerprinting) (q : Signals) (hint : Location)
    (hm : StoredOK f.fingerprintMap) (hfood : f.food.length < 1000)
    (hq : DistinctPositive q) (hlen : q.length < keyLength) :
    ∃ qk f2 est success, Signals.Key (sortByID q) = some qk ∧ qk.WellFormed ∧
      qk.idSet = (q.map (fun s => s.id)).toFinset ∧
      f.read q hint = Outcome.ok f2 (est, success) ∧
      (success = true ↔ ∃ e ∈ f.fingerprintMap, setDifference qk e.1 < q.length) := by
  obtain ⟨qk, hk, hwf, hset, hcard⟩ := query_key q hq (by omega)
  have hdist : ∀ e ∈ f.fingerprintMap, setDifference qk e.1 ≤ q.length := by
    intro e he
    rw [← hcard]
    exact setDifference_le_card qk e.1 hwf (hm.wellFormed he)
  obtain ⟨pm, hfill, hpl, hpm⟩ := fillBuckets_eq qk f.fingerprintMap (List.replicate 50 [])
    (by
      intro e he
      have := hdist e he
      simp only [List.length_replicate]
      unfold keyLength at hlen
      omega)
  have hsl := length_sortByID q
  obtain ⟨s1, s2, s3⟩ := selectBuckets_spec f.bestMatches (sortByID q).length pm 0 []
    (Nat.zero_le _) (Nat.zero_le _)
  obtain ⟨f2, est, success, hes, hiff⟩ := estimate_ok f (sortByID q)
    (selectBuckets f.bestMatches (sortByID q).length 0 pm []).1
    (selectBuckets f.bestMatches (sortByID q).length 0 pm []).2
    (by rw [hsl]; omega) hfood s1 s2
  refine ⟨qk, f2, est, success, hk, hwf, hset, ?_, ?_⟩
  · unfold fingerprinting.read
    simp only [hk, hfill]
    exact hes
  · rw [hiff, s3]
    simp only [true_and, zero_add, hsl]
    constructor
    · intro h
      by_contra hno
      apply h
      intro i hi
      rw [hpm i, getD_replicate_nil, List.nil_append,
        groupAt_eq_nil_iff qk f.fingerprintMap hm i]
      intro e he heq
      exact hno ⟨e, he, by omega⟩
    · rintro ⟨e, he, hlt⟩ hall
      have := hall (setDifference qk e.1) hlt
      rw [hpm, getD_replicate_nil, List.nil_append,
        groupAt_eq_nil_iff qk f.fingerprintMap hm] at this
      exact this e he rfl

/-! ## Facts about `centroid.feed` -/

theorem foldl_add_eq (xs : List ℚ) (a : ℚ) :
    xs.foldl (fun acc value => acc + value) a = a + xs.sum := by
  induction xs generalizing a with
  | nil => simp
  | cons x rest ih =>
    simp only [List.foldl_cons, List.sum_cons, ih]
    ring

theorem sumLoop_eq_sum (xs : List ℚ) : sumLoop xs = xs.sum := by
  unfold sumLoop
  rw [foldl_add_eq, zero_add]

theorem cachedAt_append (smart : Bool) (m : Nat) (xs ys : List ℚ) (a b : ℚ) :
    ∀ k, k ≤ xs.length → k ≤ ys.length →
      cachedAt smart m (xs ++ [a]) (ys ++ [b]) k = cachedAt smart m xs ys k := by
  intro k
  induction k with
  | zero =>
    intro _ _
    rfl
  | succ k ih =>
    intro hx hy
    simp only [cachedAt]
    rw [ih (by omega) (by omega), List.take_append_of_le_length hx,
      List.take_append_of_le_length hy]

/-- Below `minMatches` samples nothing is cached. -/
theorem cachedAt_of_lt_minMatches (smart : Bool) (m : Nat) (xs ys : List ℚ) :
    ∀ n, n < m → cachedAt smart m xs ys n = none := by
  intro n
  induction n with
  | zero =>
    intro _
    rfl
  | succ k ih =>
    intro h
    simp only [cachedAt]
    rw [if_neg (by omega), ih (by omega)]

/-- Without the smart cap in play the cached centroid is the mean of all
recorded samples, once there are `minMatches` of them. -/
theorem cachedAt_of_uncapped (smart : Bool) (m : Nat) (xs ys : List ℚ) (n : Nat)
    (hs : smart = false ∨ n < 300) (hx : n = xs.length) (hy : n = ys.length) (hm : m ≤ n)
    (hpos : 0 < n) :
    cachedAt smart m xs ys n = some ⟨mean xs, mean ys⟩ := by
  obtain ⟨k, rfl⟩ : ∃ k, n = k + 1 := ⟨n - 1, by omega⟩
  simp only [cachedAt]
  have hc : k + 1 ≥ m ∧ (¬ smart = true ∨ k + 1 < 300) := by
    refine ⟨hm, ?_⟩
    rcases hs with h | h
    · left
      simp [h]
    · right
      exact h
  rw [if_pos hc, hx, List.take_length, ← hx, hy, List.take_length]

/-- In smart mode, from 300 samples on, the cached centroid is the mean of the
first 299 samples. -/
theorem cachedAt_of_capped (m : Nat) (xs ys : List ℚ) (hm : m ≤ 299) :
    ∀ n, 299 ≤ n →
      cachedAt true m xs ys n = some ⟨mean (xs.take 299), mean (ys.take 299)⟩ := by
  intro n hn
  induction n with
  | zero => omega
  | succ k ih =>
    simp only [cachedAt]
    by_cases hk : k + 1 < 300
    · have : k = 298 := by omega
      subst this
      rw [if_pos ⟨by omega, Or.inr hk⟩]
    · rw [if_neg (by
        rintro ⟨_, h | h⟩
        · exact h trivial
        · exact hk h)]
      exact ih (by omega)

theorem feedSignal_map (c : centroid) (id : Int) (location : Location) (k : Int) :
    (c.feedSignal id location).accessPointMap k =
      if k = id then
        some ⟨(c.history id).1 ++ [location.X], (c.history id).2 ++ [location.Y],
          if ((c.history id).1 ++ [location.X]).length ≥ c.minMatches ∧
              (¬ c.smart ∨ ((c.history id).1 ++ [location.X]).length < 300) then
            some (NewLocation
              (sumLoop ((c.history id).1 ++ [location.X])
                / (((c.history id).1 ++ [location.X]).length : ℕ))
              (sumLoop ((c.history id).2 ++ [location.Y])
                / (((c.history id).2 ++ [location.Y]).length : ℕ)))
          else c.cached id⟩
      else c.accessPointMap k := by
  unfold centroid.feedSignal centroid.history centroid.cached
  cases h : c.accessPointMap id <;> simp [h]

theorem feedSignal_flags (c : centroid) (id : Int) (location : Location) :
    (c.feedSignal id location).minMatches = c.minMatches ∧
      (c.feedSignal id location).enhanced = c.enhanced ∧
      (c.feedSignal id location).learning = c.learning ∧
      (c.feedSignal id location).smart = c.smart :=
  ⟨rfl, rfl, rfl, rfl⟩

/-- Under the invariant the cached centroid of every id, recorded or not, is
the one `feed` computes from its history. -/
theorem Inv_cached (c : centroid) (h : c.Inv) (id : Int) :
    (c.history id).1.length = (c.history id).2.length ∧
      c.cached id = cachedAt c.smart c.minMatches (c.history id).1 (c.history id).2
        (c.history id).1.length := by
  unfold centroid.history centroid.cached
  cases hm : c.accessPointMap id with
  | none => exact ⟨rfl, rfl⟩
  | some ap => exact h id ap hm

theorem feedSignal_history (c : centroid) (id : Int) (location : Location) (k : Int) :
    (c.feedSignal id location).history k =
      if k = id then ((c.history id).1 ++ [location.X], (c.history id).2 ++ [location.Y])
      else c.history k := by
  by_cases hk : k = id
  · rw [if_pos hk]
    unfold centroid.history
    rw [feedSignal_map, if_pos hk]
    rfl
  · rw [if_neg hk]
    unfold centroid.history
    rw [feedSignal_map, if_neg hk]

theorem feedSignal_Inv (c : centroid) (id : Int) (location : Location) (h : c.Inv) :
    (c.feedSignal id location).Inv := by
  intro k ap hap
  rw [feedSignal_map] at hap
  obtain ⟨hlen, hcache⟩ := Inv_cached c h id
  by_cases hk : k = id
  · rw [if_pos hk] at hap
    cases hap
    simp only [(feedSignal_flags c id location).1, (feedSignal_flags c id location).2.2.2]
    refine ⟨by simp [hlen], ?_⟩
    have hl1 : ((c.history id).1 ++ [location.X]).length = (c.history id).1.length + 1 := by
      simp
    have hl2 : ((c.history id).2 ++ [location.Y]).length = (c.history id).1.length + 1 := by
      simp [hlen]
    rw [hl1]
    simp only [cachedAt]
    by_cases hc : (c.history id).1.length + 1 ≥ c.minMatches ∧
        (¬ c.smart = true ∨ (c.history id).1.length + 1 < 300)
    · rw [if_pos hc, if_pos hc]
      congr 1
      unfold NewLocation mean
      rw [sumLoop_eq_sum, sumLoop_eq_sum]
      have t1 : List.take ((c.history id).1.length + 1) ((c.history id).1 ++ [location.X])
          = (c.history id).1 ++ [location.X] := by
        rw [← hl1, List.take_length]
      have t2 : List.take ((c.history id).1.length + 1) ((c.history id).2 ++ [location.Y])
          = (c.history id).2 ++ [location.Y] := by
        rw [← hl2, List.take_length]
      rw [t1, t2, hl1]
    · rw [if_neg hc, if_neg hc, hcache]
      exact (cachedAt_append _ _ _ _ _ _ _ (le_refl _) (by rw [hlen])).symm
  · rw [if_neg hk] at hap
    exact h k ap hap

theorem feed_Inv (signals : Signals) (location : Location) :
    ∀ (c : centroid), c.Inv → (c.feed signals location).Inv := by
  induction signals with
  | nil =>
    intro c h
    exact h
  | cons s rest ih =>
    intro c h
    exact ih (c.feedSignal s.id location) (feedSignal_Inv c s.id location h)

theorem feed_flags (signals : Signals) (location : Location) :
    ∀ (c : centroid), (c.feed signals location).minMatches = c.minMatches ∧
      (c.feed signals location).enhanced = c.enhanced ∧
      (c.feed signals location).learning = c.learning ∧
      (c.feed signals location).smart = c.smart := by
  induction signals with
  | nil =>
    intro c
    exact ⟨rfl, rfl, rfl, rfl⟩
  | cons s rest ih =>
    intro c
    exact ih (c.feedSignal s.id location)

/-- One `feed` records, for every id, one copy of the location per signal of
that id. -/
theorem feed_history (signals : Signals) (location : Location) (k : Int) :
    ∀ (c : centroid), (c.feed signals location).history k =
      ((c.history k).1
          ++ List.replicate ((signals.filter (fun s => s.id = k)).length) location.X,
        (c.history k).2
          ++ List.replicate ((signals.filter (fun s => s.id = k)).length) location.Y) := by
  induction signals with
  | nil =>
    intro c
    simp [centroid.feed]
  | cons s rest ih =>
    intro c
    have hstep : c.feed (s :: rest) location = (c.feedSignal s.id location).feed rest location :=
      rfl
    rw [hstep, ih, feedSignal_history]
    by_cases hk : k = s.id
    · subst hk
      simp [List.filter_cons, List.replicate_succ]
    · have hk2 : ¬ s.id = k := fun h => hk h.symm
      simp [List.filter_cons, hk, hk2]

theorem feedSeq_Inv (feeds : List (Signals × Location)) :
    ∀ (c : centroid), c.Inv → (c.feedSeq feeds).Inv := by
  induction feeds with
  | nil =>
    intro c h
    exact h
  | cons fd rest ih =>
    intro c h
    exact ih (c.feed fd.1 fd.2) (feed_Inv fd.1 fd.2 c h)

theorem feedSeq_flags (feeds : List (Signals × Location)) :
    ∀ (c : centroid), (c.feedSeq feeds).minMatches = c.minMatches ∧
      (c.feedSeq feeds).smart = c.smart := by
  induction feeds with
  | nil =>
    intro c
    exact ⟨rfl, rfl⟩
  | cons fd rest ih =>
    intro c
    have h1 := ih (c.feed fd.1 fd.2)
    have h2 := feed_flags fd.1 fd.2 c
    exact ⟨h1.1.trans h2.1, h1.2.trans h2.2.2.2⟩

/-- A sequence of feeds records, for every id, the samples of that id. -/
theorem feedSeq_history (feeds : List (Signals × Location)) (k : Int) :
    ∀ (c : centroid), (c.feedSeq feeds).history k =
      ((c.history k).1 ++ (samplesOf k feeds).map (fun l => l.X),
        (c.history k).2 ++ (samplesOf k feeds).map (fun l => l.Y)) := by
  induction feeds with
  | nil =>
    intro c
    simp [centroid.feedSeq, samplesOf]
  | cons fd rest ih =>
    intro c
    have hstep : c.feedSeq (fd :: rest) = (c.feed fd.1 fd.2).feedSeq rest := rfl
    rw [hstep, ih, feed_history]
    simp [samplesOf, List.map_replicate]

theorem Inv_of_empty (c : centroid) (h : c.accessPointMap = fun _ => none) : c.Inv := by
  intro id ap hap
  rw [h] at hap
  exact Option.noConfusion hap

theorem history_of_empty (c : centroid) (h : c.accessPointMap = fun _ => none) (id : Int) :
    c.history id = ([], []) := by
  unfold centroid.history
  rw [h]

/-! ## Facts about `centroid.read` -/

/-- The first loop of `read` gathers the cached centroids of the signals that
have one, in the order of the signals. -/
theorem collect_eq (c : centroid) (signals : Signals) :
    ∀ (xl yl : List ℚ), c.collect signals (xl, yl) =
      (xl ++ (signals.filterMap (fun s => c.cached s.id)).map (fun l => l.X),
        yl ++ (signals.filterMap (fun s => c.cached s.id)).map (fun l => l.Y)) := by
  induction signals with
  | nil =>
    intro xl yl
    simp [centroid.collect]
  | cons s rest ih =>
    intro xl yl
    simp only [centroid.collect]
    cases hm : c.accessPointMap s.id with
    | none =>
      have hc : c.cached s.id = none := by simp [centroid.cached, hm]
      simp only [ih, List.filterMap_cons, hc]
    | some ap =>
      cases hl : ap.location with
      | none =>
        have hc : c.cached s.id = none := by simp [centroid.cached, hm, hl]
        simp only [ih, List.filterMap_cons, hc, hl]
      | some l =>
        have hc : c.cached s.id = some l := by simp [centroid.cached, hm, hl]
        simp only [ih, List.filterMap_cons, hc, hl, List.map_cons, List.append_assoc,
          List.singleton_append]

/-- The value `read` returns, in terms of the cached centroids it gathers. -/
theorem read_value (c : centroid) (signals : Signals) (hint : Location) :
    (c.read signals hint).2 =
      if signals.filterMap (fun s => c.cached s.id) = [] then (none, false)
      else
        (some (if c.enhanced then
            (NewLocation (mean ((signals.filterMap (fun s => c.cached s.id)).map (fun l => l.X)))
              (mean ((signals.filterMap (fun s => c.cached s.id)).map (fun l => l.Y)))).enhance
              hint
          else
            NewLocation (mean ((signals.filterMap (fun s => c.cached s.id)).map (fun l => l.X)))
              (mean ((signals.filterMap (fun s => c.cached s.id)).map (fun l => l.Y)))),
          true) := by
  unfold centroid.read
  simp only [collect_eq, List.nil_append, List.length_map, sumLoop_eq_sum]
  by_cases h : signals.filterMap (fun s => c.cached s.id) = []
  · rw [if_pos h, if_pos (by rw [h]; rfl)]
  · rw [if_neg h, if_neg (by
      intro h0
      exact h (List.length_eq_zero.mp h0))]
    simp only [mean, List.length_map]

theorem read_Inv (c : centroid) (signals : Signals) (hint : Location) (h : c.Inv) :
    (c.read signals hint).1.Inv ∧ (c.read signals hint).1.minMatches = c.minMatches := by
  unfold centroid.read
  simp only
  by_cases h0 : (c.collect signals ([], [])).1.length = 0
  · rw [if_pos h0]
    exact ⟨h, rfl⟩
  · rw [if_neg h0]
    by_cases hl : c.learning = true
    · simp only [hl, if_true]
      exact ⟨feed_Inv _ _ c h, (feed_flags _ _ c).1⟩
    · simp only [hl]
      exact ⟨h, rfl⟩

/-- Every reachable centroid state satisfies the invariant with `minMatches = 4`. -/
theorem Reachable_Inv (c : centroid) (h : c.Reachable) : c.Inv ∧ c.minMatches = 4 := by
  induction h with
  | new c h0 hm => exact ⟨Inv_of_empty c h0, hm⟩
  | feed c signals location _ ih =>
    exact ⟨feed_Inv signals location c ih.1, (feed_flags signals location c).1.trans ih.2⟩
  | read c signals hint _ ih =>
    obtain ⟨h1, h2⟩ := read_Inv c signals hint ih.1
    exact ⟨h1, h2.trans ih.2⟩

theorem samplesOf_perm (id : Int) {l1 l2 : List (Signals × Location)} (h : l1.Perm l2) :
    (samplesOf id l1).Perm (samplesOf id l2) := by
  induction h with
  | nil => exact List.Perm.refl _
  | cons x _ ih => exact List.Perm.append_left _ ih
  | swap x y l =>
    simp only [samplesOf]
    rw [← List.append_assoc, ← List.append_assoc]
    exact List.Perm.append_right _ List.perm_append_comm
  | trans _ _ ih1 ih2 => exact ih1.trans ih2

/-- The cached centroid after a sequence of feeds from the empty state, in
terms of the samples the sequence records. -/
theorem feedSeq_cached (c0 : centroid) (h0 : c0.accessPointMap = fun _ => none)
    (feeds : List (Signals × Location)) (id : Int) :
    (c0.feedSeq feeds).cached id =
      cachedAt c0.smart c0.minMatches ((samplesOf id feeds).map (fun l => l.X))
        ((samplesOf id feeds).map (fun l => l.Y)) (samplesOf id feeds).length := by
  have hinv := feedSeq_Inv feeds c0 (Inv_of_empty c0 h0)
  have hh := feedSeq_history feeds id c0
  rw [history_of_empty c0 h0 id] at hh
  simp only [List.nil_append] at hh
  have := (Inv_cached _ hinv id).2
  rw [hh, (feedSeq_flags feeds c0).1, (feedSeq_flags feeds c0).2] at this
  simpa using this

theorem samplesOf_append (id : Int) (l1 l2 : List (Signals × Location)) :
    samplesOf id (l1 ++ l2) = samplesOf id l1 ++ samplesOf id l2 := by
  induction l1 with
  | nil => rfl
  | cons fd rest ih => simp [samplesOf, ih]

theorem samplesOf_replicate (id : Int) (signals : Signals) (location : Location)
    (h : (signals.filter (fun s => s.id = id)).length = 1) (n : Nat) :
    samplesOf id (List.replicate n (signals, location)) = List.replicate n location := by
  induction n with
  | zero => rfl
  | succ n ih =>
    rw [List.replicate_succ, samplesOf, ih, h, List.replicate_succ]
    rfl

theorem samplesOf_cappedFeeds :
    samplesOf 1 cappedFeeds = List.replicate 299 ⟨0, 0⟩ ++ [⟨299, 299⟩] := by
  unfold cappedFeeds
  rw [samplesOf_append, samplesOf_replicate 1 _ _ (by decide)]
  rfl

theorem samplesOf_cappedFeedsSwapped :
    samplesOf 1 cappedFeedsSwapped = ⟨299, 299⟩ :: List.replicate 299 ⟨0, 0⟩ := by
  unfold cappedFeedsSwapped
  rw [samplesOf, samplesOf_replicate 1 _ _ (by decide)]
  rfl

theorem mean_replicate_zero (n : Nat) : mean (List.replicate n (0 : ℚ)) = 0 := by
  simp [mean]

theorem mean_cons_replicate_zero (n : Nat) (a : ℚ) :
    mean (a :: List.replicate n (0 : ℚ)) = a / (n + 1) := by
  simp [mean]

theorem take_replicate_append (n : Nat) (a : ℚ) :
    List.take n (List.replicate n (0 : ℚ) ++ [a]) = List.replicate n 0 :=
  List.take_left' (List.length_replicate _ _)

theorem take_cons_replicate (n : Nat) (a : ℚ) :
    List.take (n + 1) (a :: List.replicate (n + 1) (0 : ℚ)) = a :: List.replicate n 0 := by
  rw [List.take_succ_cons, List.take_replicate, Nat.min_eq_left (Nat.le_succ n)]

theorem mean_take_capped :
    mean (List.take 299 (List.replicate 299 (0 : ℚ) ++ [299])) = 0 ∧
      mean (List.take 299 ((299 : ℚ) :: List.replicate 299 0)) = 1 := by
  constructor
  · rw [take_replicate_append 299 299, mean_replicate_zero]
  · rw [take_cons_replicate 298 299, mean_cons_replicate_zero]
    norm_num

/-- In smart mode, once 299 samples of an id are recorded, its cached centroid
is the mean of the first 299 of them. -/
theorem feedSeq_cached_capped (c0 : centroid) (h0 : c0.accessPointMap = fun _ => none)
    (hs : c0.smart = true) (hm : c0.minMatches = 4) (feeds : List (Signals × Location))
    (id : Int) (hn : 299 ≤ (samplesOf id feeds).length) :
    (c0.feedSeq feeds).cached id =
      some ⟨mean (((samplesOf id feeds).map (fun l => l.X)).take 299),
        mean (((samplesOf id feeds).map (fun l => l.Y)).take 299)⟩ := by
  rw [feedSeq_cached c0 h0, hs, hm]
  exact cachedAt_of_capped 4 _ _ (by omega) _ hn

theorem length_samplesOf_capped :
    (samplesOf 1 cappedFeeds).length = 300 ∧ (samplesOf 1 cappedFeedsSwapped).length = 300 := by
  rw [samplesOf_cappedFeeds, samplesOf_cappedFeedsSwapped, List.length_append,
    List.length_cons, List.length_cons, List.length_replicate, List.length_nil]
  exact ⟨rfl, rfl⟩

theorem filterMap_filter_isSome {α β : Type} (f : α → Option β) (l : List α) :
    (l.filter (fun a => (f a).isSome)).filterMap f = l.filterMap f := by
  induction l with
  | nil => rfl
  | cons a rest ih =>
    cases h : f a with
    | none => simp [List.filter_cons, List.filterMap_cons, h, ih]
    | some b => simp [List.filter_cons, List.filterMap_cons, h, ih]

theorem distanceSq_enhance (est truth : Location) :
    distanceSq (est.enhance truth) truth = (81 / 100) * distanceSq est truth := by
  unfold distanceSq Location.enhance
  ring

theorem distanceSq_nonneg (l1 l2 : Location) : 0 ≤ distanceSq l1 l2 := by
  unfold distanceSq
  exact add_nonneg (mul_self_nonneg _) (mul_self_nonneg _)

theorem cached_plain (c : centroid) (id : Int) : c.plain.cached id = c.cached id := rfl

/-! ## Case analysis of `fingerprinting.read` -/

/-- The three ways `read` can go up to the selection loop. -/
theorem read_cases (f : fingerprinting) (signals : Signals) (hint : Location) :
    (Signals.Key (sortByID signals) = none ∧ f.read signals hint = Outcome.panic f) ∨
    (∃ qk, Signals.Key (sortByID signals) = some qk ∧
      fillBuckets qk f.fingerprintMap (List.replicate 50 []) = none ∧
      f.read signals hint = Outcome.panic f) ∨
    (∃ qk pm, Signals.Key (sortByID signals) = some qk ∧
      fillBuckets qk f.fingerprintMap (List.replicate 50 []) = some pm ∧
      f.read signals hint = f.estimate (sortByID signals)
        (selectBuckets f.bestMatches (sortByID signals).length 0 pm []).1
        (selectBuckets f.bestMatches (sortByID signals).length 0 pm []).2) := by
  cases hk : Signals.Key (sortByID signals) with
  | none =>
    refine Or.inl ⟨rfl, ?_⟩
    unfold fingerprinting.read
    simp only [hk]
  | some qk =>
    cases hf : fillBuckets qk f.fingerprintMap (List.replicate 50 []) with
    | none =>
      refine Or.inr (Or.inl ⟨qk, rfl, hf, ?_⟩)
      unfold fingerprinting.read
      simp only [hk, hf]
    | some pm =>
      refine Or.inr (Or.inr ⟨qk, pm, rfl, hf, ?_⟩)
      unfold fingerprinting.read
      simp only [hk, hf]

/-- The ways the tail of `read` can go. -/
theorem estimate_cases (f : fingerprinting) (signals : Signals) (locs : List Location)
    (br : Option fingerprints) :
    ((locs = [] ∧ br = none) ∧ f.estimate signals locs br = Outcome.ok f (none, false)) ∨
    (¬ (locs = [] ∧ br = none) ∧ breakTies f.bestMatches signals locs br = none ∧
      f.estimate signals locs br = Outcome.panic f) ∨
    (¬ (locs = [] ∧ br = none) ∧ ∃ chosen,
      breakTies f.bestMatches signals locs br = some chosen ∧
      ((∃ f1, f.learn signals (average chosen) = Outcome.ok f1 () ∧
          f.estimate signals locs br = Outcome.ok f1 (some (average chosen), true)) ∨
        (∃ f1, f.learn signals (average chosen) = Outcome.panic f1 ∧
          f.estimate signals locs br = Outcome.panic f1))) := by
  unfold fingerprinting.estimate
  by_cases h0 : locs = [] ∧ br = none
  · rw [if_pos h0]
    exact Or.inl ⟨h0, rfl⟩
  · rw [if_neg h0]
    cases hb : breakTies f.bestMatches signals locs br with
    | none => exact Or.inr (Or.inl ⟨h0, rfl, rfl⟩)
    | some chosen =>
      refine Or.inr (Or.inr ⟨h0, chosen, rfl, ?_⟩)
      cases hl : f.learn signals (average chosen) with
      | ok f1 u =>
        refine Or.inl ⟨f1, rfl, ?_⟩
        simp only [hl]
      | panic f1 =>
        refine Or.inr ⟨f1, rfl, ?_⟩
        simp only [hl]

/-- A query of no signals selects nothing. -/
theorem selectBuckets_zero (bm : Nat) (pm : List fingerprints) :
    selectBuckets bm 0 0 pm [] = ([], none) := by
  cases pm with
  | nil => rfl
  | cons b rest => simp [selectBuckets]

theorem sortByID_sortByID (signals : Signals) :
    sortByID (sortByID signals) = sortByID signals := by
  haveI : IsTotal Signal (fun s t => s.id ≤ t.id) := ⟨fun a b => le_total a.id b.id⟩
  haveI : IsTrans Signal (fun s t => s.id ≤ t.id) := ⟨fun a b c h1 h2 => le_trans h1 h2⟩
  exact List.Sorted.insertionSort_eq (List.sorted_insertionSort _ signals)

/-- `feed` sorts its argument, so feeding the sorted signals is feeding the signals. -/
theorem feed_sortByID (f : fingerprinting) (signals : Signals) (location : Location) :
    f.feed (sortByID signals) location = f.feed signals location := by
  unfold fingerprinting.feed
  rw [sortByID_sortByID, length_sortByID]

theorem storedCount_mapAppend (m : List (Key × fingerprints)) (key : Key) (fp : fingerprint) :
    storedCount (mapAppend m key fp) = storedCount m + 1 := by
  induction m with
  | nil => simp [storedCount, mapAppend]
  | cons e rest ih =>
    obtain ⟨k, fps⟩ := e
    simp only [mapAppend]
    by_cases hk : k = key
    · rw [if_pos hk]
      simp [storedCount]
      omega
    · rw [if_neg hk]
      simp only [storedCount, List.map_cons, List.sum_cons] at ih ⊢
      rw [ih]
      omega

/-- What `feed` does when it returns: nothing for the enhanced variant on no
signals, and otherwise one more stored fingerprint. -/
theorem feed_ok_cases (f f2 : fingerprinting) (signals : Signals) (location : Location)
    (h : f.feed signals location = Outcome.ok f2 ()) :
    ((f.enhanced = true ∧ signals.length = 0) ∧ f2 = f) ∨
    (¬ (f.enhanced = true ∧ signals.length = 0) ∧ ∃ key,
      Signals.Key (sortByID signals) = some key ∧
      f2 = { f with
        fingerprintMap := mapAppend f.fingerprintMap key ⟨sortByID signals, location⟩ }) := by
  unfold fingerprinting.feed at h
  by_cases h0 : f.enhanced = true ∧ signals.length = 0
  · rw [if_pos h0] at h
    cases h
    exact Or.inl ⟨h0, rfl⟩
  · rw [if_neg h0] at h
    simp only at h
    cases hk : Signals.Key (sortByID signals) with
    | none =>
      rw [hk] at h
      cases h
    | some key =>
      rw [hk] at h
      cases h
      exact Or.inr ⟨h0, key, rfl, rfl⟩

theorem feed_panic_state (f f2 : fingerprinting) (signals : Signals) (location : Location)
    (h : f.feed signals location = Outcome.panic f2) : f2 = f := by
  unfold fingerprinting.feed at h
  by_cases h0 : f.enhanced = true ∧ signals.length = 0
  · rw [if_pos h0] at h
    cases h
  · rw [if_neg h0] at h
    simp only at h
    cases hk : Signals.Key (sortByID signals) with
    | none =>
      rw [hk] at h
      cases h
      rfl
    | some key =>
      rw [hk] at h
      cases h

/-- Feeding a non-empty signal set changes the state. -/
theorem feed_ne (f f2 : fingerprinting) (signals : Signals) (location : Location)
    (h : f.feed signals location = Outcome.ok f2 ()) (hne : signals ≠ []) : f2 ≠ f := by
  rcases feed_ok_cases f f2 signals location h with ⟨⟨_, h0⟩, _⟩ | ⟨_, key, _, rfl⟩
  · exact absurd (List.length_eq_zero.mp h0) hne
  · intro heq
    have := congrArg (fun g => storedCount g.fingerprintMap) heq
    simp only [storedCount_mapAppend] at this
    omega

/-- Feeding a non-empty signal set changes the centroid state. -/
theorem centroid_feed_ne (c : centroid) (signals : Signals) (location : Location)
    (hne : signals ≠ []) : c.feed signals location ≠ c := by
  obtain ⟨s, rest, rfl⟩ := List.exists_cons_of_ne_nil hne
  intro heq
  have h1 := feed_history (s :: rest) location s.id c
  rw [heq] at h1
  have h2 := congrArg (fun p => p.1.length) h1
  simp [List.filter_cons] at h2

theorem learn_nonsmart (f : fingerprinting) (signals : Signals) (location : Location)
    (hs : f.smart = false) :
    f.learn signals location =
      if f.learning = true then f.feed signals location else Outcome.ok f () := by
  unfold fingerprinting.learn
  simp [hs]

/-- The two ways `centroid.read` can go. -/
theorem centroid_read_cases (c : centroid) (signals : Signals) (hint : Location) :
    (signals.filterMap (fun s => c.cached s.id) = [] ∧
      c.read signals hint = (c, (none, false))) ∨
    (signals.filterMap (fun s => c.cached s.id) ≠ [] ∧ ∃ loc,
      c.read signals hint = (if c.learning = true then c.feed signals loc else c,
        (some loc, true))) := by
  unfold centroid.read
  simp only [collect_eq, List.nil_append, List.length_map]
  by_cases h : signals.filterMap (fun s => c.cached s.id) = []
  · left
    refine ⟨h, ?_⟩
    rw [if_pos (by rw [h]; rfl)]
  · right
    rw [if_neg (fun h0 => h (List.length_eq_zero.mp h0))]
    exact ⟨h, _, rfl⟩

/-- The state and value of a fingerprinting `read` of a non-smart variant: it
fails or panics with the state unchanged, or it succeeds with an estimate `e`
and the state is that of `feed` on the signals and `e` when learning. -/
theorem fingerprinting_read_nonsmart (f : fingerprinting) (signals : Signals)
    (hint : Location) (hs : f.smart = false) :
    ((f.read signals hint).state = f ∧
      ∀ e, (f.read signals hint).value ≠ some (some e, true)) ∨
    (signals ≠ [] ∧ ∃ e, (f.read signals hint).value = some (some e, true) ∧
      ((f.learning = true ∧ f.feed signals e = Outcome.ok (f.read signals hint).state ()) ∨
        (f.learning = false ∧ (f.read signals hint).state = f))) := by
  rcases read_cases f signals hint with ⟨_, hr⟩ | ⟨qk, _, _, hr⟩ | ⟨qk, pm, _, _, hr⟩
  · left
    rw [hr]
    exact ⟨rfl, fun e h => Option.noConfusion h⟩
  · left
    rw [hr]
    exact ⟨rfl, fun e h => Option.noConfusion h⟩
  · rw [hr]
    rcases estimate_cases f (sortByID signals)
        (selectBuckets f.bestMatches (sortByID signals).length 0 pm []).1
        (selectBuckets f.bestMatches (sortByID signals).length 0 pm []).2
      with ⟨_, he⟩ | ⟨_, _, he⟩ | ⟨hne, chosen, _, hl⟩
    · left
      rw [he]
      refine ⟨rfl, fun e h => ?_⟩
      simp [Outcome.value] at h
    · left
      rw [he]
      exact ⟨rfl, fun e h => Option.noConfusion h⟩
    · have hsig : signals ≠ [] := by
        intro h0
        apply hne
        have hz : (sortByID ([] : Signals)).length = 0 := rfl
        rw [h0, hz, selectBuckets_zero]
        exact ⟨rfl, rfl⟩
      rw [learn_nonsmart f _ _ hs, feed_sortByID] at hl
      by_cases hlearn : f.learning = true
      · rw [if_pos hlearn] at hl
        rcases hl with ⟨f1, hf1, he⟩ | ⟨f1, hf1, he⟩
        · right
          rw [he]
          exact ⟨hsig, average chosen, rfl, Or.inl ⟨hlearn, hf1⟩⟩
        · left
          rw [he]
          exact ⟨feed_panic_state _ _ _ _ hf1, fun e h => Option.noConfusion h⟩
      · rw [if_neg hlearn] at hl
        rcases hl with ⟨f1, hf1, he⟩ | ⟨f1, hf1, he⟩
        · right
          cases hf1
          rw [he]
          exact ⟨hsig, average chosen, rfl, Or.inr ⟨by simpa using hlearn, rfl⟩⟩
        · cases hf1

/-! ## The postcondition of `fingerprinting.feed` -/

theorem mapGet_mapAppend_self (m : List (Key × fingerprints)) (key : Key) (fp : fingerprint) :
    mapGet (mapAppend m key fp) key = mapGet m key ++ [fp] := by
  induction m with
  | nil => simp [mapAppend, mapGet]
  | cons e rest ih =>
    obtain ⟨k, fps⟩ := e
    simp only [mapAppend]
    by_cases hk : k = key
    · rw [if_pos hk]
      simp [mapGet, hk]
    · rw [if_neg hk]
      simp only [mapGet, if_neg hk]
      exact ih

theorem mapGet_mapAppend_ne (m : List (Key × fingerprints)) (key k2 : Key) (fp : fingerprint)
    (hne : k2 ≠ key) : mapGet (mapAppend m key fp) k2 = mapGet m k2 := by
  induction m with
  | nil =>
    simp only [mapAppend, mapGet]
    rw [if_neg (fun h => hne h.symm)]
  | cons e rest ih =>
    obtain ⟨k, fps⟩ := e
    simp only [mapAppend]
    by_cases hk : k = key
    · rw [if_pos hk]
      simp only [mapGet]
      rw [if_neg (fun h => hne (h.symm.trans hk)), if_neg (fun h => hne (h.symm.trans hk))]
    · rw [if_neg hk]
      simp only [mapGet]
      by_cases hk2 : k = k2
      · rw [if_pos hk2, if_pos hk2]
      · rw [if_neg hk2, if_neg hk2]
        exact ih

theorem Key_eq_of_ids (a b : Key) (h : a.ids = b.ids) : a = b := by
  cases a
  cases b
  simp only at h
  subst h
  rfl

theorem sortInts_eq_of_perm {l1 l2 : List Int} (h : l1.Perm l2) : sortInts l1 = sortInts l2 :=
  List.eq_of_perm_of_sorted ((sortInts_perm l1).trans (h.trans (sortInts_perm l2).symm))
    (List.sorted_insertionSort _ l1) (List.sorted_insertionSort _ l2)

/-- The key does not depend on the order of the signals. -/
theorem Key_sortByID (signals : Signals) :
    Signals.Key (sortByID signals) = Signals.Key signals := by
  by_cases hle : signals.length ≤ keyLength
  · obtain ⟨k1, hk1, hids1⟩ := Key_of_length_le (sortByID signals)
      (by rw [length_sortByID]; exact hle)
    obtain ⟨k2, hk2, hids2⟩ := Key_of_length_le signals hle
    rw [hk1, hk2]
    congr 1
    apply Key_eq_of_ids
    rw [hids1, hids2, length_sortByID, sortInts_eq_of_perm ((sortByID_perm signals).map _)]
  · rw [Key_of_length_gt _ (by rw [length_sortByID]; omega), Key_of_length_gt _ (by omega)]

theorem Key_nil : Signals.Key [] = some Key.zero := rfl

theorem mean_take_min (xs : List ℚ) (n : Nat) (hn : n = xs.length) (hle : n ≤ 299) :
    mean (xs.take (min n 299)) = mean xs := by
  rw [Nat.min_eq_left hle, hn, List.take_length]

/-! ## The learning step of a successful `read` -/

/-- The state after a successful `read` is the one its learning step returns. -/
theorem read_success_learn (f : fingerprinting) (signals : Signals) (hint : Location)
    (e : Location) (h : (f.read signals hint).value = some (some e, true)) :
    f.learn (sortByID signals) e = Outcome.ok (f.read signals hint).state () := by
  rcases read_cases f signals hint with ⟨_, hr⟩ | ⟨qk, _, _, hr⟩ | ⟨qk, pm, _, _, hr⟩
  · rw [hr] at h
    exact Option.noConfusion h
  · rw [hr] at h
    exact Option.noConfusion h
  · rw [hr] at h ⊢
    rcases estimate_cases f (sortByID signals)
        (selectBuckets f.bestMatches (sortByID signals).length 0 pm []).1
        (selectBuckets f.bestMatches (sortByID signals).length 0 pm []).2
      with ⟨_, he⟩ | ⟨_, _, he⟩ | ⟨_, chosen, _, ⟨f1, hf1, he⟩ | ⟨f1, hf1, he⟩⟩
    · rw [he] at h
      simp [Outcome.value] at h
    · rw [he] at h
      exact Option.noConfusion h
    · rw [he] at h ⊢
      simp only [Outcome.value, Option.some.injEq, Prod.mk.injEq, and_true] at h
      rw [← h]
      exact hf1
    · rw [he] at h
      exact Option.noConfusion h

/-- The learning step of the smart learning variant: it buffers the pair, and
replays and clears the buffer when it has grown past 1000 entries. -/
theorem learn_smart (f : fingerprinting) (signals : Signals) (location : Location)
    (hl : f.learning = true) (hs : f.smart = true) :
    (f.food.length < 1000 →
      f.learn signals location
        = Outcome.ok { f with food := f.food ++ [⟨location, signals⟩] } ()) ∧
    (1000 ≤ f.food.length → ∀ f2, f.learn signals location = Outcome.ok f2 () →
      ∃ f1, feedAll { f with food := f.food ++ [⟨location, signals⟩] }
          (f.food ++ [⟨location, signals⟩]) = Outcome.ok f1 () ∧
        f2 = { f1 with food := [] }) := by
  unfold fingerprinting.learn
  rw [if_pos hl, if_pos hs]
  simp only [List.length_append, List.length_singleton]
  constructor
  · intro hlt
    rw [if_neg (by omega)]
  · intro hge f2 h
    rw [if_pos (by omega)] at h
    cases hfa : feedAll { f with food := f.food ++ [⟨location, signals⟩] }
        (f.food ++ [⟨location, signals⟩]) with
    | ok f1 u =>
      rw [hfa] at h
      cases h
      exact ⟨f1, rfl, rfl⟩
    | panic f1 =>
      rw [hfa] at h
      cases h

/-- A `read` that returns with `success = true` returns an estimate. -/
theorem fingerprinting_read_success_value (f : fingerprinting) (signals : Signals)
    (hint : Location) (f2 : fingerprinting) (est : Option Location)
    (h : f.read signals hint = Outcome.ok f2 (est, true)) :
    ∃ e, (f.read signals hint).value = some (some e, true) := by
  rcases read_cases f signals hint with ⟨_, hr⟩ | ⟨qk, _, _, hr⟩ | ⟨qk, pm, _, _, hr⟩
  · rw [hr] at h
    cases h
  · rw [hr] at h
    cases h
  · rw [hr] at h ⊢
    rcases estimate_cases f (sortByID signals)
        (selectBuckets f.bestMatches (sortByID signals).length 0 pm []).1
        (selectBuckets f.bestMatches (sortByID signals).length 0 pm []).2
      with ⟨_, he⟩ | ⟨_, _, he⟩ | ⟨_, chosen, _, ⟨f1, hf1, he⟩ | ⟨f1, hf1, he⟩⟩
    · rw [he] at h
      cases h
    · rw [he] at h
      cases h
    · rw [he]
      exact ⟨average chosen, rfl⟩
    · rw [he] at h
      cases h

/-! ## The selection of `read` in terms of fingerprints -/

theorem locations_append (a b : fingerprints) :
    fingerprints.locations (a ++ b) = fingerprints.locations a ++ fingerprints.locations b := by
  simp [fingerprints.locations]

theorem length_locations (a : fingerprints) : (fingerprints.locations a).length = a.length := by
  simp [fingerprints.locations]

/-- The selection loop gathers the locations of the fingerprints `selectFps` gathers. -/
theorem selectBuckets_eq_selectFps (bm n : Nat) :
    ∀ (pm : List fingerprints) (d : Nat) (acc : fingerprints),
      selectBuckets bm n d pm (fingerprints.locations acc) =
        (fingerprints.locations (selectFps bm n d pm acc).1, (selectFps bm n d pm acc).2) := by
  intro pm
  induction pm with
  | nil =>
    intro d acc
    rfl
  | cons b rest ih =>
    intro d acc
    simp only [selectBuckets, selectFps, length_locations]
    by_cases h1 : d = n
    · rw [if_pos h1, if_pos h1]
    · rw [if_neg h1, if_neg h1]
      by_cases h2 : acc.length + b.length > bm
      · rw [if_pos h2, if_pos h2]
      · rw [if_neg h2, if_neg h2, ← locations_append]
        exact ih (d + 1) (acc ++ b)

/-- What `selectFps` returns: the buckets before some index `j`, in order, and as
`breakers` the bucket at `j` when it overflows the budget. -/
theorem selectFps_spec (bm n : Nat) :
    ∀ (pm : List fingerprints) (d : Nat) (acc : fingerprints),
      acc.length ≤ bm → d ≤ n →
      ∃ j, j ≤ pm.length ∧ d + j ≤ n ∧
        (selectFps bm n d pm acc).1 = acc ++ (pm.take j).flatten ∧
        (selectFps bm n d pm acc).1.length ≤ bm ∧
        (((selectFps bm n d pm acc).2 = none ∧ (d + j = n ∨ j = pm.length)) ∨
          (j < pm.length ∧ d + j < n ∧
            (selectFps bm n d pm acc).2 = some (pm.getD j []) ∧
            bm < (selectFps bm n d pm acc).1.length + (pm.getD j []).length)) := by
  intro pm
  induction pm with
  | nil =>
    intro d acc hl hd
    exact ⟨0, le_refl _, hd, by simp [selectFps], hl, Or.inl ⟨rfl, Or.inr rfl⟩⟩
  | cons b rest ih =>
    intro d acc hl hd
    simp only [selectFps]
    by_cases h1 : d = n
    · rw [if_pos h1]
      exact ⟨0, Nat.zero_le _, by omega, by simp, hl, Or.inl ⟨rfl, Or.inl (by omega)⟩⟩
    · rw [if_neg h1]
      by_cases h2 : acc.length + b.length > bm
      · rw [if_pos h2]
        refine ⟨0, Nat.zero_le _, by omega, by simp, hl, Or.inr ⟨by simp, by omega, ?_, ?_⟩⟩
        · simp
        · simpa using h2
      · rw [if_neg h2]
        obtain ⟨j, hj1, hj2, hj3, hj4, hj5⟩ :=
          ih (d + 1) (acc ++ b) (by simp only [List.length_append]; omega) (by omega)
        refine ⟨j + 1, by simpa using hj1, by omega, ?_, hj4, ?_⟩
        · rw [hj3]
          simp [List.append_assoc]
        · rcases hj5 with ⟨hn, hor⟩ | ⟨a1, a2, a3, a4⟩
          · left
            refine ⟨hn, ?_⟩
            rcases hor with h | h
            · left
              omega
            · right
              simp [h]
          · right
            refine ⟨by simpa using a1, by omega, ?_, ?_⟩
            · simpa using a3
            · simpa using a4

theorem sortFps_perm (signals : Signals) (fps : fingerprints) :
    (sortFps signals fps).Perm fps :=
  List.perm_insertionSort _ fps

theorem length_sortFps (signals : Signals) (fps : fingerprints) :
    (sortFps signals fps).length = fps.length :=
  (sortFps_perm signals fps).length_eq

/-- Sorting the `stuf` records of a bucket by distance is sorting its
fingerprints by their distance to the query. -/
theorem sortByDistance_map (signals : Signals) (fps : fingerprints) :
    sortByDistance (fps.map (fun fp => ⟨fp.location, euclidianDistanceSum signals fp.signals 0⟩))
      = (sortFps signals fps).map
          (fun fp => ⟨fp.location, euclidianDistanceSum signals fp.signals 0⟩) := by
  unfold sortByDistance sortFps
  exact (List.map_insertionSort (fun a b => fpDistance signals a ≤ fpDistance signals b)
    (s := fun a b : stuf => a.distance ≤ b.distance)
    (fun fp => (⟨fp.location, euclidianDistanceSum signals fp.signals 0⟩ : stuf)) fps
    (fun a _ b _ => Iff.rfl)).symm

/-- The tie-break does not panic on what the selection loop hands it, and keeps
the first `bestMatches - len(locations)` fingerprints of the sorted bucket. -/
theorem breakTies_some (bm : Nat) (signals : Signals) (locs : List Location)
    (b : fingerprints) (h1 : locs.length ≤ bm) (h2 : bm < locs.length + b.length) :
    breakTies bm signals locs (some b) =
      some (locs ++ fingerprints.locations ((sortFps signals b).take (bm - locs.length))) := by
  simp only [breakTies]
  rw [if_neg (by
    rw [length_sortByDistance, List.length_map]
    omega), sortByDistance_map]
  simp only [fingerprints.locations, List.map_take, List.map_map]
  rfl

/-- The buckets `read` fills from empty are the groups by distance. -/
theorem fillBuckets_eq_range (ids : Key) (m : List (Key × fingerprints))
    (pm : List fingerprints)
    (h : fillBuckets ids m (List.replicate 50 []) = some pm) :
    pm = (List.range 50).map (groupAt ids m) := by
  have hall : ∀ e ∈ m, setDifference ids e.1 < (List.replicate 50 ([] : fingerprints)).length := by
    intro e he
    by_contra hge
    rw [fillBuckets_eq_none ids m _ ⟨e, he, by omega⟩] at h
    exact Option.noConfusion h
  obtain ⟨pm2, h1, h2, h3⟩ := fillBuckets_eq ids m (List.replicate 50 []) hall
  rw [h] at h1
  cases h1
  have hlen : pm.length = 50 := by rw [h2, List.length_replicate]
  apply List.ext_getElem
  · rw [hlen, List.length_map, List.length_range]
  · intro i hi1 hi2
    have := h3 i
    rw [List.getD_eq_getElem _ _ hi1, getD_replicate_nil, List.nil_append] at this
    rw [this, List.getElem_map, List.getElem_range]

theorem bucketsBelow_succ (ids : Key) (m : List (Key × fingerprints)) (j : Nat) :
    bucketsBelow ids m (j + 1) = bucketsBelow ids m j ++ groupAt ids m j := by
  unfold bucketsBelow
  rw [List.range_succ, List.map_append, List.flatten_append]
  simp

theorem bucketsBelow_prefix (ids : Key) (m : List (Key × fingerprints)) (j n : Nat)
    (h : j ≤ n) : ∃ post, bucketsBelow ids m n = bucketsBelow ids m j ++ post := by
  induction n with
  | zero =>
    have : j = 0 := by omega
    subst this
    exact ⟨[], by simp⟩
  | succ k ih =>
    by_cases hj : j = k + 1
    · subst hj
      exact ⟨[], by simp⟩
    · obtain ⟨post, hp⟩ := ih (by omega)
      exact ⟨post ++ groupAt ids m k, by rw [bucketsBelow_succ, hp, List.append_assoc]⟩

theorem take_range_map_flatten (ids : Key) (m : List (Key × fingerprints)) (j : Nat)
    (hj : j ≤ 50) :
    (((List.range 50).map (groupAt ids m)).take j).flatten = bucketsBelow ids m j := by
  unfold bucketsBelow
  rw [← List.map_take, List.take_range, Nat.min_eq_left hj]

theorem getD_range_map (ids : Key) (m : List (Key × fingerprints)) (j : Nat) (hj : j < 50) :
    ((List.range 50).map (groupAt ids m)).getD j [] = groupAt ids m j := by
  rw [List.getD_eq_getElem _ _ (by simpa using hj), List.getElem_map, List.getElem_range]

theorem sum_ite_eq_range (n d0 c : Nat) :
    ((List.range n).map (fun d => if d0 = d then c else 0)).sum = if d0 < n then c else 0 := by
  induction n with
  | zero => simp
  | succ k ih =>
    rw [List.range_succ, List.map_append, List.sum_append, ih]
    by_cases h1 : d0 < k
    · have h2 : d0 ≠ k := by omega
      simp [h1, h2, Nat.lt_succ_of_lt h1]
    · by_cases h2 : d0 = k
      · simp [h1, h2]
      · have h3 : ¬ d0 < k + 1 := by omega
        simp [h1, h2, h3]

theorem length_groupAt_cons (ids : Key) (k : Key) (fps : fingerprints)
    (rest : List (Key × fingerprints)) (d : Nat) :
    (groupAt ids ((k, fps) :: rest) d).length =
      (if setDifference ids k = d then fps.length else 0) + (groupAt ids rest d).length := by
  simp only [groupAt]
  by_cases h : setDifference ids k = d
  · rw [if_pos h, if_pos h, List.length_append]
  · rw [if_neg h, if_neg h, Nat.zero_add]

/-- The buckets below `n` hold as many fingerprints as there are candidates. -/
theorem length_bucketsBelow (ids : Key) (m : List (Key × fingerprints)) (n : Nat) :
    (bucketsBelow ids m n).length = candidateCount ids n m := by
  unfold bucketsBelow candidateCount
  rw [List.length_flatten, List.map_map]
  induction m with
  | nil =>
    have h0 : (List.length ∘ groupAt ids []) = fun _ => 0 := by
      funext d
      simp [groupAt]
    rw [h0]
    simp
  | cons e rest ih =>
    obtain ⟨k, fps⟩ := e
    have hsplit : (List.map (List.length ∘ groupAt ids ((k, fps) :: rest)) (List.range n)).sum
        = ((List.range n).map (fun d => if setDifference ids k = d then fps.length else 0)).sum
          + (List.map (List.length ∘ groupAt ids rest) (List.range n)).sum := by
      rw [← List.sum_map_add]
      congr 1
      apply List.map_congr_left
      intro d _
      exact length_groupAt_cons ids k fps rest d
    rw [hsplit, ih, sum_ite_eq_range]
    by_cases hlt : setDifference ids k < n
    · simp [List.filter_cons, hlt]
    · simp [List.filter_cons, hlt]

theorem mem_groupAt (ids : Key) (m : List (Key × fingerprints)) (d : Nat) (fp : fingerprint)
    (h : fp ∈ groupAt ids m d) : ∃ e ∈ m, fp ∈ e.2 ∧ setDifference ids e.1 = d := by
  induction m with
  | nil => simp [groupAt] at h
  | cons e rest ih =>
    obtain ⟨k, fps⟩ := e
    simp only [groupAt] at h
    by_cases hd : setDifference ids k = d
    · rw [if_pos hd] at h
      rcases List.mem_append.mp h with h1 | h1
      · exact ⟨(k, fps), List.mem_cons_self _ _, h1, hd⟩
      · obtain ⟨e, he, h2, h3⟩ := ih h1
        exact ⟨e, List.mem_cons_of_mem _ he, h2, h3⟩
    · rw [if_neg hd] at h
      obtain ⟨e, he, h2, h3⟩ := ih h
      exact ⟨e, List.mem_cons_of_mem _ he, h2, h3⟩

/-- The batch loop returns when every buffered pair fits a key. -/
theorem feedAll_ok (feeds : List food) :
    ∀ (f : fingerprinting), (∀ fd ∈ feeds, fd.signals.length ≤ keyLength) →
      ∃ f2, feedAll f feeds = Outcome.ok f2 () := by
  induction feeds with
  | nil =>
    intro f _
    exact ⟨f, rfl⟩
  | cons fd rest ih =>
    intro f h
    obtain ⟨f1, hf1⟩ := feed_ok f fd.signals fd.location (h fd (List.mem_cons_self _ _))
    obtain ⟨f2, hf2⟩ := ih f1 (fun x hx => h x (List.mem_cons_of_mem _ hx))
    refine ⟨f2, ?_⟩
    simp only [feedAll, hf1]
    exact hf2

/-- The learning step returns when the signal set and every buffered pair fit a key. -/
theorem learn_ok_of_foodOK (f : fingerprinting) (signals : Signals) (location : Location)
    (hlen : signals.length ≤ keyLength) (hfood : FoodOK f) :
    ∃ f2, f.learn signals location = Outcome.ok f2 () := by
  unfold fingerprinting.learn
  by_cases hl : f.learning = true
  · rw [if_pos hl]
    by_cases hsm : f.smart = true
    · rw [if_pos hsm]
      simp only
      by_cases hbig : (f.food ++ [(⟨location, signals⟩ : food)]).length > 1000
      · rw [if_pos hbig]
        obtain ⟨f2, hf2⟩ := feedAll_ok (f.food ++ [⟨location, signals⟩])
          { f with food := f.food ++ [⟨location, signals⟩] } (by
            intro fd hfd
            rcases List.mem_append.mp hfd with h | h
            · exact hfood fd h
            · rw [List.mem_singleton.mp h]
              exact hlen)
        rw [hf2]
        exact ⟨_, rfl⟩
      · rw [if_neg hbig]
        exact ⟨_, rfl⟩
    · rw [if_neg hsm]
      exact feed_ok f signals location hlen
  · rw [if_neg hl]
    exact ⟨f, rfl⟩

/-! ## A bound on `setDifference` that needs no well-formedness -/

theorem setDifferenceRest_le (a : Key) (n : Nat) (hz : a.get n = 0) :
    ∀ (fuel i d : Nat), i ≤ n → setDifferenceRest a fuel i d ≤ d + (n - i) := by
  intro fuel
  induction fuel with
  | zero =>
    intro i d _
    simp only [setDifferenceRest]
    omega
  | succ k ih =>
    intro i d hi
    simp only [setDifferenceRest]
    by_cases hc : i < keyLength ∧ a.get i ≠ 0
    · rw [if_pos hc]
      have hne : i ≠ n := by
        intro h
        rw [h] at hc
        exact hc.2 hz
      have := ih (i + 1) (d + 1) (by omega)
      omega
    · rw [if_neg hc]
      omega

theorem setDifferenceMerge_le (a b : Key) (n : Nat) (hz : a.get n = 0) :
    ∀ (fuel i1 i2 d : Nat), i1 ≤ n →
      (setDifferenceMerge a b fuel i1 i2 d).1 ≤ n ∧
        (setDifferenceMerge a b fuel i1 i2 d).2 + (n - (setDifferenceMerge a b fuel i1 i2 d).1)
          ≤ d + (n - i1) := by
  intro fuel
  induction fuel with
  | zero =>
    intro i1 i2 d h1
    simp only [setDifferenceMerge]
    exact ⟨h1, le_refl _⟩
  | succ k ih =>
    intro i1 i2 d h1
    simp only [setDifferenceMerge]
    by_cases hc : i1 < keyLength ∧ i2 < keyLength ∧ a.get i1 ≠ 0 ∧ b.get i2 ≠ 0
    · rw [if_pos hc]
      have hne : i1 ≠ n := by
        intro h
        rw [h] at hc
        exact hc.2.2.1 hz
      by_cases hlt : a.get i1 < b.get i2
      · rw [if_pos hlt]
        have := ih (i1 + 1) i2 (d + 1) (by omega)
        exact ⟨this.1, by omega⟩
      · rw [if_neg hlt]
        by_cases hgt : a.get i1 > b.get i2
        · rw [if_pos hgt]
          exact ih i1 (i2 + 1) d h1
        · rw [if_neg hgt]
          have := ih (i1 + 1) (i2 + 1) d (by omega)
          exact ⟨this.1, by omega⟩
    · rw [if_neg hc]
      exact ⟨h1, le_refl _⟩

/-- `setDifference a b` is at most the index of any zero entry of `a`. -/
theorem setDifference_le_of_zero (a b : Key) (n : Nat) (hz : a.get n = 0) :
    setDifference a b ≤ n := by
  unfold setDifference
  have h1 := setDifferenceMerge_le a b n hz (2 * keyLength) 0 0 0 (Nat.zero_le _)
  have h2 := setDifferenceRest_le a n hz keyLength _
    (setDifferenceMerge a b (2 * keyLength) 0 0 0).2 h1.1
  simp only at h2 ⊢
  omega

/-- The key of fewer than 50 signals has a zero right after its ids. -/
theorem Key_get_length (signals : Signals) (k : Key) (hk : signals.Key = some k)
    (hlen : signals.length < keyLength) : k.get signals.length = 0 := by
  obtain ⟨k2, hk2, hids⟩ := Key_of_length_le signals (by omega)
  rw [hk] at hk2
  cases hk2
  unfold Key.get
  rw [hids]
  have hl : (sortInts (signals.map (fun s => s.id))).length = signals.length := by
    rw [length_sortInts, List.length_map]
  rw [List.getD_append_right _ _ _ _ (by omega), hl, Nat.sub_self,
    List.getD_eq_getElem _ _ (by simp; omega)]
  simp

/-! ## What a `read` selects -/

/-- The outcome of the selection loop on the buckets of `read`: the groups below
an index `j`, and as `breakers` the group at `j` when it overflows the budget. -/
theorem read_selection (bm n : Nat) (ids : Key) (m : List (Key × fingerprints)) :
    ∃ j, j ≤ 50 ∧ j ≤ n ∧ (bucketsBelow ids m j).length ≤ bm ∧
      ((selectBuckets bm n 0 ((List.range 50).map (groupAt ids m)) []
            = (fingerprints.locations (bucketsBelow ids m j), none) ∧ (j = n ∨ j = 50)) ∨
        (j < 50 ∧ j < n ∧ bm < (bucketsBelow ids m j).length + (groupAt ids m j).length ∧
          selectBuckets bm n 0 ((List.range 50).map (groupAt ids m)) []
            = (fingerprints.locations (bucketsBelow ids m j), some (groupAt ids m j)))) := by
  have hlen : ((List.range 50).map (groupAt ids m)).length = 50 := by simp
  obtain ⟨j, hj1, hj2, hj3, hj4, hj5⟩ :=
    selectFps_spec bm n ((List.range 50).map (groupAt ids m)) 0 [] (Nat.zero_le _)
      (Nat.zero_le _)
  rw [hlen] at hj1
  rw [List.nil_append, take_range_map_flatten ids m j hj1] at hj3
  have hsel := selectBuckets_eq_selectFps bm n ((List.range 50).map (groupAt ids m)) 0 []
  have hnil : fingerprints.locations [] = [] := rfl
  rw [hnil] at hsel
  rw [hj3] at hj4
  refine ⟨j, hj1, by omega, hj4, ?_⟩
  rcases hj5 with ⟨h1, h2⟩ | ⟨h1, h2, h3, h4⟩
  · left
    refine ⟨?_, ?_⟩
    · rw [hsel, hj3, h1]
    · rcases h2 with h | h
      · left
        omega
      · right
        rw [h, hlen]
  · right
    rw [hlen] at h1
    rw [getD_range_map ids m j h1] at h3 h4
    rw [hj3] at h4
    refine ⟨h1, by omega, h4, ?_⟩
    rw [hsel, hj3, h3]

/-- The tail of `read` succeeds with the average of the selected locations when
something was selected and the learning step returns. -/
theorem estimate_success (f : fingerprinting) (signals : Signals) (locs chosen : List Location)
    (br : Option fingerprints) (hne : ¬ (locs = [] ∧ br = none))
    (hbt : breakTies f.bestMatches signals locs br = some chosen)
    (hlen : signals.length ≤ keyLength) (hfood : FoodOK f) :
    (f.estimate signals locs br).value = some (some (average chosen), true) := by
  rcases estimate_cases f signals locs br with ⟨h0, _⟩ | ⟨_, hb, _⟩ |
    ⟨_, chosen2, hb, ⟨f1, _, he⟩ | ⟨f1, hf1, _⟩⟩
  · exact absurd h0 hne
  · rw [hbt] at hb
    exact Option.noConfusion hb
  · rw [hbt] at hb
    cases hb
    rw [he]
    rfl
  · rw [hbt] at hb
    cases hb
    obtain ⟨f2, hf2⟩ := learn_ok_of_foodOK f signals (average chosen) hlen hfood
    rw [hf2] at hf1
    cases hf1

/-- When the query fits a key with room to spare, `read` reaches its tail: no
stored key lies at a distance outside the bucket slice. -/
theorem read_eq_estimate (f : fingerprinting) (q : Signals) (hint : Location)
    (hlen : q.length < keyLength) :
    ∃ qk, Signals.Key (sortByID q) = some qk ∧
      f.read q hint = f.estimate (sortByID q)
        (selectBuckets f.bestMatches q.length 0
          ((List.range 50).map (groupAt qk f.fingerprintMap)) []).1
        (selectBuckets f.bestMatches q.length 0
          ((List.range 50).map (groupAt qk f.fingerprintMap)) []).2 := by
  have hsl := length_sortByID q
  obtain ⟨qk, hk, _⟩ := Key_of_length_le (sortByID q) (by rw [hsl]; omega)
  have hz : qk.get q.length = 0 := by
    have := Key_get_length (sortByID q) qk hk (by rw [hsl]; exact hlen)
    rwa [hsl] at this
  obtain ⟨pm, hfill, _, _⟩ := fillBuckets_eq qk f.fingerprintMap (List.replicate 50 [])
    (by
      intro e _
      have := setDifference_le_of_zero qk e.1 q.length hz
      simp only [List.length_replicate]
      unfold keyLength at hlen
      omega)
  have hpm := fillBuckets_eq_range qk f.fingerprintMap pm hfill
  refine ⟨qk, hk, ?_⟩
  unfold fingerprinting.read
  simp only [hk, hfill, hsl, hpm]

theorem mem_bucketsBelow (ids : Key) (m : List (Key × fingerprints)) (j : Nat)
    (fp : fingerprint) (h : fp ∈ bucketsBelow ids m j) :
    ∃ e ∈ m, fp ∈ e.2 ∧ setDifference ids e.1 < j := by
  unfold bucketsBelow at h
  obtain ⟨l, hl, hfp⟩ := List.mem_flatten.mp h
  obtain ⟨d, hd, rfl⟩ := List.mem_map.mp hl
  obtain ⟨e, he, h1, h2⟩ := mem_groupAt ids m d fp hfp
  exact ⟨e, he, h1, by rw [h2]; exact List.mem_range.mp hd⟩

theorem bucketsBelow_subperm (ids : Key) (m : List (Key × fingerprints)) (j n : Nat)
    (h : j ≤ n) : (bucketsBelow ids m j).Subperm (bucketsBelow ids m n) := by
  obtain ⟨post, hp⟩ := bucketsBelow_prefix ids m j n h
  rw [hp]
  exact (List.sublist_append_left _ _).subperm

theorem mem_groupAt_of_mem (ids : Key) (m : List (Key × fingerprints))
    (e : Key × fingerprints) (fp : fingerprint) (he : e ∈ m) (hfp : fp ∈ e.2) :
    fp ∈ groupAt ids m (setDifference ids e.1) := by
  induction m with
  | nil => simp at he
  | cons e0 rest ih =>
    obtain ⟨k, fps⟩ := e0
    simp only [groupAt]
    rcases List.mem_cons.mp he with rfl | hmem
    · rw [if_pos rfl]
      exact List.mem_append_left _ hfp
    · by_cases hd : setDifference ids k = setDifference ids e.1
      · rw [if_pos hd]
        exact List.mem_append_right _ (ih hmem)
      · rw [if_neg hd]
        exact ih hmem

theorem mem_bucketsBelow_of_mem (ids : Key) (m : List (Key × fingerprints)) (j : Nat)
    (e : Key × fingerprints) (fp : fingerprint) (he : e ∈ m) (hfp : fp ∈ e.2)
    (hlt : setDifference ids e.1 < j) : fp ∈ bucketsBelow ids m j := by
  unfold bucketsBelow
  exact List.mem_flatten.mpr ⟨groupAt ids m (setDifference ids e.1),
    List.mem_map.mpr ⟨_, List.mem_range.mpr hlt, rfl⟩, mem_groupAt_of_mem ids m e fp he hfp⟩

/-- A successful tail of `read` returns the average of what the tie-break kept. -/
theorem estimate_value (f : fingerprinting) (signals : Signals) (locs : List Location)
    (br : Option fingerprints) (e : Location)
    (h : (f.estimate signals locs br).value = some (some e, true)) :
    ∃ chosen, breakTies f.bestMatches signals locs br = some chosen ∧ e = average chosen := by
  rcases estimate_cases f signals locs br with ⟨_, he⟩ | ⟨_, _, he⟩ |
    ⟨_, chosen, hb, ⟨f1, _, he⟩ | ⟨f1, _, he⟩⟩
  · rw [he] at h
    simp [Outcome.value] at h
  · rw [he] at h
    exact Option.noConfusion h
  · rw [he] at h
    simp only [Outcome.value, Option.some.injEq, Prod.mk.injEq, and_true] at h
    exact ⟨chosen, hb, h.symm⟩
  · rw [he] at h
    exact Option.noConfusion h

theorem sortFps_sorted (signals : Signals) (fps : fingerprints) :
    (sortFps signals fps).Sorted (fun a b => fpDistance signals a ≤ fpDistance signals b) := by
  haveI : IsTotal fingerprint (fun a b => fpDistance signals a ≤ fpDistance signals b) :=
    ⟨fun a b => le_total _ _⟩
  haveI : IsTrans fingerprint (fun a b => fpDistance signals a ≤ fpDistance signals b) :=
    ⟨fun a b c h1 h2 => le_trans h1 h2⟩
  exact List.sorted_insertionSort _ fps

/-! ## Facts about the Map and the replacement transaction -/

theorem AddAccessPoint_eq (g : Globals) (m : Map) (location : Location) :
    Map.AddAccessPoint g m location =
      ({ g with accessPointCount := g.accessPointCount + 1 },
        { m with accessPoints := m.accessPoints ++ [⟨g.accessPointCount + 1, location⟩] }) :=
  rfl

theorem AddRandomAccessPoint_spec (g : Globals) (m : Map) :
    (Map.AddRandomAccessPoint g m).1.accessPointCount = g.accessPointCount + 1 ∧
      ∃ location, (Map.AddRandomAccessPoint g m).2.accessPoints
        = m.accessPoints ++ [⟨g.accessPointCount + 1, location⟩] :=
  ⟨rfl, _, rfl⟩

/-- The addition loop appends `count` access points with the next `count` ids. -/
theorem addLoop_spec :
    ∀ (count : Nat) (g : Globals) (m : Map),
      (addLoop count g m).1.accessPointCount = g.accessPointCount + count ∧
      ∃ added : List AccessPoint,
        (addLoop count g m).2.accessPoints = m.accessPoints ++ added ∧
        added.map (fun ap => ap.id)
          = (List.range count).map (fun (i : Nat) => g.accessPointCount + 1 + (i : Int)) := by
  intro count
  induction count with
  | zero =>
    intro g m
    exact ⟨by simp [addLoop], [], by simp [addLoop], rfl⟩
  | succ k ih =>
    intro g m
    obtain ⟨h1, location, h2⟩ := AddRandomAccessPoint_spec g m
    obtain ⟨i1, added, i2, i3⟩ :=
      ih (Map.AddRandomAccessPoint g m).1 (Map.AddRandomAccessPoint g m).2
    have hstep : addLoop (k + 1) g m
        = addLoop k (Map.AddRandomAccessPoint g m).1 (Map.AddRandomAccessPoint g m).2 := rfl
    rw [hstep]
    refine ⟨?_, ⟨g.accessPointCount + 1, location⟩ :: added, ?_, ?_⟩
    · rw [i1, h1]
      push_cast
      ring
    · rw [i2, h2, List.append_assoc]
      rfl
    · rw [List.map_cons, i3, h1, List.range_succ_eq_map, List.map_cons, List.map_map]
      congr 1
      · simp
      · apply List.map_congr_left
        intro i _
        simp only [Function.comp, Nat.succ_eq_add_one]
        push_cast
        ring

theorem RemoveRandomAccessPoint_spec (g : Globals) (m : Map) (hne : m.accessPoints ≠ []) :
    ∃ g1 i, ∃ hi : i < m.accessPoints.length,
      Map.RemoveRandomAccessPoint g m =
        Outcome.ok (g1, { m with accessPoints := m.accessPoints.eraseIdx i })
          (m.accessPoints[i]).id ∧
      g1.accessPointCount = g.accessPointCount := by
  have hpos : 0 < m.accessPoints.length := List.length_pos.mpr hne
  have hi : g.random.draws g.random.pos % m.accessPoints.length < m.accessPoints.length :=
    Nat.mod_lt _ hpos
  refine ⟨{ g with random := (g.random.Intn m.accessPoints.length).1 },
    g.random.draws g.random.pos % m.accessPoints.length, hi, ?_, rfl⟩
  unfold Map.RemoveRandomAccessPoint
  rw [if_neg (by omega)]
  simp only [Rand.Intn, List.getElem?_eq_getElem hi]

/-- The removal loop returns when it is asked for no more removals than there
are access points; it leaves the id counter alone and keeps a sublist. -/
theorem removeLoop_spec (strategy : Int)
    (hs : strategy = FiFoReplacement ∨ strategy = RandomReplacement) :
    ∀ (count : Nat) (g : Globals) (m : Map), count ≤ m.accessPoints.length →
      ∃ g1 m1, removeLoop strategy count g m = Outcome.ok (g1, m1) () ∧
        g1.accessPointCount = g.accessPointCount ∧
        m1.accessPoints.Sublist m.accessPoints ∧
        m1.accessPoints.length + count = m.accessPoints.length := by
  intro count
  induction count with
  | zero =>
    intro g m _
    exact ⟨g, m, rfl, rfl, List.Sublist.refl _, rfl⟩
  | succ k ih =>
    intro g m hle
    have hne : m.accessPoints ≠ [] := by
      intro h
      rw [h] at hle
      simp at hle
    simp only [removeLoop]
    by_cases hf : strategy = FiFoReplacement
    · rw [if_pos hf]
      obtain ⟨a, rest, hm⟩ := List.exists_cons_of_ne_nil hne
      have hro : m.RemoveOldestAccessPoint = Outcome.ok { m with accessPoints := rest } () := by
        unfold Map.RemoveOldestAccessPoint
        rw [hm]
      rw [hro]
      simp only
      obtain ⟨g1, m1, h1, h2, h3, h4⟩ := ih g { m with accessPoints := rest } (by
        rw [hm] at hle
        simpa using hle)
      refine ⟨g1, m1, h1, h2, ?_, ?_⟩
      · rw [hm]
        exact h3.trans (List.sublist_cons_self _ _)
      · rw [hm]
        simp only [List.length_cons] at h4 ⊢
        omega
    · rw [if_neg hf]
      have hr : strategy = RandomReplacement := by
        rcases hs with h | h
        · exact absurd h hf
        · exact h
      rw [if_pos hr]
      obtain ⟨g0, i, hi, hrr, hc⟩ := RemoveRandomAccessPoint_spec g m hne
      rw [hrr]
      simp only
      obtain ⟨g1, m1, h1, h2, h3, h4⟩ :=
        ih g0 { m with accessPoints := m.accessPoints.eraseIdx i } (by
          simp only [List.length_eraseIdx, hi, if_true]
          omega)
      refine ⟨g1, m1, h1, h2.trans hc, h3.trans (List.eraseIdx_sublist _ _), ?_⟩
      simp only [List.length_eraseIdx, hi, if_true] at h4
      omega

/-- With a rate in `[0, 1]` no more access points are replaced than there are. -/
theorem replacementCount_le (n : Nat) (rate : ℚ) (h0 : 0 ≤ rate) (h1 : rate ≤ 1) :
    (goInt ((n : ℚ) * rate)).toNat ≤ n := by
  have hnn : (0 : ℚ) ≤ (n : ℚ) * rate := mul_nonneg (Nat.cast_nonneg n) h0
  unfold goInt
  rw [if_pos hnn]
  have hle : (n : ℚ) * rate ≤ (n : ℚ) := by
    calc (n : ℚ) * rate ≤ (n : ℚ) * 1 := mul_le_mul_of_nonneg_left h1 (Nat.cast_nonneg n)
      _ = (n : ℚ) := mul_one _
  have hfl : Int.floor ((n : ℚ) * rate) ≤ (n : Int) := by
    have h2 : ((Int.floor ((n : ℚ) * rate) : Int) : ℚ) ≤ ((n : Int) : ℚ) := by
      calc ((Int.floor ((n : ℚ) * rate) : Int) : ℚ) ≤ (n : ℚ) * rate := Int.floor_le _
        _ ≤ (n : ℚ) := hle
        _ = ((n : Int) : ℚ) := by push_cast; rfl
    exact_mod_cast h2
  omega

/-- The state `replaceAccessPoints` leaves: the map after the two loops and the
id counter after the additions; it returns unless that map is empty. -/
theorem replaceAccessPoints_state (g g1 : Globals) (e : engine) (m1 : Map)
    (hrem : removeLoop e.config.ReplacementStrategy
      (goInt ((e.m.accessPoints.length : ℚ) * e.config.ReplacementRate)).toNat g e.m
        = Outcome.ok (g1, m1) ()) :
    (engine.replaceAccessPoints g e).state.1
        = (addLoop (goInt ((e.m.accessPoints.length : ℚ) * e.config.ReplacementRate)).toNat
            g1 m1).1 ∧
      (engine.replaceAccessPoints g e).state.2.m
        = (addLoop (goInt ((e.m.accessPoints.length : ℚ) * e.config.ReplacementRate)).toNat
            g1 m1).2 ∧
      ((addLoop (goInt ((e.m.accessPoints.length : ℚ) * e.config.ReplacementRate)).toNat
            g1 m1).2.accessPoints ≠ [] →
        (engine.replaceAccessPoints g e).panicked = false) := by
  unfold engine.replaceAccessPoints
  simp only [hrem]
  cases hadd : addLoop (goInt ((e.m.accessPoints.length : ℚ) * e.config.ReplacementRate)).toNat
      g1 m1 with
  | mk g2 m2 =>
    simp only
    cases hl : m2.accessPoints.getLast? with
    | none =>
      refine ⟨rfl, rfl, ?_⟩
      intro hne
      exact absurd (List.getLast?_eq_none_iff.mp hl) hne
    | some ap => exact ⟨rfl, rfl, fun _ => rfl⟩

/-- The invariant survives dropping access points and advancing the id counter. -/
theorem MapInv_of_sublist (g g1 : Globals) (m m1 : Map) (h : MapInv g m)
    (hsub : m1.accessPoints.Sublist m.accessPoints)
    (hc : g.accessPointCount ≤ g1.accessPointCount) : MapInv g1 m1 := by
  obtain ⟨h1, h2, h3, h4⟩ := h
  refine ⟨?_, ?_, ?_, by omega⟩
  · exact List.Pairwise.sublist (hsub.map _) h1
  · intro ap hap
    exact h2 ap (hsub.subset hap)
  · intro ap hap
    have := h3 ap (hsub.subset hap)
    omega

theorem MapInv_add (g : Globals) (m : Map) (location : Location) (h : MapInv g m) :
    MapInv (Map.AddAccessPoint g m location).1 (Map.AddAccessPoint g m location).2 := by
  obtain ⟨h1, h2, h3, h4⟩ := h
  rw [AddAccessPoint_eq]
  refine ⟨?_, ?_, ?_, ?_⟩
  · unfold Map.ids at h1 ⊢
    simp only [List.map_append, List.map_cons, List.map_nil]
    rw [List.pairwise_append]
    refine ⟨h1, List.pairwise_singleton _ _, ?_⟩
    intro a ha b hb
    obtain ⟨ap, hap, rfl⟩ := List.mem_map.mp ha
    rw [List.mem_singleton.mp hb]
    have := h3 ap hap
    omega
  · intro ap hap
    rcases List.mem_append.mp hap with h | h
    · exact h2 ap h
    · rw [List.mem_singleton.mp h]
      simp only
      omega
  · intro ap hap
    rcases List.mem_append.mp hap with h | h
    · have := h3 ap h
      simp only
      omega
    · rw [List.mem_singleton.mp h]
  · simp only
    omega

theorem removeFirstWithId_sublist (id : Int) (l : List AccessPoint) :
    (removeFirstWithId id l).Sublist l := by
  induction l with
  | nil => exact List.Sublist.refl _
  | cons v rest ih =>
    simp only [removeFirstWithId]
    by_cases h : v.id = id
    · rw [if_pos h]
      exact List.sublist_cons_self _ _
    · rw [if_neg h]
      exact ih.cons₂ _

/-- Every reachable map satisfies the invariant. -/
theorem MapReachable_inv (g : Globals) (m : Map) (h : MapReachable g m) : MapInv g m := by
  induction h with
  | newMap g newSource width height source hc =>
    refine ⟨List.Pairwise.nil, fun ap hap => ?_, fun ap hap => ?_, ?_⟩
    · simp [NewMap] at hap
    · simp [NewMap] at hap
    · unfold NewMap
      by_cases hsrc : source ≠ 0
      · rw [if_pos hsrc]
        exact hc
      · rw [if_neg hsrc]
        exact hc
  | add g m location _ ih => exact MapInv_add g m location ih
  | addRandom g m _ ih =>
    exact MapInv_add (NewRandomLocation g m.width m.height).1 m
      (NewRandomLocation g m.width m.height).2
      (MapInv_of_sublist g _ m m ih (List.Sublist.refl _) (le_refl _))
  | remove g m id _ ih =>
    exact MapInv_of_sublist g g m _ ih (removeFirstWithId_sublist id _) (le_refl _)
  | removeOldest g m m1 _ hro ih =>
    unfold Map.RemoveOldestAccessPoint at hro
    cases hm : m.accessPoints with
    | nil =>
      rw [hm] at hro
      cases hro
    | cons a rest =>
      rw [hm] at hro
      cases hro
      exact MapInv_of_sublist g g m _ ih (by rw [hm]; exact List.sublist_cons_self _ _)
        (le_refl _)
  | removeRandom g g1 m m1 id _ hrr ih =>
    by_cases hne : m.accessPoints = []
    · unfold Map.RemoveRandomAccessPoint at hrr
      rw [if_pos (by rw [hne]; rfl)] at hrr
      cases hrr
    · obtain ⟨g0, i, hi, hspec, hc⟩ := RemoveRandomAccessPoint_spec g m hne
      rw [hspec] at hrr
      cases hrr
      exact MapInv_of_sublist g _ m _ ih (List.eraseIdx_sublist _ _) (by rw [hc])
  | elsewhere g m count _ hle ih =>
    exact MapInv_of_sublist g _ m m ih (List.Sublist.refl _) hle

/-- With distinct ids, erasing the access point at an index removes exactly the
access points with its id. -/
theorem eraseIdx_eq_filter (l : List AccessPoint) (hnd : (l.map (fun ap => ap.id)).Nodup) :
    ∀ (i : Nat) (hi : i < l.length),
      l.eraseIdx i = l.filter (fun ap => ap.id ≠ (l[i]).id) := by
  induction l with
  | nil =>
    intro i hi
    simp at hi
  | cons a rest ih =>
    intro i hi
    rw [List.map_cons, List.nodup_cons] at hnd
    cases i with
    | zero =>
      simp only [List.eraseIdx_cons_zero, List.getElem_cons_zero, List.filter_cons]
      simp only [ne_eq, not_true_eq_false, decide_False, Bool.false_eq_true, if_false]
      symm
      rw [List.filter_eq_self]
      intro b hb
      have : b.id ≠ a.id := by
        intro heq
        exact hnd.1 (List.mem_map.mpr ⟨b, hb, heq⟩)
      simpa using this
    | succ j =>
      have hj : j < rest.length := by simpa using hi
      simp only [List.eraseIdx_cons_succ, List.getElem_cons_succ, List.filter_cons]
      have hne : a.id ≠ (rest[j]).id := by
        intro heq
        exact hnd.1 (List.mem_map.mpr ⟨rest[j], List.getElem_mem _, heq.symm⟩)
      rw [if_pos (by simpa using hne), ih hnd.2 j hj]

/-! ## Feeding on after the smart cap -/

theorem feedSeq_append (c : centroid) (feeds more : List (Signals × Location)) :
    c.feedSeq (feeds ++ more) = (c.feedSeq feeds).feedSeq more := by
  unfold centroid.feedSeq
  rw [List.foldl_append]

theorem take_append_of_le (xs ys : List ℚ) (n : Nat) (h : n ≤ xs.length) :
    (xs ++ ys).take n = xs.take n :=
  List.take_append_of_le_length h

/-! ## Validation and construction -/

theorem validate_ok_iff (c : Configuration) :
    c.validate = .ok () ↔
      160 ≤ c.MapWidth ∧ 160 ≤ c.MapHeight ∧ c.AccessPointDensity ≠ 0 ∧
        c.SeedDistance ≠ 0 ∧ c.TestDistance ≠ 0 ∧
        (c.ReplacementRate ≠ 0 → c.ReplacementStrategy ≠ 0) := by
  unfold Configuration.validate
  split_ifs with h1 h2 h3 h4 h5 h6
  · simp only [reduceCtorEq, false_iff]
    intro h
    exact h.2.2.2.2.2 h1.1 h1.2
  · simp only [reduceCtorEq, false_iff]
    intro h
    exact h.2.2.1 h2
  · simp only [reduceCtorEq, false_iff]
    intro h
    exact absurd h.1 (not_le.mpr h3)
  · simp only [reduceCtorEq, false_iff]
    intro h
    exact absurd h.2.1 (not_le.mpr h4)
  · simp only [reduceCtorEq, false_iff]
    intro h
    exact h.2.2.2.1 h5
  · simp only [reduceCtorEq, false_iff]
    intro h
    exact h.2.2.2.2.1 h6
  · simp only [true_iff]
    exact ⟨not_lt.mp h3, not_lt.mp h4, h2, h5, h6, fun hr hs => h1 ⟨hr, hs⟩⟩

theorem NewEngine_of_validate (g : Globals) (newSource : Int → Rand) (c : Configuration)
    (h : c.validate = .ok ()) :
    ∃ g1 e1, NewEngine g newSource c = .ok (g1, e1) ∧ e1.config = c :=
  ⟨_, _, by unfold NewEngine; rw [h], rfl⟩

theorem NewEngine_error (g : Globals) (newSource : Int → Rand) (c : Configuration)
    (msg : String) (h : c.validate = .error msg) :
    NewEngine g newSource c = .error msg := by
  unfold NewEngine
  rw [h]

theorem removeLoop_unknown (s : Int) (h1 : s ≠ FiFoReplacement) (h2 : s ≠ RandomReplacement)
    (count : Nat) (g : Globals) (m : Map) :
    removeLoop s (count + 1) g m = .panic (g, m) := by
  simp only [removeLoop, h1, h2, if_false]

theorem replaceAccessPoints_unknown (g : Globals) (e : engine)
    (h1 : e.config.ReplacementStrategy ≠ FiFoReplacement)
    (h2 : e.config.ReplacementStrategy ≠ RandomReplacement)
    (hc : 0 < goInt ((e.m.accessPoints.length : ℚ) * e.config.ReplacementRate)) :
    e.replaceAccessPoints g = .panic (g, e) := by
  obtain ⟨n, hn⟩ : ∃ n : Nat,
      (goInt ((e.m.accessPoints.length : ℚ) * e.config.ReplacementRate)).toNat = n + 1 :=
    ⟨(goInt ((e.m.accessPoints.length : ℚ) * e.config.ReplacementRate)).toNat - 1, by omega⟩
  unfold engine.replaceAccessPoints
  simp only [hn, removeLoop_unknown _ h1 h2]

/-! ## The merge loop of `euclidianDistance` -/

theorem strengthOf_cons_ne (a : Signal) (r : Signals) (id : Int) (h : a.id ≠ id) :
    strengthOf (a :: r) id = strengthOf r id := by
  unfold strengthOf
  rw [List.find?_cons_of_neg]
  simpa using h

theorem strengthOf_cons_self (a : Signal) (r : Signals) :
    strengthOf (a :: r) a.id = a.signalStrength := by
  unfold strengthOf
  rw [List.find?_cons_of_pos]
  simp

theorem sharedSquares_nil_left (s2 : Signals) : sharedSquares [] s2 = 0 := by
  simp [sharedSquares, sharedIds]

theorem sharedSquares_nil_right (s1 : Signals) : sharedSquares s1 [] = 0 := by
  simp [sharedSquares, sharedIds]

theorem sharedSquares_skip_left (a : Signal) (r1 s2 : Signals)
    (h : a.id ∉ (s2.map (fun x => x.id)).toFinset) :
    sharedSquares (a :: r1) s2 = sharedSquares r1 s2 := by
  have hids : sharedIds (a :: r1) s2 = sharedIds r1 s2 := by
    unfold sharedIds
    rw [List.map_cons, List.toFinset_cons, Finset.insert_inter_of_not_mem h]
  unfold sharedSquares
  rw [hids]
  refine Finset.sum_congr rfl (fun id hid => ?_)
  have hid2 : id ∈ (s2.map (fun x => x.id)).toFinset := (Finset.mem_inter.mp hid).2
  rw [strengthOf_cons_ne a r1 id (fun he => h (he ▸ hid2))]

theorem sharedSquares_skip_right (b : Signal) (s1 r2 : Signals)
    (h : b.id ∉ (s1.map (fun x => x.id)).toFinset) :
    sharedSquares s1 (b :: r2) = sharedSquares s1 r2 := by
  have hids : sharedIds s1 (b :: r2) = sharedIds s1 r2 := by
    unfold sharedIds
    rw [List.map_cons, List.toFinset_cons, Finset.inter_insert_of_not_mem h]
  unfold sharedSquares
  rw [hids]
  refine Finset.sum_congr rfl (fun id hid => ?_)
  have hid1 : id ∈ (s1.map (fun x => x.id)).toFinset := (Finset.mem_inter.mp hid).1
  rw [strengthOf_cons_ne b r2 id (fun he => h (he ▸ hid1))]

theorem sharedSquares_cons_cons (a b : Signal) (r1 r2 : Signals) (hab : a.id = b.id)
    (ha : a.id ∉ (r1.map (fun x => x.id)).toFinset)
    (hb : b.id ∉ (r2.map (fun x => x.id)).toFinset) :
    sharedSquares (a :: r1) (b :: r2)
      = (a.signalStrength - b.signalStrength) ^ 2 + sharedSquares r1 r2 := by
  have hids : sharedIds (a :: r1) (b :: r2) = insert a.id (sharedIds r1 r2) := by
    unfold sharedIds
    rw [List.map_cons, List.map_cons, List.toFinset_cons, List.toFinset_cons, ← hab,
      Finset.insert_inter_distrib]
  have hnot : a.id ∉ sharedIds r1 r2 := fun h => ha (Finset.mem_inter.mp h).1
  unfold sharedSquares
  rw [hids, Finset.sum_insert hnot, strengthOf_cons_self]
  have hbs : strengthOf (b :: r2) a.id = b.signalStrength := by
    rw [hab, strengthOf_cons_self]
  rw [hbs]
  congr 1
  refine Finset.sum_congr rfl (fun id hid => ?_)
  have hid1 : id ∈ (r1.map (fun x => x.id)).toFinset := (Finset.mem_inter.mp hid).1
  have hid2 : id ∈ (r2.map (fun x => x.id)).toFinset := (Finset.mem_inter.mp hid).2
  rw [strengthOf_cons_ne a r1 id (fun he => ha (he ▸ hid1)),
    strengthOf_cons_ne b r2 id (fun he => hb (he ▸ hid2))]

/-- In a strictly ascending id list the head id is below every later id. -/
theorem head_lt_of_ascending (a : Signal) (r : Signals)
    (h : ((a :: r).map (fun x => x.id)).Pairwise (· < ·)) :
    (∀ id ∈ (r.map (fun x => x.id)).toFinset, a.id < id) ∧
      (r.map (fun x => x.id)).Pairwise (· < ·) := by
  rw [List.map_cons, List.pairwise_cons] at h
  exact ⟨fun id hid => h.1 id (List.mem_toFinset.mp hid), h.2⟩

theorem euclidianDistanceSum_eq_shared :
    ∀ (s1 s2 : Signals) (sum : ℚ),
      (s1.map (fun x => x.id)).Pairwise (· < ·) → (s2.map (fun x => x.id)).Pairwise (· < ·) →
      euclidianDistanceSum s1 s2 sum = sum + sharedSquares s1 s2 := by
  intro s1 s2 sum
  induction s1, s2, sum using euclidianDistanceSum.induct with
  | case1 s2 sum =>
    intro _ _
    rw [euclidianDistanceSum, sharedSquares_nil_left, add_zero]
  | case2 a r1 sum =>
    intro _ _
    rw [euclidianDistanceSum, sharedSquares_nil_right, add_zero]
  | case3 a r1 b r2 sum hab ih =>
    intro h1 h2
    obtain ⟨ha, h1r⟩ := head_lt_of_ascending a r1 h1
    obtain ⟨hb, h2r⟩ := head_lt_of_ascending b r2 h2
    rw [euclidianDistanceSum, if_pos hab, ih h1r h2r,
      sharedSquares_cons_cons a b r1 r2 hab (fun h => lt_irrefl _ (ha _ h))
        (fun h => lt_irrefl _ (hb _ h))]
    ring
  | case4 a r1 b r2 sum hab hlt ih =>
    intro h1 h2
    obtain ⟨ha, h1r⟩ := head_lt_of_ascending a r1 h1
    obtain ⟨hb, _⟩ := head_lt_of_ascending b r2 h2
    rw [euclidianDistanceSum, if_neg hab, if_pos hlt, ih h1r h2]
    congr 1
    symm
    apply sharedSquares_skip_left
    rw [List.map_cons, List.toFinset_cons, Finset.mem_insert]
    rintro (h | h)
    · exact hab h
    · exact lt_asymm hlt (hb _ h)
  | case5 a r1 b r2 sum hab hlt ih =>
    intro h1 h2
    obtain ⟨ha, _⟩ := head_lt_of_ascending a r1 h1
    obtain ⟨hb, h2r⟩ := head_lt_of_ascending b r2 h2
    have hgt : b.id < a.id := lt_of_le_of_ne (not_lt.mp hlt) (fun h => hab h.symm)
    rw [euclidianDistanceSum, if_neg hab, if_neg hlt, ih h1 h2r]
    congr 1
    symm
    apply sharedSquares_skip_right
    rw [List.map_cons, List.toFinset_cons, Finset.mem_insert]
    rintro (h | h)
    · exact hab h.symm
    · exact lt_asymm hgt (ha _ h)

theorem euclidianDistanceSum_comm :
    ∀ (s1 s2 : Signals) (sum : ℚ),
      euclidianDistanceSum s1 s2 sum = euclidianDistanceSum s2 s1 sum := by
  intro s1 s2 sum
  induction s1, s2, sum using euclidianDistanceSum.induct with
  | case1 s2 sum => cases s2 <;> simp [euclidianDistanceSum]
  | case2 a r1 sum => simp [euclidianDistanceSum]
  | case3 a r1 b r2 sum hab ih =>
    rw [euclidianDistanceSum, if_pos hab, euclidianDistanceSum, if_pos hab.symm, ih]
    congr 1
    ring
  | case4 a r1 b r2 sum hab hlt ih =>
    rw [euclidianDistanceSum, if_neg hab, if_pos hlt, ih]
    conv_rhs => rw [euclidianDistanceSum]
    rw [if_neg (fun h => hab h.symm), if_neg (lt_asymm hlt)]
  | case5 a r1 b r2 sum hab hlt ih =>
    have hgt : b.id < a.id := lt_of_le_of_ne (not_lt.mp hlt) (fun h => hab h.symm)
    rw [euclidianDistanceSum, if_neg hab, if_neg hlt, ih]
    conv_rhs => rw [euclidianDistanceSum]
    rw [if_neg (fun h => hab h.symm), if_pos hgt]

theorem euclidianDistanceSum_self (s : Signals) (sum : ℚ) :
    euclidianDistanceSum s s sum = sum := by
  induction s generalizing sum with
  | nil => rw [euclidianDistanceSum]
  | cons a r ih => rw [euclidianDistanceSum, if_pos rfl, ih, sub_self, mul_zero, add_zero]

theorem sharedSquares_of_disjoint (s1 s2 : Signals)
    (h : ∀ a ∈ s1, ∀ b ∈ s2, a.id ≠ b.id) : sharedSquares s1 s2 = 0 := by
  have hids : sharedIds s1 s2 = ∅ := by
    unfold sharedIds
    rw [Finset.eq_empty_iff_forall_not_mem]
    intro id hid
    obtain ⟨h1, h2⟩ := Finset.mem_inter.mp hid
    obtain ⟨a, ha, rfl⟩ := List.mem_map.mp (List.mem_toFinset.mp h1)
    obtain ⟨b, hb, hba⟩ := List.mem_map.mp (List.mem_toFinset.mp h2)
    exact h a ha b hb hba.symm
  unfold sharedSquares
  rw [hids, Finset.sum_empty]

/-! ## The propagation model over the reals -/

/-- Each draw of `Float64` is in `[0, 1)`. -/
theorem Float64_range (r : Rand) : 0 ≤ r.Float64.2 ∧ r.Float64.2 < 1 := by
  unfold Rand.Float64
  constructor
  · positivity
  · rw [div_lt_one (by positivity)]
    have h : r.draws r.pos % 2 ^ 53 < 2 ^ 53 := Nat.mod_lt _ (by positivity)
    exact_mod_cast h

theorem signalReceived_iff (math : Math ℝ) (g : Globals) (d : ℝ) :
    (signalReceived math g d).2 = true ↔
      ((g.random.Float64.2 : ℚ) : ℝ) < 0.6 - math.Log (d / 64 + 0.5) := by
  simp only [signalReceived, decide_eq_true_eq]

theorem threshold_antitone (d1 d2 : ℝ) (h0 : 0 ≤ d1) (h12 : d1 ≤ d2) :
    0.6 - Real.log (d2 / 64 + 0.5) ≤ 0.6 - Real.log (d1 / 64 + 0.5) := by
  have hpos : (0 : ℝ) < d1 / 64 + 0.5 := by positivity
  have hle : d1 / 64 + 0.5 ≤ d2 / 64 + 0.5 := by linarith
  have := Real.log_le_log hpos hle
  linarith

theorem rss_strictAnti (math : Math ℝ) (hlog : math.Log = Real.log) (d1 d2 : ℝ)
    (h0 : 0 ≤ d1) (h12 : d1 < d2) : rss math d2 < rss math d1 := by
  unfold rss
  rw [hlog]
  have h10 : 0 < Real.log 10 := Real.log_pos (by norm_num)
  have hlt : Real.log (d1 + 5) < Real.log (d2 + 5) :=
    Real.log_lt_log (by linarith) (by linarith)
  have hdiv : 14 * Real.log (d1 + 5) / Real.log 10 < 14 * Real.log (d2 + 5) / Real.log 10 :=
    div_lt_div_of_pos_right (by linarith) h10
  linarith

theorem stddev_strictAnti (math : Math ℝ) (hlog : math.Log = Real.log) (d1 d2 : ℝ)
    (h0 : 0 ≤ d1) (h12 : d1 < d2) : stddev math d2 < stddev math d1 := by
  have h := rss_strictAnti math hlog d1 d2 h0 h12
  unfold stddev
  have : (0.0497 : ℝ) * rss math d2 < 0.0497 * rss math d1 :=
    mul_lt_mul_of_pos_left h (by norm_num)
  linarith

/-! ## Saturation of the reception formula -/

theorem exp_three_fifths_lt : Real.exp (3 / 5) < 1.828125 := by
  have h3 : Real.exp (3 / 5) ^ 5 = Real.exp 1 ^ 3 := by
    rw [← Real.exp_nat_mul, ← Real.exp_nat_mul]
    norm_num
  have hlt : Real.exp 1 ^ 3 < (1.828125 : ℝ) ^ 5 := by
    have he := Real.exp_one_lt_d9
    have h0 : (0 : ℝ) ≤ Real.exp 1 := (Real.exp_pos 1).le
    calc Real.exp 1 ^ 3 < (2.7182818286 : ℝ) ^ 3 := pow_lt_pow_left₀ he h0 (by norm_num)
      _ < (1.828125 : ℝ) ^ 5 := by norm_num
  exact lt_of_pow_lt_pow_left₀ 5 (by norm_num) (h3 ▸ hlt)

theorem exp_two_fifths_lt : Real.exp (2 / 5) < 1.5 := by
  have h2 : Real.exp (2 / 5) ^ 5 = Real.exp 1 ^ 2 := by
    rw [← Real.exp_nat_mul, ← Real.exp_nat_mul]
    norm_num
  have hlt : Real.exp 1 ^ 2 < (1.5 : ℝ) ^ 5 := by
    have he := Real.exp_one_lt_d9
    have h0 : (0 : ℝ) ≤ Real.exp 1 := (Real.exp_pos 1).le
    calc Real.exp 1 ^ 2 < (2.7182818286 : ℝ) ^ 2 := pow_lt_pow_left₀ he h0 (by norm_num)
      _ < (1.5 : ℝ) ^ 5 := by norm_num
  exact lt_of_pow_lt_pow_left₀ 5 (by norm_num) (h2 ▸ hlt)

/-- From 85 m on the threshold of reception is negative. -/
theorem threshold_neg (d : ℝ) (h : 85 ≤ d) : 0.6 - Real.log (d / 64 + 0.5) < 0 := by
  have hpos : (0 : ℝ) < 1.828125 := by norm_num
  have h1 : (3 / 5 : ℝ) < Real.log 1.828125 :=
    (Real.lt_log_iff_exp_lt hpos).mpr exp_three_fifths_lt
  have h2 : Real.log 1.828125 ≤ Real.log (d / 64 + 0.5) :=
    Real.log_le_log hpos (by linarith)
  linarith

/-- Up to 10 m the threshold of reception is above 1. -/
theorem threshold_gt_one (d : ℝ) (h0 : 0 ≤ d) (h : d ≤ 10) :
    1 < 0.6 - Real.log (d / 64 + 0.5) := by
  have hpos : (0 : ℝ) < d / 64 + 0.5 := by positivity
  have h1 : Real.log (d / 64 + 0.5) ≤ Real.log 0.65625 :=
    Real.log_le_log hpos (by linarith)
  have h2 : Real.log 0.65625 < -(2 / 5) := by
    have hlt : Real.log ((1.5 : ℝ)⁻¹) = -Real.log 1.5 := Real.log_inv 1.5
    have h15 : (2 / 5 : ℝ) < Real.log 1.5 :=
      (Real.lt_log_iff_exp_lt (by norm_num)).mpr exp_two_fifths_lt
    have hle : Real.log 0.65625 ≤ Real.log ((1.5 : ℝ)⁻¹) :=
      Real.log_le_log (by norm_num) (by norm_num)
    linarith
  linarith

theorem signalReceived_far (math : Math ℝ) (hlog : math.Log = Real.log) (g : Globals)
    (d : ℝ) (h : 85 ≤ d) : (signalReceived math g d).2 = false := by
  rw [← Bool.not_eq_true, signalReceived_iff, hlog, not_lt]
  have hu : (0 : ℝ) ≤ ((g.random.Float64.2 : ℚ) : ℝ) := by
    exact_mod_cast (Float64_range g.random).1
  linarith [threshold_neg d h]

theorem signalReceived_near (math : Math ℝ) (hlog : math.Log = Real.log) (g : Globals)
    (d : ℝ) (h0 : 0 ≤ d) (h : d ≤ 10) : (signalReceived math g d).2 = true := by
  rw [signalReceived_iff, hlog]
  have hu : ((g.random.Float64.2 : ℚ) : ℝ) < 1 := by
    exact_mod_cast (Float64_range g.random).2
  linarith [threshold_gt_one d h0 h]

/-- Every reading that `readLoop` adds belongs to an access point nearer than
85 m. -/
theorem readLoop_observed (math : Math ℝ) (hlog : math.Log = Real.log) (location : Location) :
    ∀ (aps : List AccessPoint) (g : Globals) (signals : List (Reading ℝ)),
      ∀ s ∈ (readLoop math location aps g signals).2,
        s ∈ signals ∨ ∃ ap ∈ aps, ap.id = s.id ∧ distance math ap.location location < 85 := by
  intro aps
  induction aps with
  | nil =>
    intro g signals s hs
    exact Or.inl hs
  | cons ap rest ih =>
    intro g signals s hs
    rcases hsr : signalReceived math g (distance math ap.location location) with ⟨g1, received⟩
    simp only [readLoop, hsr] at hs
    cases received with
    | false =>
      simp only [Bool.false_eq_true, if_false] at hs
      rcases ih g1 signals s hs with h | ⟨ap2, hap2, h⟩
      · exact Or.inl h
      · exact Or.inr ⟨ap2, List.mem_cons_of_mem _ hap2, h⟩
    | true =>
      simp only [if_true] at hs
      have hnear : distance math ap.location location < 85 := by
        by_contra hfar
        have hf := signalReceived_far math hlog g _ (not_lt.mp hfar)
        rw [hsr] at hf
        exact Bool.noConfusion hf
      rcases ih _ _ s hs with h | ⟨ap2, hap2, h⟩
      · rcases List.mem_append.mp h with h | h
        · exact Or.inl h
        · rw [List.mem_singleton] at h
          exact Or.inr ⟨ap, List.mem_cons_self _ _, by rw [h], hnear⟩
      · exact Or.inr ⟨ap2, List.mem_cons_of_mem _ hap2, h⟩

theorem gridAxis_bounds (limit testDistance : ℚ) (ht : 0 < testDistance) :
    ∀ (fuel : Nat) (y : ℚ), 85 ≤ y →
      ∀ v ∈ gridAxis limit testDistance fuel y, 85 ≤ v ∧ v ≤ limit := by
  intro fuel
  induction fuel with
  | zero =>
    intro y _ v hv
    simp [gridAxis] at hv
  | succ n ih =>
    intro y hy v hv
    unfold gridAxis at hv
    split_ifs at hv with hle
    · rcases List.mem_cons.mp hv with h | h
      · exact ⟨h ▸ hy, h ▸ hle⟩
      · exact ih (y + testDistance) (by linarith) v h
    · simp at hv

theorem testLocations_bounds (fuel : Nat) (mapWidth mapHeight testDistance : ℚ)
    (ht : 0 < testDistance) :
    ∀ l ∈ testLocations fuel mapWidth mapHeight testDistance,
      85 ≤ l.X ∧ l.X ≤ mapWidth - 85 ∧ 85 ≤ l.Y ∧ l.Y ≤ mapHeight - 85 := by
  intro l hl
  unfold testLocations at hl
  obtain ⟨x, hx, hl⟩ := List.mem_flatMap.mp hl
  obtain ⟨y, hy, rfl⟩ := List.mem_map.mp hl
  have bx := gridAxis_bounds (mapWidth - 85) testDistance ht fuel 85 le_rfl x hx
  have by1 := gridAxis_bounds (mapHeight - 85) testDistance ht fuel 85 le_rfl y hy
  exact ⟨bx.1, bx.2, by1.1, by1.2⟩

/-! ## Readings of a map with one access point -/

theorem signalReceived_eq (math : Math ℝ) (g : Globals) (d : ℝ) :
    signalReceived math g d
      = ({ g with random := g.random.Float64.1 }, (signalReceived math g d).2) := rfl

theorem Read_single (math : Math ℝ) (g : Globals) (w h : ℚ) (ap : AccessPoint)
    (location : Location) :
    ((signalReceived math g (distance math ap.location location)).2 = true →
        ((Map.Read math g ⟨w, h, [ap]⟩ location).2.map (fun s => s.id) = [ap.id] ∧
          (Map.Read math g ⟨w, h, [ap]⟩ location).1.random.pos = g.random.pos + 3 ∧
          (Map.Read math g ⟨w, h, [ap]⟩ location).1.random.draws = g.random.draws ∧
          (Map.Read math g ⟨w, h, [ap]⟩ location).1.accessPointCount = g.accessPointCount)) ∧
      ((signalReceived math g (distance math ap.location location)).2 = false →
        ((Map.Read math g ⟨w, h, [ap]⟩ location).2 = [] ∧
          (Map.Read math g ⟨w, h, [ap]⟩ location).1.random.pos = g.random.pos + 1 ∧
          (Map.Read math g ⟨w, h, [ap]⟩ location).1.random.draws = g.random.draws ∧
          (Map.Read math g ⟨w, h, [ap]⟩ location).1.accessPointCount = g.accessPointCount)) := by
  constructor
  · intro hr
    have : signalReceived math g (distance math ap.location location)
        = ({ g with random := g.random.Float64.1 }, true) := by
      rw [signalReceived_eq, hr]
    simp only [Map.Read, readLoop, this, if_true, signalStrength, Rand.Float64, List.nil_append,
      List.map_cons, List.map_nil, and_self]
  · intro hr
    have : signalReceived math g (distance math ap.location location)
        = ({ g with random := g.random.Float64.1 }, false) := by
      rw [signalReceived_eq, hr]
    simp only [Map.Read, readLoop, this, Bool.false_eq_true, if_false, Rand.Float64, and_self]

theorem Float64_value (r : Rand) :
    r.Float64.2 = ((r.draws r.pos % 2 ^ 53 : Nat) : ℚ) / 2 ^ 53 := rfl

/-! ## The cached centroid as the in-order sum over the count -/

/-- Without the smart cap in play, the cached centroid after a sequence of
feeds from the empty state is absent below `minMatches` samples and otherwise
the sum of the recorded samples, added in feed order, over their number. -/
theorem feedSeq_cached_sumLoop (c0 : centroid) (h0 : c0.accessPointMap = fun _ => none)
    (run : List (Signals × Location)) (id : Int)
    (hcap : c0.smart = false ∨ (samplesOf id run).length < 300) :
    (c0.feedSeq run).cached id =
      if (samplesOf id run).length < c0.minMatches ∨ (samplesOf id run).length = 0 then none
      else some
        ⟨sumLoop ((samplesOf id run).map (fun l => l.X)) / (samplesOf id run).length,
          sumLoop ((samplesOf id run).map (fun l => l.Y)) / (samplesOf id run).length⟩ := by
  rw [feedSeq_cached c0 h0]
  by_cases hlt : (samplesOf id run).length < c0.minMatches
  · rw [if_pos (Or.inl hlt), cachedAt_of_lt_minMatches _ _ _ _ _ hlt]
  · by_cases hz : (samplesOf id run).length = 0
    · rw [if_pos (Or.inr hz), hz]
      rfl
    · rw [if_neg (by rintro (h | h); exact hlt h; exact hz h),
        cachedAt_of_uncapped _ _ _ _ _ hcap (by rw [List.length_map])
          (by rw [List.length_map]) (by omega) (by omega)]
      simp only [mean, sumLoop_eq_sum, List.length_map]

theorem unitFeeds_cached : (NewEnhancedCentroid.feedSeq unitFeeds).cached 1 = some ⟨1, 1⟩ := by
  rw [feedSeq_cached _ rfl,
    cachedAt_of_uncapped NewEnhancedCentroid.smart NewEnhancedCentroid.minMatches _ _ _
      (Or.inl rfl) (by rw [List.length_map])
      (by rw [List.length_map]) (by decide) (by decide)]
  norm_num [mean, samplesOf, unitFeeds]

theorem unitFeeds_read :
    ((NewEnhancedCentroid.feedSeq unitFeeds).plain.read [⟨1, -55⟩] ⟨2, 3⟩).2
      = (some ⟨1, 1⟩, true) := by
  rw [read_value]
  simp only [cached_plain, List.filterMap_cons, List.filterMap_nil, unitFeeds_cached]
  norm_num [mean, NewLocation, centroid.plain]

set_option maxRecDepth 100000 in
/-- In `float64` arithmetic, the estimate `(1, 1)` enhanced toward `(2, 3)` lies
at a distance one unit in the last place below `0.9` times the distance of
`(1, 1)`. -/
theorem enhance64_values :
    distance64 ⟨F64.ofRat 1 1, F64.ofRat 1 1⟩ ⟨F64.ofRat 2 1, F64.ofRat 3 1⟩
        = ⟨5035177455121576, -51⟩ ∧
      distance64
          (Location64.enhance ⟨F64.ofRat 1 1, F64.ofRat 1 1⟩ ⟨F64.ofRat 2 1, F64.ofRat 3 1⟩)
          ⟨F64.ofRat 2 1, F64.ofRat 3 1⟩ = ⟨4531659709609418, -51⟩ ∧
      F64.mul (F64.ofRat 9 10)
          (distance64 ⟨F64.ofRat 1 1, F64.ofRat 1 1⟩ ⟨F64.ofRat 2 1, F64.ofRat 3 1⟩)
        = ⟨4531659709609419, -51⟩ := by
  refine ⟨by decide, by decide, by decide⟩

set_option maxRecDepth 100000 in
/-- In `float64` arithmetic, the samples 0.1, 0.2, 0.3, 0.4 give the centroid
coordinate 0.25 in this order and the next `float64` above it in another. -/
theorem centroidCoordinate64_values :
    centroidCoordinate64 [F64.ofRat 1 10, F64.ofRat 2 10, F64.ofRat 3 10, F64.ofRat 4 10]
        = ⟨4503599627370496, -54⟩ ∧
      centroidCoordinate64 [F64.ofRat 2 10, F64.ofRat 4 10, F64.ofRat 3 10, F64.ofRat 1 10]
        = ⟨4503599627370497, -54⟩ := by
  refine ⟨by decide, by decide⟩

/-! ## The first test cycle of a seeded run -/

theorem Float64_of_pos (r r0 : Rand) (k : Nat) (hp : r.pos = r0.pos + k)
    (hd : r.draws = r0.draws) : r.Float64.2 = drawAt r0 k := by
  unfold Rand.Float64 drawAt
  simp only [hp, hd]

theorem exp_half_gt : (1.609375 : ℝ) < Real.exp (1 / 2) := by
  have h2 : Real.exp (1 / 2) ^ 2 = Real.exp 1 := by
    rw [← Real.exp_nat_mul]
    norm_num
  have hlt : (1.609375 : ℝ) ^ 2 < Real.exp (1 / 2) ^ 2 := by
    rw [h2]
    have he := Real.exp_one_gt_d9
    calc (1.609375 : ℝ) ^ 2 < 2.7182818283 := by norm_num
      _ < Real.exp 1 := he
  exact lt_of_pow_lt_pow_left₀ 2 (Real.exp_pos _).le hlt

/-- Up to 71 m the threshold of reception is at least 1/10. -/
theorem threshold_ge_tenth (d : ℝ) (h0 : 0 ≤ d) (h : d ≤ 71) :
    1 / 10 ≤ 0.6 - Real.log (d / 64 + 0.5) := by
  have hpos : (0 : ℝ) < d / 64 + 0.5 := by positivity
  have hle : Real.log (d / 64 + 0.5) ≤ 1 / 2 := by
    rw [Real.log_le_iff_le_exp hpos]
    have := exp_half_gt
    linarith
  linarith

/-- From 32 m on the threshold of reception is at most 6/10. -/
theorem threshold_le_three_fifths (d : ℝ) (h : 32 ≤ d) :
    0.6 - Real.log (d / 64 + 0.5) ≤ 6 / 10 := by
  have h1 : 0 ≤ Real.log (d / 64 + 0.5) := Real.log_nonneg (by linarith)
  linarith

/-- A read of a one-access-point map from at most 71 m with a draw below 1/10:
the access point is observed and three draws are consumed. -/
theorem Read_received (math : Math ℝ) (hlog : math.Log = Real.log) (g : Globals) (w h : ℚ)
    (ap : AccessPoint) (location : Location)
    (hu : g.random.Float64.2 < 1 / 10)
    (h0 : 0 ≤ distance math ap.location location)
    (hd : distance math ap.location location ≤ 71) :
    (Map.Read math g ⟨w, h, [ap]⟩ location).2.map (fun s => s.id) = [ap.id] ∧
      (Map.Read math g ⟨w, h, [ap]⟩ location).1.random.pos = g.random.pos + 3 ∧
      (Map.Read math g ⟨w, h, [ap]⟩ location).1.random.draws = g.random.draws := by
  have hr : (signalReceived math g (distance math ap.location location)).2 = true := by
    rw [signalReceived_iff, hlog]
    have hu2 : ((g.random.Float64.2 : ℚ) : ℝ) < ((1 / 10 : ℚ) : ℝ) := Rat.cast_lt.mpr hu
    push_cast at hu2
    linarith [threshold_ge_tenth _ h0 hd]
  have hs := (Read_single math g w h ap location).1 hr
  exact ⟨hs.1, hs.2.1, hs.2.2.1⟩

/-- A read of a one-access-point map from at least 32 m with a draw of at least
6/10: nothing is observed and one draw is consumed. -/
theorem Read_missed (math : Math ℝ) (hlog : math.Log = Real.log) (g : Globals) (w h : ℚ)
    (ap : AccessPoint) (location : Location)
    (hu : 6 / 10 ≤ g.random.Float64.2)
    (hd : 32 ≤ distance math ap.location location) :
    (Map.Read math g ⟨w, h, [ap]⟩ location).2 = [] ∧
      (Map.Read math g ⟨w, h, [ap]⟩ location).1.random.pos = g.random.pos + 1 ∧
      (Map.Read math g ⟨w, h, [ap]⟩ location).1.random.draws = g.random.draws := by
  have hr : (signalReceived math g (distance math ap.location location)).2 = false := by
    rw [← Bool.not_eq_true, signalReceived_iff, hlog, not_lt]
    have hu2 : ((6 / 10 : ℚ) : ℝ) ≤ ((g.random.Float64.2 : ℚ) : ℝ) := Rat.cast_le.mpr hu
    push_cast at hu2
    linarith [threshold_le_three_fifths _ hd]
  have hs := (Read_single math g w h ap location).2 hr
  exact ⟨hs.1, hs.2.1, hs.2.2.1⟩

/-- A read of a one-access-point map from 85 m or more: nothing is received and
one draw is consumed. -/
theorem Read_far (math : Math ℝ) (hlog : math.Log = Real.log) (g : Globals) (w h : ℚ)
    (ap : AccessPoint) (location : Location)
    (hfar : 85 ≤ distance math ap.location location) :
    (Map.Read math g ⟨w, h, [ap]⟩ location).2 = [] ∧
      (Map.Read math g ⟨w, h, [ap]⟩ location).1.random.pos = g.random.pos + 1 ∧
      (Map.Read math g ⟨w, h, [ap]⟩ location).1.random.draws = g.random.draws := by
  have h := (Read_single math g w h ap location).2 (signalReceived_far math hlog g _ hfar)
  exact ⟨h.1, h.2.1, h.2.2.1⟩

/-- The distances from an access point in the rectangle of the example to the
seeding location and to the two test locations. -/
theorem seeded_distances (math : Math ℝ) (hsqrt : math.Sqrt = Real.sqrt) (x y : ℚ)
    (hx1 : 595 / 16 ≤ x) (hx2 : x ≤ 765 / 16) (hy1 : 135 / 4 ≤ y) (hy2 : y ≤ 405 / 8) :
    (0 ≤ distance math ⟨x, y⟩ ⟨0, 0⟩ ∧ distance math ⟨x, y⟩ ⟨0, 0⟩ ≤ 71) ∧
      (32 ≤ distance math ⟨x, y⟩ ⟨85, 85⟩ ∧ distance math ⟨x, y⟩ ⟨85, 85⟩ ≤ 71) ∧
      85 ≤ distance math ⟨x, y⟩ ⟨85, 185⟩ := by
  simp only [distance, hsqrt]
  refine ⟨⟨Real.sqrt_nonneg _, ?_⟩, ⟨?_, ?_⟩, ?_⟩
  · rw [Real.sqrt_le_left (by norm_num : (0 : ℝ) ≤ 71)]
    have : (x - 0) * (x - 0) + (y - 0) * (y - 0) ≤ (71 : ℚ) ^ 2 := by nlinarith
    exact_mod_cast this
  · apply Real.le_sqrt_of_sq_le
    have : (32 : ℚ) ^ 2 ≤ (x - 85) * (x - 85) + (y - 85) * (y - 85) := by nlinarith
    exact_mod_cast this
  · rw [Real.sqrt_le_left (by norm_num : (0 : ℝ) ≤ 71)]
    have : (x - 85) * (x - 85) + (y - 85) * (y - 85) ≤ (71 : ℚ) ^ 2 := by nlinarith
    exact_mod_cast this
  · apply Real.le_sqrt_of_sq_le
    have : (85 : ℚ) ^ 2 ≤ (x - 85) * (x - 85) + (y - 185) * (y - 185) := by nlinarith
    exact_mod_cast this

/-- The shuffle of two locations: the second draw of the source decides. -/
theorem shuffle_two (source : Rand) (a b : Location) :
    (shuffleLocations source [a, b]).2
      = if source.draws (source.pos + 1) % 2 = 1 then [a, b] else [b, a] := by
  rcases Nat.mod_two_eq_zero_or_one (source.draws (source.pos + 1)) with h | h <;>
    simp [shuffleLocations, List.range_succ, Rand.Intn, swapLocations, Nat.mod_one, h]

theorem seeded_validate : seededConfiguration.validate = .ok () := by
  rw [validate_ok_iff]
  norm_num [seededConfiguration]

/-- The engine `NewEngine` builds from the seeded configuration: one access
point, placed by the first two draws of the seeded generator. -/
theorem seeded_NewEngine (newSource : Int → Rand) (r0 : Rand) :
    NewEngine ⟨0, r0⟩ newSource seededConfiguration
      = .ok (⟨1, ⟨(newSource 42).draws, (newSource 42).pos + 2⟩⟩,
          ⟨⟨170, 270, [⟨1, ⟨drawAt (newSource 42) 0 * 170, drawAt (newSource 42) 1 * 270⟩⟩]⟩,
            [1], seededConfiguration⟩) := by
  unfold NewEngine
  rw [seeded_validate]
  have hc : Int.tdiv (goInt (seededConfiguration.MapWidth * seededConfiguration.MapHeight)
      * seededConfiguration.AccessPointDensity) 1000000 = 1 := by
    norm_num [seededConfiguration, goInt]
    rfl
  simp only [hc]
  norm_num [NewMap, seededConfiguration, addLoop, Map.AddRandomAccessPoint, NewRandomLocation,
    Rand.Float64, Map.AddAccessPoint, NewAccessPoint, NewLocation, drawAt]

theorem seeded_seedLocations :
    seedLocations 10 170 270 1000 = [⟨0, 0⟩] := by
  norm_num [seedLocations, gridAxis, NewLocation]

theorem seeded_testLocations :
    testLocations 10 170 270 100 = [⟨85, 85⟩, ⟨85, 185⟩] := by
  norm_num [testLocations, gridAxis, NewLocation]

theorem toSignals_nil (value : ℝ → ℚ) : toSignals value ([] : List (Reading ℝ)) = [] := rfl

theorem toSignals_single (value : ℝ → ℚ) (rs : List (Reading ℝ)) (i : Int)
    (h : rs.map (fun s => s.id) = [i]) : ∃ v, toSignals value rs = [⟨i, v⟩] := by
  match rs, h with
  | [s], h =>
    simp only [List.map_cons, List.map_nil, List.cons.injEq, and_true] at h
    exact ⟨value s.signalStrength, by simp [toSignals, h]⟩

theorem seeded_feed (v : ℚ) (location : Location) :
    feedAlgorithms [⟨1, v⟩] location [("Fingerprinting", .ofFingerprinting NewFingerprinting)]
      = some [("Fingerprinting", .ofFingerprinting (seededFingerprinting v location))] := rfl

theorem seeded_test_hit (math : Math ℝ) (v w : ℚ) (fed location : Location)
    (record : cycleRecord ℝ) :
    testAlgorithms math true [⟨1, w⟩] location
        [("Fingerprinting", .ofFingerprinting (seededFingerprinting v fed), record)]
      = some [("Fingerprinting", .ofFingerprinting (seededFingerprinting v fed),
          ⟨record.errors ++ [distance math location (average [fed])], record.misses,
            record.centerErrors ++ [distance math location (average [fed])],
            record.centerMisses⟩)] := rfl

theorem seeded_test_miss (math : Math ℝ) (v : ℚ) (fed location : Location)
    (record : cycleRecord ℝ) :
    testAlgorithms math true [] location
        [("Fingerprinting", .ofFingerprinting (seededFingerprinting v fed), record)]
      = some [("Fingerprinting", .ofFingerprinting (seededFingerprinting v fed),
          ⟨record.errors, record.misses + 1, record.centerErrors,
            record.centerMisses + 1⟩)] := rfl

theorem seeded_inCenter :
    inCenter seededConfiguration ⟨85, 85⟩ = true ∧
      inCenter seededConfiguration ⟨85, 185⟩ = true := by
  constructor <;> norm_num [inCenter, seededConfiguration]

set_option maxRecDepth 100000 in
/-- The `float64` model on well-known values: the literal 0.1, the sum
0.1 + 0.2 = 0.30000000000000004, the quotient 1/3, the root of 2, the product
0.1 * 3 and the difference 1.1 - 1. -/
theorem F64_known_values :
    F64.ofRat 1 10 = ⟨7205759403792794, -56⟩ ∧
      F64.add (F64.ofRat 1 10) (F64.ofRat 2 10) = ⟨5404319552844596, -54⟩ ∧
      F64.div (F64.ofRat 1 1) (F64.ofRat 3 1) = ⟨6004799503160661, -54⟩ ∧
      F64.sqrt (F64.ofRat 2 1) = ⟨6369051672525773, -52⟩ ∧
      F64.mul (F64.ofRat 1 10) (F64.ofRat 3 1) = ⟨5404319552844596, -54⟩ ∧
      F64.sub (F64.ofRat 11 10) (F64.ofRat 1 1) = ⟨7205759403792800, -56⟩ := by
  refine ⟨by decide, by decide, by decide, by decide, by decide, by decide⟩

/-! ## The claims -/

/-- **C1**: for well-formed keys `a` and `b` (a strictly ascending run of positive
ids followed only by zeros), `setDifference a b` is the number of ids that occur
in `a` but do not occur in `b`. -/
theorem setDifference_counts_missing_ids (a b : Key) (ha : a.WellFormed)
    (hb : b.WellFormed) : setDifference a b = (a.idSet \ b.idSet).card :=
  setDifference_eq_card a b ha hb

/-- Witness of C1 at the keys `1 3 5` and `3 4`: ids 1 and 5 are missing. -/
theorem setDifference_counts_missing_ids_witness :
    (padKey [1, 3, 5] (by decide)).WellFormed ∧ (padKey [3, 4] (by decide)).WellFormed ∧
      setDifference (padKey [1, 3, 5] (by decide)) (padKey [3, 4] (by decide)) = 2 ∧
      ((padKey [1, 3, 5] (by decide)).idSet \ (padKey [3, 4] (by decide)).idSet).card = 2 :=
  ⟨by decide, by decide,
    (setDifference_counts_missing_ids _ _ (by decide) (by decide)).trans (by decide),
    by decide⟩

/-- **C2**: for well-formed keys `a` and `b`, `setDifference a b = 0` exactly when
every id of `a` also appears in `b`; in particular `setDifference a a = 0`. -/
theorem setDifference_eq_zero_iff (a b : Key) (ha : a.WellFormed) (hb : b.WellFormed) :
    (setDifference a b = 0 ↔ ∀ x ∈ a.idSet, x ∈ b.idSet) ∧ setDifference a a = 0 := by
  constructor
  · rw [setDifference_eq_card a b ha hb, Finset.card_eq_zero, Finset.sdiff_eq_empty_iff_subset]
    rfl
  · rw [setDifference_eq_card a a ha ha, Finset.sdiff_self, Finset.card_empty]

/-- Witness of C2 at the keys `3 4` and `1 3 4 5`. -/
theorem setDifference_eq_zero_iff_witness :
    (setDifference (padKey [3, 4] (by decide)) (padKey [1, 3, 4, 5] (by decide)) = 0 ↔
        ∀ x ∈ (padKey [3, 4] (by decide)).idSet, x ∈ (padKey [1, 3, 4, 5] (by decide)).idSet) ∧
      setDifference (padKey [3, 4] (by decide)) (padKey [3, 4] (by decide)) = 0 :=
  setDifference_eq_zero_iff _ _ (by decide) (by decide)

/-- **C3**: Key round trip. For a signal set of `n ≤ 50` signals with pairwise
distinct positive ids, in any order, `Signals.Key` returns a key whose first `n`
entries are the ids of the set in strictly ascending order and whose remaining
`50 - n` entries are all zero; the non-zero prefix of the key is that ascending
id list, so decoding it gives back the id set. -/
theorem Signals_Key_roundtrip (signals : Signals) (hlen : signals.length ≤ keyLength)
    (hnd : (signals.map (fun s => s.id)).Nodup) (hpos : ∀ s ∈ signals, 0 < s.id) :
    ∃ k, signals.Key = some k ∧
      (k.ids.take signals.length).Perm (signals.map (fun s => s.id)) ∧
      (k.ids.take signals.length).Pairwise (· < ·) ∧
      k.ids.drop signals.length = List.replicate (50 - signals.length) 0 ∧
      k.idList = k.ids.take signals.length ∧
      k.idList.toFinset = (signals.map (fun s => s.id)).toFinset := by
  obtain ⟨k, hk, hids⟩ := Key_of_length_le signals hlen
  have hl : (sortInts (signals.map (fun s => s.id))).length = signals.length := by
    rw [length_sortInts, List.length_map]
  have htake : k.ids.take signals.length = sortInts (signals.map (fun s => s.id)) := by
    rw [hids, ← hl, List.take_left]
  have hdrop : k.ids.drop signals.length = List.replicate (50 - signals.length) 0 := by
    rw [hids, ← hl, List.drop_left, hl]
    rfl
  obtain ⟨hid, _, _⟩ := Key_of_signals_wellFormed signals k hids hnd hpos
  refine ⟨k, hk, ?_, ?_, hdrop, ?_, ?_⟩
  · rw [htake]
    exact sortInts_perm _
  · rw [htake]
    exact sortInts_pairwise_lt _ hnd
  · rw [hid, htake]
  · rw [hid]
    ext x
    simp only [List.mem_toFinset]
    exact (sortInts_perm _).mem_iff

/-- Witness of C3 at the signal set with ids `7 2 5`. -/
theorem Signals_Key_roundtrip_witness :
    ∃ k, Signals.Key [⟨7, -60⟩, ⟨2, -71⟩, ⟨5, -80⟩] = some k ∧
      (k.ids.take 3).Perm [7, 2, 5] ∧
      (k.ids.take 3).Pairwise (· < ·) ∧
      k.ids.drop 3 = List.replicate (50 - 3) 0 ∧
      k.idList = k.ids.take 3 ∧
      k.idList.toFinset = ([7, 2, 5] : List Int).toFinset :=
  Signals_Key_roundtrip [⟨7, -60⟩, ⟨2, -71⟩, ⟨5, -80⟩] (by decide) (by decide) (by decide)

/-- **C4**: `Signals.Key` panics exactly when the signal set holds more than 50
signals; when it returns, the key holds every id of the set (nothing is cut
off); and `feed` of a fingerprinting algorithm on a signal set of more than 50
signals panics with the algorithm state, fingerprint map included, unchanged. -/
theorem Signals_Key_panics_iff (signals : Signals) :
    (signals.Key = none ↔ keyLength < signals.length) ∧
    (∀ k, signals.Key = some k →
      (k.ids.take signals.length).Perm (signals.map (fun s => s.id))) ∧
    (keyLength < signals.length →
      ∀ (f : fingerprinting) (location : Location),
        f.feed signals location = Outcome.panic f) := by
  refine ⟨?_, ?_, ?_⟩
  · constructor
    · intro h
      by_contra hle
      obtain ⟨k, hk, _⟩ := Key_of_length_le signals (by omega)
      rw [hk] at h
      exact Option.noConfusion h
    · exact Key_of_length_gt signals
  · intro k hk
    by_cases hle : signals.length ≤ keyLength
    · obtain ⟨k2, hk2, hids⟩ := Key_of_length_le signals hle
      rw [hk] at hk2
      cases hk2
      have hl : (sortInts (signals.map (fun s => s.id))).length = signals.length := by
        rw [length_sortInts, List.length_map]
      rw [hids, ← hl, List.take_left]
      exact sortInts_perm _
    · rw [Key_of_length_gt signals (by omega)] at hk
      exact Option.noConfusion hk
  · intro hgt f location
    have hs : (sortByID signals).length = signals.length := by simp [sortByID]
    have hk : Signals.Key (sortByID signals) = none :=
      Key_of_length_gt _ (by omega)
    unfold fingerprinting.feed
    rw [if_neg (by
      rintro ⟨_, h0⟩
      rw [h0] at hgt
      exact Nat.not_lt_zero _ hgt)]
    simp only [hk]

/-- **C5**: for every fingerprinting variant whose fingerprint map is empty, every
signal set of at most 50 signals and every location hint, `read` returns no
estimate with `success = false`, and the algorithm state, the empty map
included, is unchanged. -/
theorem fingerprinting_read_empty (f : fingerprinting) (signals : Signals)
    (hint : Location) (hempty : f.fingerprintMap = []) (hlen : signals.length ≤ keyLength) :
    f.read signals hint = Outcome.ok f (none, false) ∧
      (f.read signals hint).state.fingerprintMap = [] := by
  have hs : (sortByID signals).length ≤ keyLength := by
    simpa [sortByID] using hlen
  obtain ⟨k, hk, _⟩ := Key_of_length_le (sortByID signals) hs
  have hsel := (selectBuckets_spec f.bestMatches (sortByID signals).length
    (List.replicate 50 []) 0 [] (Nat.zero_le _) (Nat.zero_le _)).2.2
  have hnil : (selectBuckets f.bestMatches (sortByID signals).length 0
      (List.replicate 50 []) []) = ([], none) := by
    have := hsel.mpr ⟨rfl, fun i _ => getD_replicate_nil 50 i⟩
    exact Prod.ext this.1 this.2
  have hread : f.read signals hint = Outcome.ok f (none, false) := by
    unfold fingerprinting.read
    simp only [hk, hempty, fillBuckets, hnil, fingerprinting.estimate, and_self, if_true]
  exact ⟨hread, by rw [hread]; exact hempty⟩

/-- Witness of C5 at the learning variant and a two-signal query. -/
theorem fingerprinting_read_empty_witness :
    NewLearningFingerprinting.read [⟨7, -60⟩, ⟨2, -71⟩] ⟨10, 20⟩
        = Outcome.ok NewLearningFingerprinting (none, false) ∧
      (NewLearningFingerprinting.read [⟨7, -60⟩, ⟨2, -71⟩] ⟨10, 20⟩).state.fingerprintMap = [] :=
  fingerprinting_read_empty NewLearningFingerprinting [⟨7, -60⟩, ⟨2, -71⟩] ⟨10, 20⟩ rfl
    (by decide)

/-- **C6**: in a fingerprinting state built from an empty variant by feeding signal
sets with distinct positive ids, `read` of a query with distinct positive ids and
fewer than 50 signals returns, and it reports `success = true` exactly when some
stored fingerprint shares an access-point id with the query, which is exactly
when some stored fingerprint has a key whose `setDifference` from the query key
is below `len(signals)`; so `success = false` for the empty query and for a
query all of whose ids are unseen. -/
theorem fingerprinting_read_success_iff (f0 f : fingerprinting) (feeds : List food)
    (q : Signals) (hint : Location)
    (hempty : f0.fingerprintMap = [] ∧ f0.food = [])
    (hbuilt : feedAll f0 feeds = Outcome.ok f ())
    (hfeeds : ∀ fd ∈ feeds, DistinctPositive fd.signals)
    (hq : DistinctPositive q) (hlen : q.length < 50) :
    ∃ f2 est success, f.read q hint = Outcome.ok f2 (est, success) ∧
      (success = true ↔ ∃ e ∈ f.fingerprintMap, ∃ fp ∈ e.2, SharesId q fp) ∧
      (success = true ↔ ∃ e ∈ f.fingerprintMap, ∃ fp ∈ e.2, ∃ qk sk,
        Signals.Key (sortByID q) = some qk ∧ Signals.Key fp.signals = some sk ∧
          setDifference qk sk < q.length) ∧
      (q = [] → success = false) ∧
      ((∀ e ∈ f.fingerprintMap, ∀ fp ∈ e.2, ¬ SharesId q fp) → success = false) := by
  have h0 : StoredOK f0.fingerprintMap := by
    rw [hempty.1]
    intro e he
    simp at he
  obtain ⟨hm, hfood, _⟩ := feedAll_storedOK feeds f0 f hbuilt hfeeds h0
  have hfood2 : f.food.length < 1000 := by
    rw [hfood, hempty.2]
    simp
  obtain ⟨qk, f2, est, success, hk, hwf, hset, hread, hiff⟩ :=
    read_success_iff f q hint hm hfood2 hq hlen
  have hcard : qk.idSet.card = q.length := by
    rw [hset, List.toFinset_card_of_nodup hq.1, List.length_map]
  have hkey : success = true ↔ ∃ e ∈ f.fingerprintMap, ∃ fp ∈ e.2, ∃ qk2 sk,
      Signals.Key (sortByID q) = some qk2 ∧ Signals.Key fp.signals = some sk ∧
        setDifference qk2 sk < q.length := by
    rw [hiff]
    constructor
    · rintro ⟨e, he, hlt⟩
      obtain ⟨hne, hall⟩ := hm e he
      obtain ⟨fp, hfp⟩ := List.exists_mem_of_ne_nil _ hne
      exact ⟨e, he, fp, hfp, qk, e.1, hk, (hall fp hfp).2, hlt⟩
    · rintro ⟨e, he, fp, hfp, qk2, sk, hk2, hsk, hlt⟩
      rw [hk] at hk2
      cases hk2
      rw [((hm e he).2 fp hfp).2] at hsk
      cases hsk
      exact ⟨e, he, hlt⟩
  have hshare : success = true ↔ ∃ e ∈ f.fingerprintMap, ∃ fp ∈ e.2, SharesId q fp := by
    rw [hiff]
    have hconv : ∀ e ∈ f.fingerprintMap, ∀ fp ∈ e.2,
        (setDifference qk e.1 < q.length ↔ SharesId q fp) := by
      intro e he fp hfp
      have hfpk := (hm e he).2 fp hfp
      have hes := (Key_some_wellFormed fp.signals e.1 hfpk.2 hfpk.1).2
      rw [← hcard, setDifference_lt_card_iff qk e.1 hwf (hm.wellFormed he), hset, hes]
      unfold SharesId
      constructor
      · rintro ⟨x, hx1, hx2⟩
        obtain ⟨s, hs, rfl⟩ := List.mem_map.mp (List.mem_toFinset.mp hx1)
        obtain ⟨t, ht, hte⟩ := List.mem_map.mp (List.mem_toFinset.mp hx2)
        exact ⟨s, hs, t, ht, hte.symm⟩
      · rintro ⟨s, hs, t, ht, hst⟩
        refine ⟨s.id, List.mem_toFinset.mpr (List.mem_map.mpr ⟨s, hs, rfl⟩), ?_⟩
        exact List.mem_toFinset.mpr (List.mem_map.mpr ⟨t, ht, hst.symm⟩)
    constructor
    · rintro ⟨e, he, hlt⟩
      obtain ⟨fp, hfp⟩ := List.exists_mem_of_ne_nil _ (hm e he).1
      exact ⟨e, he, fp, hfp, (hconv e he fp hfp).mp hlt⟩
    · rintro ⟨e, he, fp, hfp, hsh⟩
      exact ⟨e, he, (hconv e he fp hfp).mpr hsh⟩
  refine ⟨f2, est, success, hread, hshare, hkey, ?_, ?_⟩
  · intro hnil
    cases hb : success with
    | false => rfl
    | true =>
      obtain ⟨e, _, fp, _, s, hs, _⟩ := hshare.mp hb
      rw [hnil] at hs
      simp at hs
  · intro hnone
    cases hb : success with
    | false => rfl
    | true =>
      obtain ⟨e, he, fp, hfp, hsh⟩ := hshare.mp hb
      exact absurd hsh (hnone e he fp hfp)

/-- Witness of C6: after feeding the signals `3, 1`, the query `3, 9` is read
from a state built by feeding. -/
theorem fingerprinting_read_success_iff_witness :
    ∃ f2 est success,
      sampleFingerprinting.read [⟨3, -65⟩, ⟨9, -80⟩] ⟨0, 0⟩ = Outcome.ok f2 (est, success) ∧
      (success = true ↔ ∃ e ∈ sampleFingerprinting.fingerprintMap, ∃ fp ∈ e.2,
        SharesId [⟨3, -65⟩, ⟨9, -80⟩] fp) ∧
      (success = true ↔ ∃ e ∈ sampleFingerprinting.fingerprintMap, ∃ fp ∈ e.2, ∃ qk sk,
        Signals.Key (sortByID [⟨3, -65⟩, ⟨9, -80⟩]) = some qk ∧
          Signals.Key fp.signals = some sk ∧
          setDifference qk sk < ([⟨3, -65⟩, ⟨9, -80⟩] : Signals).length) ∧
      (([⟨3, -65⟩, ⟨9, -80⟩] : Signals) = [] → success = false) ∧
      ((∀ e ∈ sampleFingerprinting.fingerprintMap, ∀ fp ∈ e.2,
        ¬ SharesId [⟨3, -65⟩, ⟨9, -80⟩] fp) → success = false) :=
  fingerprinting_read_success_iff NewFingerprinting sampleFingerprinting
    [⟨⟨1, 2⟩, [⟨3, -60⟩, ⟨1, -70⟩]⟩] [⟨3, -65⟩, ⟨9, -80⟩] ⟨0, 0⟩ ⟨rfl, rfl⟩ (by rfl)
    (by decide) (by decide) (by decide)

/-- **C7**: for every centroid variant, state and signal set, `read` reports
`success = true` exactly when some signal of the set has an id whose map entry
holds a cached (non-nil) centroid; so it reports no estimate and `success = false`
on the empty signal set and, in a reachable state, when every observed id has
fewer than 4 recorded samples. -/
theorem centroid_read_success_iff (c : centroid) (signals : Signals) (hint : Location) :
    ((c.read signals hint).2.2 = true ↔
        ∃ s ∈ signals, ∃ ap l, c.accessPointMap s.id = some ap ∧ ap.location = some l) ∧
    (signals = [] → (c.read signals hint).2 = (none, false)) ∧
    (c.Reachable → (∀ s ∈ signals, (c.history s.id).1.length < 4) →
        (c.read signals hint).2 = (none, false)) := by
  have hcached : ∀ s : Signal, c.cached s.id = none ↔
      ¬ ∃ ap l, c.accessPointMap s.id = some ap ∧ ap.location = some l := by
    intro s
    unfold centroid.cached
    cases hm : c.accessPointMap s.id with
    | none => simp
    | some ap =>
      cases hl : ap.location with
      | none => simp [hl]
      | some l => simp [hl]
  refine ⟨?_, ?_, ?_⟩
  · rw [read_value]
    by_cases h : signals.filterMap (fun s => c.cached s.id) = []
    · rw [if_pos h]
      simp only [Bool.false_eq_true, false_iff]
      rintro ⟨s, hs, hex⟩
      exact (hcached s).mp (List.filterMap_eq_nil_iff.mp h s hs) hex
    · rw [if_neg h]
      simp only [true_iff]
      by_contra hno
      apply h
      rw [List.filterMap_eq_nil_iff]
      intro s hs
      exact (hcached s).mpr (fun hex => hno ⟨s, hs, hex⟩)
  · intro h
    rw [read_value, h]
    rfl
  · intro hr hfew
    obtain ⟨hinv, hm⟩ := Reachable_Inv c hr
    rw [read_value, if_pos]
    rw [List.filterMap_eq_nil_iff]
    intro s hs
    rw [(Inv_cached c hinv s.id).2, hm]
    exact cachedAt_of_lt_minMatches _ _ _ _ _ (hfew s hs)

/-- Witness of C7: after one `feed` of id 1, a read that observes id 1 alone
reports no estimate. -/
theorem centroid_read_success_iff_witness :
    ((NewCentroid.feed [⟨1, -60⟩] ⟨0, 0⟩).read [⟨1, -50⟩] ⟨3, 3⟩).2 = (none, false) :=
  (centroid_read_success_iff (NewCentroid.feed [⟨1, -60⟩] ⟨0, 0⟩) [⟨1, -50⟩] ⟨3, 3⟩).2.2
    (centroid.Reachable.feed _ _ _ (centroid.Reachable.new _ rfl rfl)) (by decide)

/-- **C8**: for a non-smart centroid algorithm started from the empty state, after
any sequence of `feed` calls the history of an id holds the samples fed for it;
an id with fewer than 4 recorded samples has no cached centroid, and an id with
`n ≥ 4` recorded samples has as cached centroid the arithmetic mean of all `n`
recorded `(x, y)` pairs. -/
theorem centroid_feed_cached_mean (c0 : centroid) (feeds : List (Signals × Location))
    (id : Int) (h0 : c0.accessPointMap = fun _ => none) (hm : c0.minMatches = 4)
    (hs : c0.smart = false) :
    (c0.feedSeq feeds).history id =
        ((samplesOf id feeds).map (fun l => l.X), (samplesOf id feeds).map (fun l => l.Y)) ∧
    ((samplesOf id feeds).length < 4 → (c0.feedSeq feeds).cached id = none) ∧
    (4 ≤ (samplesOf id feeds).length →
      (c0.feedSeq feeds).cached id =
        some ⟨mean ((samplesOf id feeds).map (fun l => l.X)),
          mean ((samplesOf id feeds).map (fun l => l.Y))⟩) := by
  refine ⟨?_, ?_, ?_⟩
  · rw [feedSeq_history, history_of_empty c0 h0 id]
    rfl
  · intro hlt
    rw [feedSeq_cached c0 h0, hm]
    exact cachedAt_of_lt_minMatches _ _ _ _ _ hlt
  · intro hge
    rw [feedSeq_cached c0 h0, hm, hs]
    exact cachedAt_of_uncapped _ _ _ _ _ (Or.inl rfl) (by simp) (by simp) hge (by omega)

/-- Witness of C8 at the plain variant: id 1 is fed at the four corners of a
square, id 2 only once. -/
theorem centroid_feed_cached_mean_witness :
    (NewCentroid.feedSeq squareFeeds).cached 1 = some ⟨2, 2⟩ ∧
      (NewCentroid.feedSeq squareFeeds).cached 2 = none :=
  ⟨((centroid_feed_cached_mean NewCentroid squareFeeds 1 rfl rfl rfl).2.2 (by decide)).trans
      (by norm_num [mean, samplesOf, squareFeeds]),
    (centroid_feed_cached_mean NewCentroid squareFeeds 2 rfl rfl rfl).2.1 (by decide)⟩

/-- Counterexample to C9 as stated. At the smart variant: 300 feeds of id 1, 299
at the origin and one at `(299, 299)`; fed with the far sample last, the cached
centroid is `(0, 0)`; fed with the far sample first, it is `(1, 1)`. At every
variant, in `float64` arithmetic: the in-order sum of the coordinates 0.1, 0.2,
0.3, 0.4 over their number is 0.25, and that of the same coordinates in the
order 0.2, 0.4, 0.3, 0.1 is the next `float64` above 0.25. -/
theorem centroid_feed_order_counterexample :
    (cappedFeedsSwapped.Perm cappedFeeds ∧
      (NewSmartLearningCentroid.feedSeq cappedFeeds).cached 1 = some ⟨0, 0⟩ ∧
      (NewSmartLearningCentroid.feedSeq cappedFeedsSwapped).cached 1 = some ⟨1, 1⟩ ∧
      (NewSmartLearningCentroid.feedSeq cappedFeedsSwapped).cached 1
        ≠ (NewSmartLearningCentroid.feedSeq cappedFeeds).cached 1) ∧
      [F64.ofRat 2 10, F64.ofRat 4 10, F64.ofRat 3 10, F64.ofRat 1 10].Perm
        [F64.ofRat 1 10, F64.ofRat 2 10, F64.ofRat 3 10, F64.ofRat 4 10] ∧
      centroidCoordinate64 [F64.ofRat 2 10, F64.ofRat 4 10, F64.ofRat 3 10, F64.ofRat 1 10]
        ≠ centroidCoordinate64
          [F64.ofRat 1 10, F64.ofRat 2 10, F64.ofRat 3 10, F64.ofRat 4 10] := by
  refine ⟨?_, by decide, ?_⟩
  · have hA : (NewSmartLearningCentroid.feedSeq cappedFeeds).cached 1 = some ⟨0, 0⟩ := by
      rw [feedSeq_cached_capped _ rfl rfl rfl cappedFeeds 1
        (by rw [length_samplesOf_capped.1]; omega), samplesOf_cappedFeeds]
      simp only [List.map_append, List.map_replicate, List.map_cons, List.map_nil,
        mean_take_capped.1]
    have hB : (NewSmartLearningCentroid.feedSeq cappedFeedsSwapped).cached 1 = some ⟨1, 1⟩ := by
      rw [feedSeq_cached_capped _ rfl rfl rfl cappedFeedsSwapped 1
        (by rw [length_samplesOf_capped.2]; omega), samplesOf_cappedFeedsSwapped]
      simp only [List.map_replicate, List.map_cons, mean_take_capped.2]
    refine ⟨(List.perm_append_singleton _ _).symm, hA, hB, ?_⟩
    rw [hA, hB]
    intro h
    have hx := congrArg (fun o => o.map (fun l => l.X)) h
    simp at hx
  · rw [centroidCoordinate64_values.1, centroidCoordinate64_values.2]
    decide

/-- **C9** (amended): for every centroid variant started from the empty state and
every finite list of `(signals, location)` pairs, if the variant is not smart, or
the list records fewer than 300 samples for the id, then feeding the pairs in any
permutation of the list records the same samples for the id up to their order
and caches a centroid in the one order exactly when it does in the other; each
cached centroid is the sum of the recorded samples, added in feed order, over
their number, so the two orders cache the same centroid whenever their in-order
sums agree. -/
theorem centroid_feed_order_independent (c0 : centroid)
    (feeds feeds2 : List (Signals × Location)) (id : Int)
    (h0 : c0.accessPointMap = fun _ => none) (hperm : feeds2.Perm feeds)
    (hcap : c0.smart = false ∨ (samplesOf id feeds).length < 300) :
    (samplesOf id feeds2).Perm (samplesOf id feeds) ∧
      ((c0.feedSeq feeds2).cached id).isSome = ((c0.feedSeq feeds).cached id).isSome ∧
      (∀ run, run = feeds ∨ run = feeds2 → ∀ ret, (c0.feedSeq run).cached id = some ret →
        ret = ⟨sumLoop ((samplesOf id run).map (fun l => l.X)) / (samplesOf id run).length,
          sumLoop ((samplesOf id run).map (fun l => l.Y)) / (samplesOf id run).length⟩) ∧
      (sumLoop ((samplesOf id feeds2).map (fun l => l.X))
          = sumLoop ((samplesOf id feeds).map (fun l => l.X)) →
        sumLoop ((samplesOf id feeds2).map (fun l => l.Y))
          = sumLoop ((samplesOf id feeds).map (fun l => l.Y)) →
        (c0.feedSeq feeds2).cached id = (c0.feedSeq feeds).cached id) := by
  have hp := samplesOf_perm id hperm
  have hlen : (samplesOf id feeds2).length = (samplesOf id feeds).length := hp.length_eq
  have hcap2 : c0.smart = false ∨ (samplesOf id feeds2).length < 300 := by
    rw [hlen]
    exact hcap
  have e1 := feedSeq_cached_sumLoop c0 h0 feeds id hcap
  have e2 := feedSeq_cached_sumLoop c0 h0 feeds2 id hcap2
  refine ⟨hp, ?_, ?_, ?_⟩
  · rw [e1, e2, hlen]
    split_ifs <;> rfl
  · rintro run (rfl | rfl) ret hret
    · rw [e1] at hret
      split_ifs at hret
      exact (Option.some.inj hret).symm
    · rw [e2] at hret
      split_ifs at hret
      exact (Option.some.inj hret).symm
  · intro hx hy
    rw [e1, e2, hlen, hx, hy]

/-- Witness of C9 (amended) at the plain variant: the square feeds reversed record
a permutation of the samples, and their in-order sums agree, so the cached
centroid is the same. -/
theorem centroid_feed_order_independent_witness :
    (samplesOf 1 squareFeeds.reverse).Perm (samplesOf 1 squareFeeds) ∧
      (NewCentroid.feedSeq squareFeeds.reverse).cached 1
        = (NewCentroid.feedSeq squareFeeds).cached 1 :=
  ⟨(centroid_feed_order_independent NewCentroid squareFeeds squareFeeds.reverse 1 rfl
      (List.reverse_perm _) (Or.inl rfl)).1,
    (centroid_feed_order_independent NewCentroid squareFeeds squareFeeds.reverse 1 rfl
      (List.reverse_perm _) (Or.inl rfl)).2.2.2
      (by norm_num [sumLoop, samplesOf, squareFeeds])
      (by norm_num [sumLoop, samplesOf, squareFeeds])⟩

/-- **C10**: for a non-enhanced centroid algorithm, whenever `read` succeeds its
estimate is the unweighted mean, per coordinate, of the cached centroids of
exactly those observed signals whose id has a cached centroid; the signals
without a cached centroid can be dropped from the signal set without changing
the returned estimate. -/
theorem centroid_read_mean_of_centroids (c : centroid) (signals : Signals) (hint : Location)
    (he : c.enhanced = false) (hs : (c.read signals hint).2.2 = true) :
    (c.read signals hint).2.1 =
        some ⟨mean ((signals.filterMap (fun s => c.cached s.id)).map (fun l => l.X)),
          mean ((signals.filterMap (fun s => c.cached s.id)).map (fun l => l.Y))⟩ ∧
      (c.read (signals.filter (fun s => (c.cached s.id).isSome)) hint).2
        = (c.read signals hint).2 := by
  constructor
  · rw [read_value] at hs ⊢
    by_cases h : signals.filterMap (fun s => c.cached s.id) = []
    · rw [if_pos h] at hs
      exact absurd hs (by simp)
    · rw [if_neg h, he]
      rfl
  · rw [read_value, read_value,
      filterMap_filter_isSome (fun s : Signal => c.cached s.id) signals]

/-- Witness of C10: after the square feeds, a read that observes ids 1, 2 and 9
averages the one cached centroid, that of id 1. -/
theorem centroid_read_mean_of_centroids_witness :
    ((NewCentroid.feedSeq squareFeeds).read [⟨1, -55⟩, ⟨2, -70⟩, ⟨9, -90⟩] ⟨2, 3⟩).2.1 =
        some ⟨mean (([⟨1, -55⟩, ⟨2, -70⟩, ⟨9, -90⟩] : Signals).filterMap
            (fun s => (NewCentroid.feedSeq squareFeeds).cached s.id) |>.map (fun l => l.X)),
          mean (([⟨1, -55⟩, ⟨2, -70⟩, ⟨9, -90⟩] : Signals).filterMap
            (fun s => (NewCentroid.feedSeq squareFeeds).cached s.id) |>.map (fun l => l.Y))⟩ ∧
      ((NewCentroid.feedSeq squareFeeds).read
          (([⟨1, -55⟩, ⟨2, -70⟩, ⟨9, -90⟩] : Signals).filter
            (fun s => ((NewCentroid.feedSeq squareFeeds).cached s.id).isSome)) ⟨2, 3⟩).2
        = ((NewCentroid.feedSeq squareFeeds).read [⟨1, -55⟩, ⟨2, -70⟩, ⟨9, -90⟩] ⟨2, 3⟩).2 :=
  centroid_read_mean_of_centroids (NewCentroid.feedSeq squareFeeds)
    [⟨1, -55⟩, ⟨2, -70⟩, ⟨9, -90⟩] ⟨2, 3⟩ rfl (by decide)

/-- **C11** (counterexample): the enhanced variant fed four times at `(1, 1)`
has the plain estimate `(1, 1)`; with the true location `(2, 3)`, in `float64`
arithmetic, the distance of the enhanced estimate to the true location is
neither the `float64` product of 0.9 and the distance of `(1, 1)` nor exactly
9/10 of it: the two differ in the last place. -/
theorem centroid_enhanced_distance_counterexample :
    ((NewEnhancedCentroid.feedSeq unitFeeds).plain.read [⟨1, -55⟩] ⟨2, 3⟩).2
        = (some ⟨1, 1⟩, true) ∧
      distance64
          (Location64.enhance ⟨F64.ofRat 1 1, F64.ofRat 1 1⟩ ⟨F64.ofRat 2 1, F64.ofRat 3 1⟩)
          ⟨F64.ofRat 2 1, F64.ofRat 3 1⟩
        ≠ F64.mul (F64.ofRat 9 10)
          (distance64 ⟨F64.ofRat 1 1, F64.ofRat 1 1⟩ ⟨F64.ofRat 2 1, F64.ofRat 3 1⟩) ∧
      (distance64
          (Location64.enhance ⟨F64.ofRat 1 1, F64.ofRat 1 1⟩ ⟨F64.ofRat 2 1, F64.ofRat 3 1⟩)
          ⟨F64.ofRat 2 1, F64.ofRat 3 1⟩).toRat
        ≠ 9 / 10 *
          (distance64 ⟨F64.ofRat 1 1, F64.ofRat 1 1⟩ ⟨F64.ofRat 2 1, F64.ofRat 3 1⟩).toRat := by
  refine ⟨unitFeeds_read, ?_, ?_⟩
  · rw [enhance64_values.2.1, enhance64_values.2.2]
    decide
  · rw [enhance64_values.2.1, enhance64_values.1]
    norm_num [F64.toRat]

/-- **C11** (amended): for an enhanced centroid algorithm, a successful `read`
returns `est + 0.1 * (truth - est)` in each coordinate, the result of `enhance`,
where `est` is the mean-of-centroids estimate the non-enhanced variant returns
from the same state. -/
theorem centroid_read_enhanced (c : centroid) (signals : Signals) (truth : Location)
    (he : c.enhanced = true) (hs : (c.read signals truth).2.2 = true) :
    ∃ est ret, (c.plain.read signals truth).2 = (some est, true) ∧
      est = ⟨mean ((signals.filterMap (fun s => c.cached s.id)).map (fun l => l.X)),
        mean ((signals.filterMap (fun s => c.cached s.id)).map (fun l => l.Y))⟩ ∧
      (c.read signals truth).2 = (some ret, true) ∧
      ret = est.enhance truth ∧
      ret.X = est.X + (1 / 10) * (truth.X - est.X) ∧
      ret.Y = est.Y + (1 / 10) * (truth.Y - est.Y) := by
  rw [read_value] at hs
  by_cases h : signals.filterMap (fun s => c.cached s.id) = []
  · rw [if_pos h] at hs
    exact absurd hs (by simp)
  · refine ⟨⟨mean ((signals.filterMap (fun s => c.cached s.id)).map (fun l => l.X)),
        mean ((signals.filterMap (fun s => c.cached s.id)).map (fun l => l.Y))⟩,
      Location.enhance ⟨mean ((signals.filterMap (fun s => c.cached s.id)).map (fun l => l.X)),
        mean ((signals.filterMap (fun s => c.cached s.id)).map (fun l => l.Y))⟩ truth,
      ?_, rfl, ?_, rfl, ?_, ?_⟩
    · rw [read_value]
      simp only [cached_plain]
      rw [if_neg h]
      rfl
    · rw [read_value, if_neg h, he]
      rfl
    · simp only [Location.enhance]
      ring
    · simp only [Location.enhance]
      ring

/-- Witness of C11 (amended): the enhanced variant after the square feeds, read at
id 1 with the true location `(12, 2)`. -/
theorem centroid_read_enhanced_witness :
    ∃ est ret, ((NewEnhancedCentroid.feedSeq squareFeeds).plain.read [⟨1, -55⟩] ⟨12, 2⟩).2
        = (some est, true) ∧
      est = ⟨mean ((([⟨1, -55⟩] : Signals).filterMap
          (fun s => (NewEnhancedCentroid.feedSeq squareFeeds).cached s.id)).map (fun l => l.X)),
        mean ((([⟨1, -55⟩] : Signals).filterMap
          (fun s => (NewEnhancedCentroid.feedSeq squareFeeds).cached s.id)).map (fun l => l.Y))⟩ ∧
      ((NewEnhancedCentroid.feedSeq squareFeeds).read [⟨1, -55⟩] ⟨12, 2⟩).2 = (some ret, true) ∧
      ret = est.enhance ⟨12, 2⟩ ∧
      ret.X = est.X + (1 / 10) * ((⟨12, 2⟩ : Location).X - est.X) ∧
      ret.Y = est.Y + (1 / 10) * ((⟨12, 2⟩ : Location).Y - est.Y) :=
  centroid_read_enhanced (NewEnhancedCentroid.feedSeq squareFeeds) [⟨1, -55⟩] ⟨12, 2⟩ rfl
    (by decide)

/-- **C12**: for every non-smart variant of either family (for the centroid family
the smart flag plays no part in `read`), `read` changes the training state
exactly when the variant is learning and the read succeeds, and then the new
state is the state `feed(signals, estimate)` gives from the old one, with the
returned (for the enhanced learning centroid: the enhanced) estimate; otherwise
the state is unchanged. -/
theorem read_changes_state_iff_learning (c : centroid) (f : fingerprinting)
    (signals : Signals) (hint : Location) (hf : f.smart = false) :
    (((c.read signals hint).1 ≠ c ↔
        (c.learning = true ∧ (c.read signals hint).2.2 = true)) ∧
      (c.learning = true → ∀ e, (c.read signals hint).2 = (some e, true) →
        (c.read signals hint).1 = c.feed signals e)) ∧
    (((f.read signals hint).state ≠ f ↔
        (f.learning = true ∧ ∃ e, (f.read signals hint).value = some (some e, true))) ∧
      (f.learning = true → ∀ e, (f.read signals hint).value = some (some e, true) →
        f.feed signals e = Outcome.ok (f.read signals hint).state ())) := by
  constructor
  · rcases centroid_read_cases c signals hint with ⟨_, hr⟩ | ⟨hne, loc, hr⟩
    · rw [hr]
      refine ⟨⟨fun h => absurd rfl h, fun h => absurd h.2 (by simp)⟩, ?_⟩
      intro _ e he
      simp at he
    · have hsig : signals ≠ [] := by
        intro h0
        apply hne
        rw [h0]
        rfl
      rw [hr]
      by_cases hl : c.learning = true
      · simp only [hl, if_true, true_and, forall_true_left]
        refine ⟨⟨fun _ => trivial, fun _ => centroid_feed_ne c signals loc hsig⟩, ?_⟩
        intro e he
        simp only [Prod.mk.injEq, Option.some.injEq, and_true] at he
        rw [he]
      · simp only [hl, if_false]
        refine ⟨⟨fun h => absurd rfl h, fun h => absurd h.1 (by simp)⟩, ?_⟩
        intro h
        exact absurd h (by simp)
  · rcases fingerprinting_read_nonsmart f signals hint hf with
      ⟨hst, hval⟩ | ⟨hsig, e, hval, ⟨hl, hfeed⟩ | ⟨hl, hst⟩⟩
    · refine ⟨⟨fun h => absurd hst h, ?_⟩, ?_⟩
      · rintro ⟨_, e, he⟩
        exact absurd he (hval e)
      · intro _ e he
        exact absurd he (hval e)
    · refine ⟨⟨fun _ => ⟨hl, e, hval⟩, fun _ => feed_ne _ _ _ _ hfeed hsig⟩, ?_⟩
      intro _ e2 he2
      rw [hval] at he2
      simp only [Option.some.injEq, Prod.mk.injEq, and_true] at he2
      rw [← he2]
      exact hfeed
    · refine ⟨⟨fun h => absurd hst h, ?_⟩, ?_⟩
      · rintro ⟨h, _⟩
        rw [hl] at h
        exact absurd h (by simp)
      · intro h
        rw [hl] at h
        exact absurd h (by simp)

/-- Witness of C12 at the enhanced learning centroid after the square feeds and
at the learning fingerprinting variant with one stored fingerprint. -/
theorem read_changes_state_iff_learning_witness :
    ((((NewEnhancedLearningCentroid.feedSeq squareFeeds).read [⟨1, -55⟩] ⟨12, 2⟩).1
          ≠ NewEnhancedLearningCentroid.feedSeq squareFeeds ↔
        ((NewEnhancedLearningCentroid.feedSeq squareFeeds).learning = true ∧
          ((NewEnhancedLearningCentroid.feedSeq squareFeeds).read [⟨1, -55⟩] ⟨12, 2⟩).2.2
            = true)) ∧
      ((NewEnhancedLearningCentroid.feedSeq squareFeeds).learning = true → ∀ e,
        ((NewEnhancedLearningCentroid.feedSeq squareFeeds).read [⟨1, -55⟩] ⟨12, 2⟩).2
          = (some e, true) →
        ((NewEnhancedLearningCentroid.feedSeq squareFeeds).read [⟨1, -55⟩] ⟨12, 2⟩).1
          = (NewEnhancedLearningCentroid.feedSeq squareFeeds).feed [⟨1, -55⟩] e)) ∧
    (((sampleLearning.read [⟨1, -55⟩] ⟨12, 2⟩).state ≠ sampleLearning ↔
        (sampleLearning.learning = true ∧ ∃ e,
          (sampleLearning.read [⟨1, -55⟩] ⟨12, 2⟩).value = some (some e, true))) ∧
      (sampleLearning.learning = true → ∀ e,
        (sampleLearning.read [⟨1, -55⟩] ⟨12, 2⟩).value = some (some e, true) →
        sampleLearning.feed [⟨1, -55⟩] e
          = Outcome.ok (sampleLearning.read [⟨1, -55⟩] ⟨12, 2⟩).state ())) :=
  read_changes_state_iff_learning (NewEnhancedLearningCentroid.feedSeq squareFeeds)
    sampleLearning [⟨1, -55⟩] ⟨12, 2⟩ rfl

/-- **C16**: fingerprinting `feed` postcondition. For a signal set of at most 50
signals and any location, `feed` returns; in enhanced mode on the empty signal
set the whole state is unchanged; otherwise the fingerprint (signals sorted by
id, location) is appended at the end of the bucket of `signals.Key()`, every
other bucket reads as before, and nothing else of the state changes; the key of
the empty signal set, under which a non-enhanced variant records it, is the
all-zero key. -/
theorem fingerprinting_feed_postcondition (f : fingerprinting) (signals : Signals)
    (location : Location) (hlen : signals.length ≤ keyLength) :
    ∃ key f2, Signals.Key signals = some key ∧ f.feed signals location = Outcome.ok f2 () ∧
      (f.enhanced = true ∧ signals = [] → f2 = f) ∧
      (¬ (f.enhanced = true ∧ signals = []) →
        mapGet f2.fingerprintMap key
            = mapGet f.fingerprintMap key ++ [⟨sortByID signals, location⟩] ∧
          (∀ k, k ≠ key → mapGet f2.fingerprintMap k = mapGet f.fingerprintMap k) ∧
          f2.food = f.food ∧ f2.bestMatches = f.bestMatches ∧ f2.enhanced = f.enhanced ∧
          f2.learning = f.learning ∧ f2.smart = f.smart) ∧
      (signals = [] → key = Key.zero) := by
  obtain ⟨key, hkey, _⟩ := Key_of_length_le signals hlen
  obtain ⟨f2, hfeed⟩ := feed_ok f signals location hlen
  refine ⟨key, f2, hkey, hfeed, ?_, ?_, ?_⟩
  · rintro ⟨he, hnil⟩
    rcases feed_ok_cases f f2 signals location hfeed with ⟨_, h⟩ | ⟨h, _⟩
    · exact h
    · exact absurd ⟨he, by rw [hnil]; rfl⟩ h
  · intro hno
    rcases feed_ok_cases f f2 signals location hfeed with ⟨⟨he, h0⟩, _⟩ | ⟨_, key2, hk2, rfl⟩
    · exact absurd ⟨he, List.length_eq_zero.mp h0⟩ hno
    · rw [Key_sortByID, hkey] at hk2
      cases hk2
      exact ⟨mapGet_mapAppend_self _ _ _, fun k hk => mapGet_mapAppend_ne _ _ _ _ hk,
        rfl, rfl, rfl, rfl, rfl⟩
  · intro hnil
    rw [hnil, Key_nil] at hkey
    cases hkey
    rfl

/-- Witness of C16: the plain variant with one stored fingerprint is fed the
signals `3, 1` once more. -/
theorem fingerprinting_feed_postcondition_witness :
    ∃ key f2, Signals.Key [⟨3, -61⟩, ⟨1, -72⟩] = some key ∧
      sampleFingerprinting.feed [⟨3, -61⟩, ⟨1, -72⟩] ⟨5, 6⟩ = Outcome.ok f2 () ∧
      (sampleFingerprinting.enhanced = true ∧ ([⟨3, -61⟩, ⟨1, -72⟩] : Signals) = [] →
        f2 = sampleFingerprinting) ∧
      (¬ (sampleFingerprinting.enhanced = true ∧ ([⟨3, -61⟩, ⟨1, -72⟩] : Signals) = []) →
        mapGet f2.fingerprintMap key
            = mapGet sampleFingerprinting.fingerprintMap key
              ++ [⟨sortByID [⟨3, -61⟩, ⟨1, -72⟩], ⟨5, 6⟩⟩] ∧
          (∀ k, k ≠ key →
            mapGet f2.fingerprintMap k = mapGet sampleFingerprinting.fingerprintMap k) ∧
          f2.food = sampleFingerprinting.food ∧
          f2.bestMatches = sampleFingerprinting.bestMatches ∧
          f2.enhanced = sampleFingerprinting.enhanced ∧
          f2.learning = sampleFingerprinting.learning ∧
          f2.smart = sampleFingerprinting.smart) ∧
      (([⟨3, -61⟩, ⟨1, -72⟩] : Signals) = [] → key = Key.zero) :=
  fingerprinting_feed_postcondition sampleFingerprinting [⟨3, -61⟩, ⟨1, -72⟩] ⟨5, 6⟩
    (by decide)

/-- Counterexample to C17 as stated: after 301 feeds of id 1 the smart variant
holds a history of 301 samples for it, more than 300. -/
theorem centroid_smart_history_counterexample :
    ((NewSmartLearningCentroid.feedSeq overCapFeeds).history 1).1.length = 301 ∧
      ¬ ((NewSmartLearningCentroid.feedSeq overCapFeeds).history 1).1.length ≤ 300 := by
  have h : ((NewSmartLearningCentroid.feedSeq overCapFeeds).history 1).1.length = 301 := by
    rw [feedSeq_history, history_of_empty _ rfl]
    unfold overCapFeeds
    rw [samplesOf_replicate 1 _ _ (by decide)]
    simp only [List.nil_append, List.length_map, List.length_replicate]
  rw [h]
  exact ⟨rfl, by omega⟩

/-- **C17** (amended): in smart mode of the centroid algorithm it is the cached
centroid, not the sample history, that stops accumulating: after any sequence
of `feed` calls from the empty state the history of every id holds every sample
fed for it, and the cached centroid of an id with `n ≥ 4` samples is the mean of
its first `min n 299` samples. -/
theorem centroid_smart_centroid_capped (c0 : centroid) (feeds : List (Signals × Location))
    (id : Int) (h0 : c0.accessPointMap = fun _ => none) (hm : c0.minMatches = 4)
    (hs : c0.smart = true) :
    (c0.feedSeq feeds).history id =
        ((samplesOf id feeds).map (fun l => l.X), (samplesOf id feeds).map (fun l => l.Y)) ∧
    (4 ≤ (samplesOf id feeds).length →
      (c0.feedSeq feeds).cached id =
        some ⟨mean (((samplesOf id feeds).map (fun l => l.X)).take
            (min (samplesOf id feeds).length 299)),
          mean (((samplesOf id feeds).map (fun l => l.Y)).take
            (min (samplesOf id feeds).length 299))⟩) := by
  refine ⟨?_, ?_⟩
  · rw [feedSeq_history, history_of_empty c0 h0 id]
    rfl
  · intro hge
    by_cases hcap : (samplesOf id feeds).length < 300
    · rw [feedSeq_cached c0 h0, hm,
        cachedAt_of_uncapped _ _ _ _ _ (Or.inr hcap) (by simp) (by simp) hge (by omega),
        mean_take_min _ _ (by simp) (by omega), mean_take_min _ _ (by simp) (by omega)]
    · rw [feedSeq_cached_capped c0 h0 hs hm feeds id (by omega),
        Nat.min_eq_right (by omega)]

/-- Witness of C17 (amended) at the smart variant after the square feeds. -/
theorem centroid_smart_centroid_capped_witness :
    (NewSmartLearningCentroid.feedSeq squareFeeds).history 1 =
        ((samplesOf 1 squareFeeds).map (fun l => l.X),
          (samplesOf 1 squareFeeds).map (fun l => l.Y)) ∧
    (4 ≤ (samplesOf 1 squareFeeds).length →
      (NewSmartLearningCentroid.feedSeq squareFeeds).cached 1 =
        some ⟨mean (((samplesOf 1 squareFeeds).map (fun l => l.X)).take
            (min (samplesOf 1 squareFeeds).length 299)),
          mean (((samplesOf 1 squareFeeds).map (fun l => l.Y)).take
            (min (samplesOf 1 squareFeeds).length 299))⟩) :=
  centroid_smart_centroid_capped NewSmartLearningCentroid squareFeeds 1 rfl rfl rfl

/-- Counterexample to C18 as stated: the smart learning variant with 999 buffered
pairs reads successfully; the buffer then holds 1000 entries, no batch feed has
run (the fingerprint map is as before) and the buffer is not cleared. -/
theorem fingerprinting_smart_buffer_counterexample :
    ∃ e, (almostFullBuffer.read [⟨1, -55⟩] ⟨0, 0⟩).value = some (some e, true) ∧
      (almostFullBuffer.read [⟨1, -55⟩] ⟨0, 0⟩).state.food.length = 1000 ∧
      (almostFullBuffer.read [⟨1, -55⟩] ⟨0, 0⟩).state.food ≠ [] ∧
      (almostFullBuffer.read [⟨1, -55⟩] ⟨0, 0⟩).state.fingerprintMap
        = almostFullBuffer.fingerprintMap := by
  have hm : StoredOK almostFullBuffer.fingerprintMap := by
    unfold StoredOK
    decide
  have hfl : almostFullBuffer.food.length = 999 := List.length_replicate _ _
  have hfood : almostFullBuffer.food.length < 1000 := by omega
  obtain ⟨qk, f2, est, success, hk, _, _, hread, hiff⟩ :=
    read_success_iff almostFullBuffer [⟨1, -55⟩] ⟨0, 0⟩ hm hfood (by decide) (by decide)
  have hsucc : success = true := by
    rw [hiff]
    have hq : Signals.Key (sortByID [⟨1, -55⟩]) = some (padKey [1] (by decide)) := by decide
    rw [hq] at hk
    cases hk
    exact ⟨(padKey [1, 3] (by decide), [⟨[⟨1, -70⟩, ⟨3, -60⟩], ⟨1, 2⟩⟩]),
      List.mem_singleton.mpr rfl, by decide⟩
  subst hsucc
  obtain ⟨e, he⟩ :=
    fingerprinting_read_success_value almostFullBuffer [⟨1, -55⟩] ⟨0, 0⟩ f2 est hread
  have hlearn := read_success_learn almostFullBuffer [⟨1, -55⟩] ⟨0, 0⟩ e he
  rw [(learn_smart almostFullBuffer _ e rfl rfl).1 hfood] at hlearn
  have hst := (Outcome.ok.inj hlearn).1.symm
  refine ⟨e, he, ?_, ?_, ?_⟩
  · rw [hst]
    show (almostFullBuffer.food ++ [_]).length = 1000
    rw [List.length_append, hfl]
    rfl
  · rw [hst]
    show almostFullBuffer.food ++ [_] ≠ []
    exact List.append_ne_nil_of_right_ne_nil _ (List.cons_ne_nil _ _)
  · rw [hst]

/-- **C18** (amended): for the smart learning fingerprinting variant, a successful
`read` buffers `(estimate, signals)` and leaves the fingerprint map untouched as
long as the buffer then holds at most 1000 entries; the successful read that
makes the buffer hold 1001 entries replays every buffered pair through `feed`
and leaves the buffer empty. -/
theorem fingerprinting_smart_buffer (f : fingerprinting) (signals : Signals)
    (hint : Location) (e : Location) (hl : f.learning = true) (hs : f.smart = true)
    (hval : (f.read signals hint).value = some (some e, true)) :
    (f.food.length < 1000 →
      (f.read signals hint).state = { f with food := f.food ++ [⟨e, sortByID signals⟩] }) ∧
    (1000 ≤ f.food.length →
      ∃ f1, feedAll { f with food := f.food ++ [⟨e, sortByID signals⟩] }
          (f.food ++ [⟨e, sortByID signals⟩]) = Outcome.ok f1 () ∧
        (f.read signals hint).state = { f1 with food := [] }) := by
  have hlearn := read_success_learn f signals hint e hval
  constructor
  · intro hlt
    rw [(learn_smart f _ e hl hs).1 hlt] at hlearn
    exact (Outcome.ok.inj hlearn).1.symm
  · intro hge
    exact (learn_smart f _ e hl hs).2 hge _ hlearn

/-- Witness of C18 (amended) at the smart learning variant with one stored
fingerprint and an empty buffer. -/
theorem fingerprinting_smart_buffer_witness :
    (sampleSmart.food.length < 1000 →
      (sampleSmart.read [⟨1, -55⟩] ⟨0, 0⟩).state
        = { sampleSmart with
            food := sampleSmart.food ++ [⟨average [⟨1, 2⟩], sortByID [⟨1, -55⟩]⟩] }) ∧
    (1000 ≤ sampleSmart.food.length →
      ∃ f1, feedAll { sampleSmart with
            food := sampleSmart.food ++ [⟨average [⟨1, 2⟩], sortByID [⟨1, -55⟩]⟩] }
          (sampleSmart.food ++ [⟨average [⟨1, 2⟩], sortByID [⟨1, -55⟩]⟩]) = Outcome.ok f1 () ∧
        (sampleSmart.read [⟨1, -55⟩] ⟨0, 0⟩).state = { f1 with food := [] }) :=
  fingerprinting_smart_buffer sampleSmart [⟨1, -55⟩] ⟨0, 0⟩ (average [⟨1, 2⟩]) rfl rfl
    (by rfl)

/-- The selection of a successful `read`: with `bestMatches = 4` and fewer than 50
signals, `average` is applied to the locations of exactly `min N 4` of the
stored fingerprints nearer than `len(signals)`. -/
theorem read_average_of_nearest (f : fingerprinting) (q : Signals)
    (hint : Location) (hbm : f.bestMatches = 4) (hlen : q.length < 50) (hfood : FoodOK f) :
    ∃ qk, Signals.Key (sortByID q) = some qk ∧
      (1 ≤ candidateCount qk q.length f.fingerprintMap →
        ∃ chosen : fingerprints,
          chosen.Subperm (bucketsBelow qk f.fingerprintMap q.length) ∧
          (∀ fp ∈ chosen, ∃ e ∈ f.fingerprintMap, fp ∈ e.2 ∧
            setDifference qk e.1 < q.length) ∧
          chosen.length = min (candidateCount qk q.length f.fingerprintMap) 4 ∧
          chosen.length ≤ 4 ∧
          (f.read q hint).value
            = some (some (average (fingerprints.locations chosen)), true)) := by
  obtain ⟨qk, hk, hread⟩ := read_eq_estimate f q hint hlen
  refine ⟨qk, hk, ?_⟩
  intro hN
  have hsq : (sortByID q).length ≤ keyLength := by
    rw [length_sortByID]
    unfold keyLength
    omega
  have hNlen := length_bucketsBelow qk f.fingerprintMap q.length
  obtain ⟨j, hj1, hj2, hj3, hsel⟩ := read_selection f.bestMatches q.length qk f.fingerprintMap
  rw [hbm] at hj3
  rcases hsel with ⟨hs, hjn⟩ | ⟨h1, h2, h3, hs⟩
  · have hj : j = q.length := by
      rcases hjn with h | h
      · exact h
      · omega
    subst hj
    refine ⟨bucketsBelow qk f.fingerprintMap q.length, List.Subperm.refl _,
      fun fp hfp => mem_bucketsBelow qk _ _ fp hfp, ?_, hj3, ?_⟩
    · rw [hNlen] at hj3 ⊢
      omega
    · rw [hread, hs]
      refine estimate_success f (sortByID q)
        (fingerprints.locations (bucketsBelow qk f.fingerprintMap q.length))
        (fingerprints.locations (bucketsBelow qk f.fingerprintMap q.length)) none ?_ rfl
        hsq hfood
      rintro ⟨h0, _⟩
      have := congrArg List.length h0
      rw [length_locations, hNlen] at this
      simp at this
      omega
  · rw [hbm] at h3
    have hsub : (bucketsBelow qk f.fingerprintMap j ++
        (sortFps (sortByID q) (groupAt qk f.fingerprintMap j)).take
          (4 - (bucketsBelow qk f.fingerprintMap j).length)).Subperm
        (bucketsBelow qk f.fingerprintMap q.length) := by
      refine List.Subperm.trans ?_ (bucketsBelow_subperm qk f.fingerprintMap (j + 1) q.length
        (by omega))
      rw [bucketsBelow_succ]
      exact (List.subperm_append_left _).mpr
        ((List.take_sublist _ _).subperm.trans (sortFps_perm _ _).subperm)
    have hcl : (bucketsBelow qk f.fingerprintMap j ++
        (sortFps (sortByID q) (groupAt qk f.fingerprintMap j)).take
          (4 - (bucketsBelow qk f.fingerprintMap j).length)).length = 4 := by
      rw [List.length_append, List.length_take, length_sortFps]
      omega
    have hbig : 4 < candidateCount qk q.length f.fingerprintMap := by
      rw [← hNlen]
      have := (bucketsBelow_subperm qk f.fingerprintMap (j + 1) q.length (by omega)).length_le
      rw [bucketsBelow_succ, List.length_append] at this
      omega
    refine ⟨_, hsub, fun fp hfp => mem_bucketsBelow qk _ _ fp (hsub.subset hfp), ?_,
      by rw [hcl], ?_⟩
    · rw [hcl]
      omega
    · rw [hread, hs, locations_append]
      apply estimate_success f _ _ _ _ _ _ hsq hfood
      · rintro ⟨_, h0⟩
        exact Option.noConfusion h0
      · rw [hbm, breakTies_some 4 _ _ _ (by rw [length_locations]; exact hj3)
          (by rw [length_locations]; exact h3), length_locations]

/-- `average` is the mean of the coordinates. -/
theorem average_eq_mean (locations : List Location) :
    average locations
      = ⟨mean (locations.map (fun l => l.X)), mean (locations.map (fun l => l.Y))⟩ := by
  unfold average mean
  rw [List.length_map, List.length_map]

/-- **C13**: for a fingerprinting `read` with `bestMatches = 4` and a query of fewer
than 50 signals, let `N` be the number of stored fingerprints whose key has a
`setDifference` from the query key below `len(signals)`. If `N ≥ 1` the read
returns, with success, the unweighted mean of the locations of exactly
`min N 4` of those stored fingerprints (never more than 4): in each coordinate
the sum over the chosen fingerprints divided by their number. -/
theorem fingerprinting_read_mean_of_nearest (f : fingerprinting) (q : Signals)
    (hint : Location) (hbm : f.bestMatches = 4) (hlen : q.length < 50) (hfood : FoodOK f) :
    ∃ qk, Signals.Key (sortByID q) = some qk ∧
      (1 ≤ candidateCount qk q.length f.fingerprintMap →
        ∃ chosen : fingerprints,
          chosen.Subperm (bucketsBelow qk f.fingerprintMap q.length) ∧
          (∀ fp ∈ chosen, ∃ e ∈ f.fingerprintMap, fp ∈ e.2 ∧
            setDifference qk e.1 < q.length) ∧
          chosen.length = min (candidateCount qk q.length f.fingerprintMap) 4 ∧
          chosen.length ≤ 4 ∧
          (f.read q hint).value
            = some (some ⟨mean (chosen.map (fun fp => fp.location.X)),
                mean (chosen.map (fun fp => fp.location.Y))⟩, true) ∧
          mean (chosen.map (fun fp => fp.location.X))
            = (chosen.map (fun fp => fp.location.X)).sum / chosen.length ∧
          mean (chosen.map (fun fp => fp.location.Y))
            = (chosen.map (fun fp => fp.location.Y)).sum / chosen.length) := by
  obtain ⟨qk, hk, h⟩ := read_average_of_nearest f q hint hbm hlen hfood
  refine ⟨qk, hk, fun hN => ?_⟩
  obtain ⟨chosen, h1, h2, h3, h4, h5⟩ := h hN
  refine ⟨chosen, h1, h2, h3, h4, ?_, ?_, ?_⟩
  · rw [h5, average_eq_mean]
    simp only [fingerprints.locations, List.map_map, Function.comp_def]
  · unfold mean
    rw [List.length_map]
  · unfold mean
    rw [List.length_map]

/-- Witness of C13: one stored fingerprint shares id 1 with the query. -/
theorem fingerprinting_read_mean_of_nearest_witness :
    ∃ qk, Signals.Key (sortByID [⟨1, -55⟩]) = some qk ∧
      (1 ≤ candidateCount qk ([⟨1, -55⟩] : Signals).length
          sampleFingerprinting.fingerprintMap →
        ∃ chosen : fingerprints,
          chosen.Subperm (bucketsBelow qk sampleFingerprinting.fingerprintMap
            ([⟨1, -55⟩] : Signals).length) ∧
          (∀ fp ∈ chosen, ∃ e ∈ sampleFingerprinting.fingerprintMap, fp ∈ e.2 ∧
            setDifference qk e.1 < ([⟨1, -55⟩] : Signals).length) ∧
          chosen.length = min (candidateCount qk ([⟨1, -55⟩] : Signals).length
            sampleFingerprinting.fingerprintMap) 4 ∧
          chosen.length ≤ 4 ∧
          (sampleFingerprinting.read [⟨1, -55⟩] ⟨0, 0⟩).value
            = some (some ⟨mean (chosen.map (fun fp => fp.location.X)),
                mean (chosen.map (fun fp => fp.location.Y))⟩, true) ∧
          mean (chosen.map (fun fp => fp.location.X))
            = (chosen.map (fun fp => fp.location.X)).sum / chosen.length ∧
          mean (chosen.map (fun fp => fp.location.Y))
            = (chosen.map (fun fp => fp.location.Y)).sum / chosen.length) :=
  fingerprinting_read_mean_of_nearest sampleFingerprinting [⟨1, -55⟩] ⟨0, 0⟩ rfl
    (by decide) (by decide)

/-- **C14**: nearest-first selection. In every successful fingerprinting `read`
there is a distance `j` such that the estimate is the mean of the locations of
all stored fingerprints whose key lies at a `setDifference` below `j` from the
query key, together with some of those at exactly `j`; so every fingerprint
that is used lies at most as far as every fingerprint that is not. -/
theorem fingerprinting_read_nearest_first (f : fingerprinting) (q : Signals)
    (hint : Location) (e : Location)
    (hs : (f.read q hint).value = some (some e, true)) :
    ∃ qk j taken, Signals.Key (sortByID q) = some qk ∧
      taken.Subperm (groupAt qk f.fingerprintMap j) ∧
      e = average (fingerprints.locations (bucketsBelow qk f.fingerprintMap j ++ taken)) ∧
      (∀ en ∈ f.fingerprintMap, ∀ fp ∈ en.2, setDifference qk en.1 < j →
        fp ∈ bucketsBelow qk f.fingerprintMap j) ∧
      (∀ fp ∈ bucketsBelow qk f.fingerprintMap j,
        ∃ en ∈ f.fingerprintMap, fp ∈ en.2 ∧ setDifference qk en.1 < j) ∧
      (∀ fp ∈ taken, ∃ en ∈ f.fingerprintMap, fp ∈ en.2 ∧ setDifference qk en.1 = j) := by
  rcases read_cases f q hint with ⟨_, hr⟩ | ⟨qk, _, _, hr⟩ | ⟨qk, pm, hk, hfill, hr⟩
  · rw [hr] at hs
    exact Option.noConfusion hs
  · rw [hr] at hs
    exact Option.noConfusion hs
  · rw [hr, fillBuckets_eq_range qk f.fingerprintMap pm hfill] at hs
    obtain ⟨chosen, hbt, he⟩ := estimate_value f _ _ _ e hs
    obtain ⟨j, _, _, hj3, hsel⟩ :=
      read_selection f.bestMatches (sortByID q).length qk f.fingerprintMap
    rcases hsel with ⟨hsl, _⟩ | ⟨_, _, h3, hsl⟩
    · rw [hsl] at hbt
      simp only [breakTies, Option.some.injEq] at hbt
      refine ⟨qk, j, [], hk, List.nil_subperm, ?_,
        fun en hen fp hfp hlt => mem_bucketsBelow_of_mem qk _ j en fp hen hfp hlt,
        fun fp hfp => mem_bucketsBelow qk _ j fp hfp, ?_⟩
      · rw [he, ← hbt, List.append_nil]
      · intro fp hfp
        simp at hfp
    · rw [hsl] at hbt
      simp only at hbt
      rw [breakTies_some f.bestMatches _ _ _ (by rw [length_locations]; exact hj3)
        (by rw [length_locations]; exact h3), Option.some.injEq, length_locations,
        ← locations_append] at hbt
      have hsub : ((sortFps (sortByID q) (groupAt qk f.fingerprintMap j)).take
          (f.bestMatches - (bucketsBelow qk f.fingerprintMap j).length)).Subperm
          (groupAt qk f.fingerprintMap j) :=
        (List.take_sublist _ _).subperm.trans (sortFps_perm _ _).subperm
      refine ⟨qk, j, _, hk, hsub, ?_,
        fun en hen fp hfp hlt => mem_bucketsBelow_of_mem qk _ j en fp hen hfp hlt,
        fun fp hfp => mem_bucketsBelow qk _ j fp hfp, ?_⟩
      · rw [he, ← hbt]
      · intro fp hfp
        exact mem_groupAt qk _ j fp (hsub.subset hfp)

/-- Witness of C14 at the state with four fingerprints at distance 0 and one at
distance 1 from the query `1, 2`. -/
theorem fingerprinting_read_nearest_first_witness :
    ∃ qk j taken, Signals.Key (sortByID [⟨1, -55⟩, ⟨2, -65⟩]) = some qk ∧
      taken.Subperm (groupAt qk crowdedFingerprinting.fingerprintMap j) ∧
      average [⟨0, 0⟩, ⟨4, 0⟩, ⟨0, 4⟩, ⟨4, 4⟩]
        = average (fingerprints.locations
            (bucketsBelow qk crowdedFingerprinting.fingerprintMap j ++ taken)) ∧
      (∀ en ∈ crowdedFingerprinting.fingerprintMap, ∀ fp ∈ en.2,
        setDifference qk en.1 < j →
        fp ∈ bucketsBelow qk crowdedFingerprinting.fingerprintMap j) ∧
      (∀ fp ∈ bucketsBelow qk crowdedFingerprinting.fingerprintMap j,
        ∃ en ∈ crowdedFingerprinting.fingerprintMap, fp ∈ en.2 ∧
          setDifference qk en.1 < j) ∧
      (∀ fp ∈ taken, ∃ en ∈ crowdedFingerprinting.fingerprintMap, fp ∈ en.2 ∧
        setDifference qk en.1 = j) :=
  fingerprinting_read_nearest_first crowdedFingerprinting [⟨1, -55⟩, ⟨2, -65⟩] ⟨0, 0⟩
    (average [⟨0, 0⟩, ⟨4, 0⟩, ⟨0, 4⟩, ⟨4, 4⟩]) (by rfl)

/-- Counterexample to C15 as stated: with four fingerprints at distance 0 and one
at distance 1 from the query `1, 2`, the read reaches the bucket at distance 1
with four candidates already gathered; that bucket overflows the budget and
the slice bound `4 - 4` is 0, not at least 1. -/
theorem fingerprinting_tie_break_counterexample :
    ∃ qk pm locs b, Signals.Key (sortByID [⟨1, -55⟩, ⟨2, -65⟩]) = some qk ∧
      fillBuckets qk crowdedFingerprinting.fingerprintMap (List.replicate 50 []) = some pm ∧
      selectBuckets crowdedFingerprinting.bestMatches
        (sortByID [⟨1, -55⟩, ⟨2, -65⟩]).length 0 pm [] = (locs, some b) ∧
      b.length = 1 ∧
      crowdedFingerprinting.bestMatches - locs.length = 0 ∧
      ¬ (1 ≤ crowdedFingerprinting.bestMatches - locs.length) :=
  ⟨_, _, _, _, rfl, rfl, rfl, rfl, rfl, by decide⟩

/-- **C15** (amended): tie-break only in the overflow bucket. When the selection
loop of a `read` reaches a bucket whose fingerprints would push the candidate
total above `bestMatches`, that bucket is the group at some distance `j`, all
fingerprints of the lower buckets are kept, and from the overflow bucket
exactly `bestMatches - (candidates so far)` fingerprints are taken, each at a
`euclidianDistance` from the query at most that of every fingerprint of the
bucket not taken; the slice bound is at least 0 and strictly below the bucket
size, so the selection does not panic. -/
theorem fingerprinting_read_tie_break (f : fingerprinting) (q : Signals) (qk : Key)
    (pm : List fingerprints) (locs : List Location) (b : fingerprints)
    (hfill : fillBuckets qk f.fingerprintMap (List.replicate 50 []) = some pm)
    (hsel : selectBuckets f.bestMatches (sortByID q).length 0 pm [] = (locs, some b)) :
    ∃ j, j < 50 ∧ b = groupAt qk f.fingerprintMap j ∧
      locs = fingerprints.locations (bucketsBelow qk f.fingerprintMap j) ∧
      locs.length ≤ f.bestMatches ∧ f.bestMatches - locs.length < b.length ∧
      breakTies f.bestMatches (sortByID q) locs (some b) =
        some (locs ++ fingerprints.locations
          ((sortFps (sortByID q) b).take (f.bestMatches - locs.length))) ∧
      ((sortFps (sortByID q) b).take (f.bestMatches - locs.length)).length
        = f.bestMatches - locs.length ∧
      (sortFps (sortByID q) b).Perm b ∧
      (∀ t ∈ (sortFps (sortByID q) b).take (f.bestMatches - locs.length),
        ∀ u ∈ (sortFps (sortByID q) b).drop (f.bestMatches - locs.length),
          fpDistance (sortByID q) t ≤ fpDistance (sortByID q) u ∧
            Real.sqrt (fpDistance (sortByID q) t : ℚ)
              ≤ Real.sqrt (fpDistance (sortByID q) u : ℚ)) := by
  rw [fillBuckets_eq_range qk f.fingerprintMap pm hfill] at hsel
  obtain ⟨j, _, _, hj3, hcase⟩ :=
    read_selection f.bestMatches (sortByID q).length qk f.fingerprintMap
  rcases hcase with ⟨hs, _⟩ | ⟨h1, _, h3, hs⟩
  · rw [hs] at hsel
    cases hsel
  · rw [hs] at hsel
    simp only [Prod.mk.injEq, Option.some.injEq] at hsel
    obtain ⟨hl, hb⟩ := hsel
    subst hl
    subst hb
    have hk1 : (fingerprints.locations (bucketsBelow qk f.fingerprintMap j)).length
        ≤ f.bestMatches := by
      rw [length_locations]
      exact hj3
    have hk2 : f.bestMatches
        < (fingerprints.locations (bucketsBelow qk f.fingerprintMap j)).length
          + (groupAt qk f.fingerprintMap j).length := by
      rw [length_locations]
      exact h3
    refine ⟨j, h1, rfl, rfl, hk1, by omega, breakTies_some _ _ _ _ hk1 hk2, ?_,
      sortFps_perm _ _, ?_⟩
    · rw [List.length_take, length_sortFps]
      omega
    · intro t ht u hu
      have hle := (sortFps_sorted (sortByID q) (groupAt qk f.fingerprintMap j)
        ).rel_of_mem_take_of_mem_drop ht hu
      exact ⟨hle, Real.sqrt_le_sqrt (by exact_mod_cast hle)⟩

/-- Witness of C15 (amended) at the state with four fingerprints at distance 0
and one at distance 1 from the query `1, 2`. -/
theorem fingerprinting_read_tie_break_witness :
    ∃ j, j < 50 ∧ [(⟨[⟨1, -50⟩], ⟨9, 9⟩⟩ : fingerprint)]
        = groupAt (padKey [1, 2] (by decide)) crowdedFingerprinting.fingerprintMap j ∧
      [(⟨0, 0⟩ : Location), ⟨4, 0⟩, ⟨0, 4⟩, ⟨4, 4⟩] = fingerprints.locations
        (bucketsBelow (padKey [1, 2] (by decide)) crowdedFingerprinting.fingerprintMap j) ∧
      [(⟨0, 0⟩ : Location), ⟨4, 0⟩, ⟨0, 4⟩, ⟨4, 4⟩].length
        ≤ crowdedFingerprinting.bestMatches ∧
      crowdedFingerprinting.bestMatches
          - [(⟨0, 0⟩ : Location), ⟨4, 0⟩, ⟨0, 4⟩, ⟨4, 4⟩].length
        < [(⟨[⟨1, -50⟩], ⟨9, 9⟩⟩ : fingerprint)].length ∧
      breakTies crowdedFingerprinting.bestMatches (sortByID [⟨1, -55⟩, ⟨2, -65⟩])
          [⟨0, 0⟩, ⟨4, 0⟩, ⟨0, 4⟩, ⟨4, 4⟩] (some [⟨[⟨1, -50⟩], ⟨9, 9⟩⟩]) =
        some ([⟨0, 0⟩, ⟨4, 0⟩, ⟨0, 4⟩, ⟨4, 4⟩] ++ fingerprints.locations
          ((sortFps (sortByID [⟨1, -55⟩, ⟨2, -65⟩]) [⟨[⟨1, -50⟩], ⟨9, 9⟩⟩]).take
            (crowdedFingerprinting.bestMatches
              - [(⟨0, 0⟩ : Location), ⟨4, 0⟩, ⟨0, 4⟩, ⟨4, 4⟩].length))) ∧
      ((sortFps (sortByID [⟨1, -55⟩, ⟨2, -65⟩]) [⟨[⟨1, -50⟩], ⟨9, 9⟩⟩]).take
          (crowdedFingerprinting.bestMatches
            - [(⟨0, 0⟩ : Location), ⟨4, 0⟩, ⟨0, 4⟩, ⟨4, 4⟩].length)).length
        = crowdedFingerprinting.bestMatches
          - [(⟨0, 0⟩ : Location), ⟨4, 0⟩, ⟨0, 4⟩, ⟨4, 4⟩].length ∧
      (sortFps (sortByID [⟨1, -55⟩, ⟨2, -65⟩]) [⟨[⟨1, -50⟩], ⟨9, 9⟩⟩]).Perm
        [⟨[⟨1, -50⟩], ⟨9, 9⟩⟩] ∧
      (∀ t ∈ (sortFps (sortByID [⟨1, -55⟩, ⟨2, -65⟩]) [⟨[⟨1, -50⟩], ⟨9, 9⟩⟩]).take
          (crowdedFingerprinting.bestMatches
            - [(⟨0, 0⟩ : Location), ⟨4, 0⟩, ⟨0, 4⟩, ⟨4, 4⟩].length),
        ∀ u ∈ (sortFps (sortByID [⟨1, -55⟩, ⟨2, -65⟩]) [⟨[⟨1, -50⟩], ⟨9, 9⟩⟩]).drop
          (crowdedFingerprinting.bestMatches
            - [(⟨0, 0⟩ : Location), ⟨4, 0⟩, ⟨0, 4⟩, ⟨4, 4⟩].length),
          fpDistance (sortByID [⟨1, -55⟩, ⟨2, -65⟩]) t
              ≤ fpDistance (sortByID [⟨1, -55⟩, ⟨2, -65⟩]) u ∧
            Real.sqrt (fpDistance (sortByID [⟨1, -55⟩, ⟨2, -65⟩]) t : ℚ)
              ≤ Real.sqrt (fpDistance (sortByID [⟨1, -55⟩, ⟨2, -65⟩]) u : ℚ)) :=
  fingerprinting_read_tie_break crowdedFingerprinting [⟨1, -55⟩, ⟨2, -65⟩]
    (padKey [1, 2] (by decide)) _ [⟨0, 0⟩, ⟨4, 0⟩, ⟨0, 4⟩, ⟨4, 4⟩] [⟨[⟨1, -50⟩], ⟨9, 9⟩⟩]
    rfl rfl

/-- **C19**: churn invariant. For a map whose live ids are all at most the id
counter, a replacement rate in `[0, 1]` and either strategy, with any random
draws, the map `replaceAccessPoints` leaves is made of access points kept from
before, in order, followed by as many new ones as were removed, so the
population size is unchanged; the new ids are the next values of the counter,
pairwise distinct and strictly greater than the counter and than every id that
existed before; and the call returns when the map is not empty. -/
theorem replaceAccessPoints_churn (g : Globals) (e : engine)
    (hids : ∀ ap ∈ e.m.accessPoints, ap.id ≤ g.accessPointCount)
    (h0 : 0 ≤ e.config.ReplacementRate) (h1 : e.config.ReplacementRate ≤ 1)
    (hs : e.config.ReplacementStrategy = FiFoReplacement ∨
      e.config.ReplacementStrategy = RandomReplacement) :
    ∃ kept added : List AccessPoint,
      (engine.replaceAccessPoints g e).state.2.m.accessPoints = kept ++ added ∧
      kept.Sublist e.m.accessPoints ∧
      (engine.replaceAccessPoints g e).state.2.m.accessPoints.length
        = e.m.accessPoints.length ∧
      added.length = (goInt ((e.m.accessPoints.length : ℚ) * e.config.ReplacementRate)).toNat ∧
      added.map (fun ap => ap.id) = (List.range added.length).map
        (fun (i : Nat) => g.accessPointCount + 1 + (i : Int)) ∧
      (added.map (fun ap => ap.id)).Nodup ∧
      (∀ ap ∈ added, g.accessPointCount < ap.id) ∧
      (∀ ap ∈ added, ∀ old ∈ e.m.accessPoints, old.id < ap.id) ∧
      (engine.replaceAccessPoints g e).state.1.accessPointCount
        = g.accessPointCount + added.length ∧
      (e.m.accessPoints ≠ [] → (engine.replaceAccessPoints g e).panicked = false) := by
  have hk := replacementCount_le e.m.accessPoints.length e.config.ReplacementRate h0 h1
  obtain ⟨g1, m1, hrem, hc1, hsub, hlen1⟩ :=
    removeLoop_spec e.config.ReplacementStrategy hs _ g e.m hk
  obtain ⟨hst1, hst2, hret⟩ := replaceAccessPoints_state g g1 e m1 hrem
  obtain ⟨hc2, added, hadd, hid⟩ := addLoop_spec
    (goInt ((e.m.accessPoints.length : ℚ) * e.config.ReplacementRate)).toNat g1 m1
  have hal : added.length
      = (goInt ((e.m.accessPoints.length : ℚ) * e.config.ReplacementRate)).toNat := by
    have := congrArg List.length hid
    simpa using this
  have hgt : ∀ ap ∈ added, g.accessPointCount < ap.id := by
    intro ap hap
    have hmem : ap.id ∈ added.map (fun ap => ap.id) := List.mem_map.mpr ⟨ap, hap, rfl⟩
    rw [hid] at hmem
    obtain ⟨i, _, hi⟩ := List.mem_map.mp hmem
    rw [hc1] at hi
    omega
  refine ⟨m1.accessPoints, added, ?_, hsub, ?_, hal, ?_, ?_, hgt, ?_, ?_, ?_⟩
  · rw [hst2, hadd]
  · rw [hst2, hadd, List.length_append, hal]
    omega
  · rw [hid, hc1, hal]
  · rw [hid]
    apply List.Nodup.map _ (List.nodup_range _)
    intro a b hab
    simp only at hab
    omega
  · intro ap hap old hold
    have := hids old hold
    have := hgt ap hap
    omega
  · rw [hst1, hc2, hc1, hal]
  · intro hne
    apply hret
    rw [hadd]
    intro hnil
    have hl := congrArg List.length hnil
    rw [List.length_append, hal] at hl
    have hpos : 0 < e.m.accessPoints.length := List.length_pos.mpr hne
    simp only [List.length_nil] at hl
    omega

/-- Witness of C19 at an engine with four access points, rate `1/2`, oldest first. -/
theorem replaceAccessPoints_churn_witness :
    ∃ kept added : List AccessPoint,
      (engine.replaceAccessPoints sampleGlobals sampleEngine).state.2.m.accessPoints
        = kept ++ added ∧
      kept.Sublist sampleEngine.m.accessPoints ∧
      (engine.replaceAccessPoints sampleGlobals sampleEngine).state.2.m.accessPoints.length
        = sampleEngine.m.accessPoints.length ∧
      added.length = (goInt ((sampleEngine.m.accessPoints.length : ℚ)
        * sampleEngine.config.ReplacementRate)).toNat ∧
      added.map (fun ap => ap.id) = (List.range added.length).map
        (fun (i : Nat) => sampleGlobals.accessPointCount + 1 + (i : Int)) ∧
      (added.map (fun ap => ap.id)).Nodup ∧
      (∀ ap ∈ added, sampleGlobals.accessPointCount < ap.id) ∧
      (∀ ap ∈ added, ∀ old ∈ sampleEngine.m.accessPoints, old.id < ap.id) ∧
      (engine.replaceAccessPoints sampleGlobals sampleEngine).state.1.accessPointCount
        = sampleGlobals.accessPointCount + added.length ∧
      (sampleEngine.m.accessPoints ≠ [] →
        (engine.replaceAccessPoints sampleGlobals sampleEngine).panicked = false) :=
  replaceAccessPoints_churn sampleGlobals sampleEngine (by decide)
    (by norm_num [sampleEngine]) (by norm_num [sampleEngine]) (Or.inl rfl)

/-- **C20**: in every map state reachable from `NewMap` by `AddAccessPoint`,
`AddRandomAccessPoint`, `RemoveAccessPoint`, `RemoveOldestAccessPoint` and
`RemoveRandomAccessPoint`, the live access points are stored with positive,
strictly ascending ids; hence on a non-empty map `RemoveOldestAccessPoint`
returns and evicts exactly the access point with the smallest id, and
`RemoveRandomAccessPoint` returns and removes exactly the access point whose id
it returns, leaving all others in order. -/
theorem Map_ids_ascending (g : Globals) (m : Map) (hr : MapReachable g m) :
    m.ids.Pairwise (· < ·) ∧ (∀ ap ∈ m.accessPoints, 0 < ap.id) ∧
    (m.accessPoints ≠ [] →
      ∃ oldest m1, m.RemoveOldestAccessPoint = Outcome.ok m1 () ∧
        m.accessPoints = oldest :: m1.accessPoints ∧
        (∀ ap ∈ m1.accessPoints, oldest.id < ap.id) ∧
        m1.ids.Pairwise (· < ·)) ∧
    (m.accessPoints ≠ [] →
      ∃ g1 m1 id, Map.RemoveRandomAccessPoint g m = Outcome.ok (g1, m1) id ∧
        id ∈ m.ids ∧
        m1.accessPoints = m.accessPoints.filter (fun ap => ap.id ≠ id) ∧
        m1.accessPoints.length + 1 = m.accessPoints.length ∧
        m1.ids.Pairwise (· < ·)) := by
  obtain ⟨h1, h2, _, _⟩ := MapReachable_inv g m hr
  refine ⟨h1, h2, ?_, ?_⟩
  · intro hne
    obtain ⟨a, rest, hm⟩ := List.exists_cons_of_ne_nil hne
    have hp : (a.id :: rest.map (fun ap => ap.id)).Pairwise (· < ·) := by
      have := h1
      unfold Map.ids at this
      rwa [hm, List.map_cons] at this
    rw [List.pairwise_cons] at hp
    refine ⟨a, { m with accessPoints := rest }, ?_, hm, ?_, hp.2⟩
    · unfold Map.RemoveOldestAccessPoint
      rw [hm]
    · intro ap hap
      exact hp.1 _ (List.mem_map.mpr ⟨ap, hap, rfl⟩)
  · intro hne
    obtain ⟨g1, i, hi, hspec, _⟩ := RemoveRandomAccessPoint_spec g m hne
    have hnd : (m.accessPoints.map (fun ap => ap.id)).Nodup :=
      h1.imp (fun h => ne_of_lt h)
    refine ⟨g1, _, _, hspec, ?_, ?_, ?_, ?_⟩
    · exact List.mem_map.mpr ⟨m.accessPoints[i], List.getElem_mem _, rfl⟩
    · exact eraseIdx_eq_filter m.accessPoints hnd i hi
    · simp only [List.length_eraseIdx, hi, if_true]
      omega
    · exact List.Pairwise.sublist ((List.eraseIdx_sublist _ _).map _) h1

/-- Witness of C20 at a new map to which two access points were added. -/
theorem Map_ids_ascending_witness :
    sampleMap2.2.ids.Pairwise (· < ·) ∧ (∀ ap ∈ sampleMap2.2.accessPoints, 0 < ap.id) ∧
    (sampleMap2.2.accessPoints ≠ [] →
      ∃ oldest m1, sampleMap2.2.RemoveOldestAccessPoint = Outcome.ok m1 () ∧
        sampleMap2.2.accessPoints = oldest :: m1.accessPoints ∧
        (∀ ap ∈ m1.accessPoints, oldest.id < ap.id) ∧
        m1.ids.Pairwise (· < ·)) ∧
    (sampleMap2.2.accessPoints ≠ [] →
      ∃ g1 m1 id, Map.RemoveRandomAccessPoint sampleMap2.1 sampleMap2.2
          = Outcome.ok (g1, m1) id ∧
        id ∈ sampleMap2.2.ids ∧
        m1.accessPoints = sampleMap2.2.accessPoints.filter (fun ap => ap.id ≠ id) ∧
        m1.accessPoints.length + 1 = sampleMap2.2.accessPoints.length ∧
        m1.ids.Pairwise (· < ·)) :=
  Map_ids_ascending sampleMap2.1 sampleMap2.2
    (MapReachable.addRandom _ _
      (MapReachable.add _ _ _ (MapReachable.newMap _ _ _ _ _ (by decide))))

/-- **C30**: for the smart centroid variant started from the empty state, once an
access-point id has 300 or more recorded samples its cached centroid is the
arithmetic mean of the first 299 samples recorded for it, and it stays so
whatever is fed afterwards. -/
theorem centroid_smart_frozen (c0 : centroid) (feeds more : List (Signals × Location))
    (id : Int) (h0 : c0.accessPointMap = fun _ => none) (hm : c0.minMatches = 4)
    (hs : c0.smart = true) (hn : 300 ≤ (samplesOf id feeds).length) :
    (c0.feedSeq feeds).cached id =
        some ⟨mean (((samplesOf id feeds).map (fun l => l.X)).take 299),
          mean (((samplesOf id feeds).map (fun l => l.Y)).take 299)⟩ ∧
      ((c0.feedSeq feeds).feedSeq more).cached id = (c0.feedSeq feeds).cached id := by
  have h1 := feedSeq_cached_capped c0 h0 hs hm feeds id (by omega)
  refine ⟨h1, ?_⟩
  rw [h1, ← feedSeq_append, feedSeq_cached_capped c0 h0 hs hm (feeds ++ more) id (by
    rw [samplesOf_append, List.length_append]
    omega), samplesOf_append, List.map_append, List.map_append,
    take_append_of_le _ _ 299 (by rw [List.length_map]; omega),
    take_append_of_le _ _ 299 (by rw [List.length_map]; omega)]

/-- Witness of C30: the smart variant after 300 samples of id 1, fed on with the
square feeds. -/
theorem centroid_smart_frozen_witness :
    (NewSmartLearningCentroid.feedSeq cappedFeeds).cached 1 =
        some ⟨mean (((samplesOf 1 cappedFeeds).map (fun l => l.X)).take 299),
          mean (((samplesOf 1 cappedFeeds).map (fun l => l.Y)).take 299)⟩ ∧
      ((NewSmartLearningCentroid.feedSeq cappedFeeds).feedSeq squareFeeds).cached 1
        = (NewSmartLearningCentroid.feedSeq cappedFeeds).cached 1 :=
  centroid_smart_frozen NewSmartLearningCentroid cappedFeeds squareFeeds 1 rfl rfl rfl
    (by rw [length_samplesOf_capped.1])

/-- **C26**: hint non-interference. For every fingerprinting variant, state and
signal set, two reads that differ only in the location hint have the same
outcome: the same success flag, the same estimate and the same state after the
call; the same holds for every centroid variant that is not enhanced. -/
theorem read_hint_noninterference (f : fingerprinting) (c : centroid) (signals : Signals)
    (hint1 hint2 : Location) (he : c.enhanced = false) :
    f.read signals hint1 = f.read signals hint2 ∧
      c.read signals hint1 = c.read signals hint2 := by
  refine ⟨rfl, ?_⟩
  unfold centroid.read
  simp only [he, Bool.false_eq_true, if_false]

/-- Witness of C26 at the enhanced learning fingerprinting variant and the plain
centroid after the square feeds. -/
theorem read_hint_noninterference_witness :
    NewEnhancedLearningFingerprinting.read [⟨1, -55⟩] ⟨0, 0⟩
        = NewEnhancedLearningFingerprinting.read [⟨1, -55⟩] ⟨7, 9⟩ ∧
      (NewCentroid.feedSeq squareFeeds).read [⟨1, -55⟩] ⟨0, 0⟩
        = (NewCentroid.feedSeq squareFeeds).read [⟨1, -55⟩] ⟨7, 9⟩ :=
  read_hint_noninterference NewEnhancedLearningFingerprinting (NewCentroid.feedSeq squareFeeds)
    [⟨1, -55⟩] ⟨0, 0⟩ ⟨7, 9⟩ rfl

/-- **C21** (counterexample): a configuration with a replacement rate of 2 and a
density of -4 is accepted by `validate`, although the rate is outside [0,1] and
the density is not positive. -/
theorem validate_accepts_counterexample :
    looseConfiguration.validate = .ok () ∧ ¬ looseConfiguration.specValid := by
  constructor
  · rw [validate_ok_iff]
    norm_num [looseConfiguration, FiFoReplacement]
  · intro h
    have := h.2.2.1
    norm_num [looseConfiguration] at this

/-- **C21** (amended): `validate` accepts a configuration if and only if map
width >= 160, map height >= 160, the density is not 0, the seed spacing is not
0, the test spacing is not 0, and the replacement strategy is not 0 whenever the
rate is not 0; every other configuration is rejected with a fatal error. Every
configuration the specification calls valid is among the accepted ones. -/
theorem validate_accepts_iff (c : Configuration) :
    (c.validate = .ok () ↔
      160 ≤ c.MapWidth ∧ 160 ≤ c.MapHeight ∧ c.AccessPointDensity ≠ 0 ∧
        c.SeedDistance ≠ 0 ∧ c.TestDistance ≠ 0 ∧
        (c.ReplacementRate ≠ 0 → c.ReplacementStrategy ≠ 0)) ∧
      (c.validate ≠ .ok () → ∃ msg, c.validate = .error msg) ∧
      (c.specValid → c.validate = .ok ()) := by
  refine ⟨validate_ok_iff c, ?_, ?_⟩
  · intro h
    cases hv : c.validate with
    | error msg => exact ⟨msg, rfl⟩
    | ok u => exact absurd hv h
  · rintro ⟨hw, hh, hd, hs, ht, -, hr⟩
    rw [validate_ok_iff]
    refine ⟨hw, hh, hd.ne', hs.ne', ht.ne', fun h0 => ?_⟩
    rcases hr h0 with h | h <;> rw [h] <;> decide

/-- **C22** (counterexample): a configuration with the unknown replacement
strategy 3 passes `validate`, and `NewEngine` returns an engine for it. -/
theorem unknown_strategy_counterexample :
    unknownStrategyConfiguration.ReplacementStrategy ≠ FiFoReplacement ∧
      unknownStrategyConfiguration.ReplacementStrategy ≠ RandomReplacement ∧
      unknownStrategyConfiguration.validate = .ok () ∧
      ∃ g1 e1, NewEngine startGlobals (fun s => ⟨fun i => i + s.toNat, 0⟩)
        unknownStrategyConfiguration = .ok (g1, e1) := by
  have hv : unknownStrategyConfiguration.validate = .ok () := by
    rw [validate_ok_iff]
    norm_num [unknownStrategyConfiguration]
  refine ⟨by decide, by decide, hv, ?_⟩
  obtain ⟨g1, e1, h, -⟩ := NewEngine_of_validate startGlobals
    (fun s => ⟨fun i => i + s.toNat, 0⟩) unknownStrategyConfiguration hv
  exact ⟨g1, e1, h⟩

/-- **C22** (amended): a replacement strategy that is neither 0 nor one of the two
known values is not examined at construction: `validate` accepts the
configuration exactly when the other fields pass, and `NewEngine` then returns
an engine holding it. The unknown value is a fatal error of
`replaceAccessPoints`, raised at its first removal when the replacement count is
positive, with the map, the globals and the engine unchanged. -/
theorem unknown_strategy_detected_at_replacement (g : Globals) (newSource : Int → Rand)
    (e : engine) (h0 : e.config.ReplacementStrategy ≠ 0)
    (h1 : e.config.ReplacementStrategy ≠ FiFoReplacement)
    (h2 : e.config.ReplacementStrategy ≠ RandomReplacement) :
    (e.config.validate = .ok () ↔
      160 ≤ e.config.MapWidth ∧ 160 ≤ e.config.MapHeight ∧ e.config.AccessPointDensity ≠ 0 ∧
        e.config.SeedDistance ≠ 0 ∧ e.config.TestDistance ≠ 0) ∧
      (e.config.validate = .ok () →
        ∃ g1 e1, NewEngine g newSource e.config = .ok (g1, e1) ∧ e1.config = e.config) ∧
      (0 < goInt ((e.m.accessPoints.length : ℚ) * e.config.ReplacementRate) →
        e.replaceAccessPoints g = .panic (g, e)) := by
  refine ⟨?_, NewEngine_of_validate g newSource e.config,
    replaceAccessPoints_unknown g e h1 h2⟩
  rw [validate_ok_iff]
  constructor
  · rintro ⟨a, b, c, d, f, -⟩
    exact ⟨a, b, c, d, f⟩
  · rintro ⟨a, b, c, d, f⟩
    exact ⟨a, b, c, d, f, fun _ => h0⟩

/-- Witness of C22: the sample engine with the strategy set to 3. -/
theorem unknown_strategy_detected_at_replacement_witness :
    ({ sampleEngine with config := unknownStrategyConfiguration } : engine).replaceAccessPoints
        sampleGlobals
      = .panic (sampleGlobals, { sampleEngine with config := unknownStrategyConfiguration }) :=
  (unknown_strategy_detected_at_replacement sampleGlobals (fun s => ⟨fun i => i + s.toNat, 0⟩)
    { sampleEngine with config := unknownStrategyConfiguration }
    (by decide) (by decide) (by decide)).2.2 (by
      norm_num [goInt, sampleEngine, unknownStrategyConfiguration])

/-- **C28** (failing input): a query of 50 signals with distinct ids fits the
key capacity, and against a database holding one fingerprint with a foreign id
the bucket number is `setDifference = 50 = len(signals)`, which is outside the
50 buckets of `pointerMap`: `read` fails with an index out of range. -/
theorem fingerprinting_read_bucket_out_of_range :
    fullQuery.length ≤ keyLength ∧ (fullQuery.map (fun s => s.id)).Nodup ∧
      (∃ qk, Signals.Key (sortByID fullQuery) = some qk ∧
        ∀ e ∈ strangerFingerprinting.fingerprintMap, setDifference qk e.1 = 50) ∧
      strangerFingerprinting.read fullQuery ⟨0, 0⟩ = Outcome.panic strangerFingerprinting := by
  refine ⟨by decide, by decide, ⟨_, rfl, by decide⟩, by rfl⟩

/-- **C27**: for every two signal sets sorted by strictly ascending id,
`euclidianDistance` is the square root of the sum, over exactly the ids present
in both sets, of the squared difference of their signal strengths; hence it is
symmetric, non-negative, and zero when the sets are equal or share no id. -/
theorem euclidianDistance_shared_ids (s1 s2 : Signals)
    (h1 : (s1.map (fun x => x.id)).Pairwise (· < ·))
    (h2 : (s2.map (fun x => x.id)).Pairwise (· < ·)) :
    euclidianDistance (fun q => Real.sqrt (q : ℝ)) s1 s2
        = Real.sqrt ((sharedSquares s1 s2 : ℚ) : ℝ) ∧
      euclidianDistance (fun q => Real.sqrt (q : ℝ)) s1 s2
        = euclidianDistance (fun q => Real.sqrt (q : ℝ)) s2 s1 ∧
      0 ≤ euclidianDistance (fun q => Real.sqrt (q : ℝ)) s1 s2 ∧
      euclidianDistance (fun q => Real.sqrt (q : ℝ)) s1 s1 = 0 ∧
      ((∀ a ∈ s1, ∀ b ∈ s2, a.id ≠ b.id) →
        euclidianDistance (fun q => Real.sqrt (q : ℝ)) s1 s2 = 0) := by
  have hsum := euclidianDistanceSum_eq_shared s1 s2 0 h1 h2
  rw [zero_add] at hsum
  refine ⟨?_, ?_, Real.sqrt_nonneg _, ?_, ?_⟩
  · simp only [euclidianDistance, hsum]
  · simp only [euclidianDistance, euclidianDistanceSum_comm s1 s2 0]
  · simp only [euclidianDistance, euclidianDistanceSum_self, Rat.cast_zero, Real.sqrt_zero]
  · intro hd
    simp only [euclidianDistance, hsum, sharedSquares_of_disjoint s1 s2 hd, Rat.cast_zero,
      Real.sqrt_zero]

/-- Witness of C27: the ids 2 and 4 are shared, with strength differences 3 and
4, so the distance is the square root of 25. -/
theorem euclidianDistance_shared_ids_witness :
    euclidianDistance (fun q => Real.sqrt (q : ℝ))
        [⟨1, -50⟩, ⟨2, -60⟩, ⟨4, -70⟩] [⟨2, -63⟩, ⟨3, -80⟩, ⟨4, -66⟩]
      = Real.sqrt ((sharedSquares [⟨1, -50⟩, ⟨2, -60⟩, ⟨4, -70⟩]
          [⟨2, -63⟩, ⟨3, -80⟩, ⟨4, -66⟩] : ℚ) : ℝ) ∧
      euclidianDistanceSum [⟨1, -50⟩, ⟨2, -60⟩, ⟨4, -70⟩] [⟨2, -63⟩, ⟨3, -80⟩, ⟨4, -66⟩] 0
        = 25 :=
  ⟨(euclidianDistance_shared_ids [⟨1, -50⟩, ⟨2, -60⟩, ⟨4, -70⟩]
      [⟨2, -63⟩, ⟨3, -80⟩, ⟨4, -66⟩] (by decide) (by decide)).1,
    by norm_num [euclidianDistanceSum]⟩

/-- **C23**: with the natural logarithm for `math.Log`, `signalReceived(d)`
returns true exactly when its uniform draw `u` satisfies
`u < 0.6 - ln(d/64 + 0.5)`; this threshold is non-increasing in `d`: for all
distances `0 <= d1 < d2` the threshold, and the probability it gives when
clamped to [0,1], at `d1` is at least that at `d2`, so for the same draw
reception at `d2` implies reception at `d1`. -/
theorem signalReceived_threshold_monotone (math : Math ℝ) (hlog : math.Log = Real.log)
    (g : Globals) (d1 d2 : ℝ) (h0 : 0 ≤ d1) (h12 : d1 < d2) :
    ((signalReceived math g d1).2 = true ↔
        ((g.random.Float64.2 : ℚ) : ℝ) < 0.6 - Real.log (d1 / 64 + 0.5)) ∧
      ((signalReceived math g d2).2 = true ↔
        ((g.random.Float64.2 : ℚ) : ℝ) < 0.6 - Real.log (d2 / 64 + 0.5)) ∧
      0.6 - Real.log (d2 / 64 + 0.5) ≤ 0.6 - Real.log (d1 / 64 + 0.5) ∧
      max 0 (min 1 (0.6 - Real.log (d2 / 64 + 0.5)))
        ≤ max 0 (min 1 (0.6 - Real.log (d1 / 64 + 0.5))) ∧
      ((signalReceived math g d2).2 = true → (signalReceived math g d1).2 = true) := by
  have hmono := threshold_antitone d1 d2 h0 h12.le
  have h1 := signalReceived_iff math g d1
  have h2 := signalReceived_iff math g d2
  rw [hlog] at h1 h2
  refine ⟨h1, h2, hmono, max_le_max le_rfl (min_le_min le_rfl hmono), fun h => ?_⟩
  exact h1.mpr (lt_of_lt_of_le (h2.mp h) hmono)

/-- Witness of C23 at the distances 10 and 85. -/
theorem signalReceived_threshold_monotone_witness :
    (0.6 : ℝ) - Real.log (85 / 64 + 0.5) ≤ 0.6 - Real.log (10 / 64 + 0.5) ∧
      ((signalReceived (⟨Real.log, Real.sqrt, Real.sin, Real.pi⟩ : Math ℝ) startGlobals 85).2
          = true →
        (signalReceived (⟨Real.log, Real.sqrt, Real.sin, Real.pi⟩ : Math ℝ) startGlobals 10).2
          = true) :=
  ⟨(signalReceived_threshold_monotone ⟨Real.log, Real.sqrt, Real.sin, Real.pi⟩ rfl
      startGlobals 10 85 (by norm_num) (by norm_num)).2.2.1,
    (signalReceived_threshold_monotone ⟨Real.log, Real.sqrt, Real.sin, Real.pi⟩ rfl
      startGlobals 10 85 (by norm_num) (by norm_num)).2.2.2.2⟩

/-- **C25** (counterexample): the standard deviation at distance 95 is below the
one at distance 0, so it is not true that the noise grows with the distance. -/
theorem stddev_grows_counterexample :
    ¬ (stddev (⟨Real.log, Real.sqrt, Real.sin, Real.pi⟩ : Math ℝ) 0
        ≤ stddev (⟨Real.log, Real.sqrt, Real.sin, Real.pi⟩ : Math ℝ) 95) :=
  not_le.mpr (stddev_strictAnti ⟨Real.log, Real.sqrt, Real.sin, Real.pi⟩ rfl 0 95
    le_rfl (by norm_num))

/-- **C25** (amended): with `rss(d) = -58 - 14*log(d + 5)/log(10)` and
`sigma(d) = 0.0497*rss(d) + 6.3438` as used by `signalStrength`, and a logarithm
that is non-decreasing on the positive numbers with `log(10) > 0`, for all
distances `0 <= d1 < d2` the median strength at `d2` is at most that at `d1` and
the noise standard deviation does not grow: `sigma(d2) <= sigma(d1)`. -/
theorem stddev_shrinks_with_distance (math : Math ℝ)
    (hmono : ∀ x y : ℝ, 0 < x → x ≤ y → math.Log x ≤ math.Log y)
    (hten : 0 < math.Log 10) (g : Globals) (d1 d2 : ℝ) (h0 : 0 ≤ d1) (h12 : d1 < d2) :
    rss math d2 ≤ rss math d1 ∧ stddev math d2 ≤ stddev math d1 ∧
      stddev math d1 = 0.0497 * (-58 - 14 * math.Log (d1 + 5) / math.Log 10) + 6.3438 ∧
      (signalStrength math g d1).2 =
        rss math d1 + stddev math d1
          * math.Sqrt (-2 * math.Log (1 - ((g.random.Float64.1.Float64.2 : ℚ) : ℝ)))
          * math.Sin (2 * math.Pi * ((g.random.Float64.2 : ℚ) : ℝ)) := by
  have hle : math.Log (d1 + 5) ≤ math.Log (d2 + 5) :=
    hmono _ _ (by linarith) (by linarith)
  have hdiv : 14 * math.Log (d1 + 5) / math.Log 10 ≤ 14 * math.Log (d2 + 5) / math.Log 10 :=
    div_le_div_of_nonneg_right (by linarith) hten.le
  have hrss : rss math d2 ≤ rss math d1 := by
    unfold rss
    linarith
  refine ⟨hrss, ?_, rfl, rfl⟩
  unfold stddev
  have : (0.0497 : ℝ) * rss math d2 ≤ 0.0497 * rss math d1 :=
    mul_le_mul_of_nonneg_left hrss (by norm_num)
  linarith

/-- Witness of C25 at the distances 0 and 95, with the natural logarithm. -/
theorem stddev_shrinks_with_distance_witness :
    stddev (⟨Real.log, Real.sqrt, Real.sin, Real.pi⟩ : Math ℝ) 95
      ≤ stddev (⟨Real.log, Real.sqrt, Real.sin, Real.pi⟩ : Math ℝ) 0 :=
  (stddev_shrinks_with_distance ⟨Real.log, Real.sqrt, Real.sin, Real.pi⟩
    (fun _ _ hx hxy => Real.log_le_log hx hxy) (Real.log_pos (by norm_num)) startGlobals
    0 95 le_rfl (by norm_num)).2.1

/-- **C29**: the reception formula is unclamped and saturates. With the natural
logarithm for `math.Log`, for every distance `d >= 85` `signalReceived(d)` is
false for every draw, and for every distance `0 <= d <= 10` it is true for
every draw; hence every access point observed by `Read` at a location, in
particular at a test location of `Run`, which lies at least 85 m from each map
edge when the test spacing is positive, is within 85 m of it. -/
theorem signalReceived_saturates (math : Math ℝ) (hlog : math.Log = Real.log) :
    (∀ (g : Globals) (d : ℝ), 85 ≤ d →
        0.6 - Real.log (d / 64 + 0.5) < 0 ∧ (signalReceived math g d).2 = false) ∧
      (∀ (g : Globals) (d : ℝ), 0 ≤ d → d ≤ 10 →
        1 < 0.6 - Real.log (d / 64 + 0.5) ∧ (signalReceived math g d).2 = true) ∧
      (∀ (g : Globals) (m : Map) (location : Location),
        ∀ s ∈ (Map.Read math g m location).2,
          ∃ ap ∈ m.accessPoints, ap.id = s.id ∧ distance math ap.location location < 85) ∧
      (∀ (fuel : Nat) (mapWidth mapHeight testDistance : ℚ), 0 < testDistance →
        ∀ l ∈ testLocations fuel mapWidth mapHeight testDistance,
          85 ≤ l.X ∧ l.X ≤ mapWidth - 85 ∧ 85 ≤ l.Y ∧ l.Y ≤ mapHeight - 85) := by
  refine ⟨fun g d h => ⟨threshold_neg d h, signalReceived_far math hlog g d h⟩,
    fun g d h0 h => ⟨threshold_gt_one d h0 h, signalReceived_near math hlog g d h0 h⟩,
    fun g m location s hs => ?_, testLocations_bounds⟩
  rcases readLoop_observed math hlog location m.accessPoints g [] s hs with h | h
  · simp at h
  · exact h

/-- Witness of C29: at 85 m the draw of the start-up generator is not received,
at 10 m it is. -/
theorem signalReceived_saturates_witness :
    (signalReceived (⟨Real.log, Real.sqrt, Real.sin, Real.pi⟩ : Math ℝ) startGlobals 85).2
        = false ∧
      (signalReceived (⟨Real.log, Real.sqrt, Real.sin, Real.pi⟩ : Math ℝ) startGlobals 10).2
        = true :=
  ⟨((signalReceived_saturates ⟨Real.log, Real.sqrt, Real.sin, Real.pi⟩ rfl).1
      startGlobals 85 le_rfl).2,
    ((signalReceived_saturates ⟨Real.log, Real.sqrt, Real.sin, Real.pi⟩ rfl).2.1
      startGlobals 10 (by norm_num) (by norm_num)).2⟩

/-- **C24** (failing input): two runs with the same configuration, the same
registered algorithm and the same explicit seed 42, so with the same seeded
generator; `NewEngine` builds the same map in both. Whenever the first draws of
the seeded generator place the one access point between the seeding location
and the first test location and are below 1/10 at the third and sixth draw and
at least 6/10 at the seventh, the two runs differ as soon as the clock-seeded
package-level generator shuffles the two test locations differently: the run
that reads `(85, 85)` first records one error and one miss in cycle 0, the run
that reads `(85, 185)` first records no error and two misses. -/
theorem run_not_reproducible (math : Math ℝ) (hlog : math.Log = Real.log)
    (hsqrt : math.Sqrt = Real.sqrt) (value : ℝ → ℚ) (newSource : Int → Rand)
    (r1 r2 clock1 clock2 : Rand)
    (h0 : 7 / 32 ≤ drawAt (newSource 42) 0 ∧ drawAt (newSource 42) 0 ≤ 9 / 32)
    (h1 : 1 / 8 ≤ drawAt (newSource 42) 1 ∧ drawAt (newSource 42) 1 ≤ 3 / 16)
    (h2 : drawAt (newSource 42) 2 < 1 / 10)
    (h5 : drawAt (newSource 42) 5 < 1 / 10)
    (h6 : 6 / 10 ≤ drawAt (newSource 42) 6)
    (hc1 : clock1.draws (clock1.pos + 1) % 2 = 1)
    (hc2 : clock2.draws (clock2.pos + 1) % 2 = 0) :
    simulateFirstCycle math value ⟨0, r1⟩ newSource clock1 seededConfiguration
        [("Fingerprinting", .ofFingerprinting NewFingerprinting)] 10
      = some [("Fingerprinting", ⟨[distance math ⟨85, 85⟩ (average [⟨0, 0⟩])], 1,
          [distance math ⟨85, 85⟩ (average [⟨0, 0⟩])], 1⟩)] ∧
      simulateFirstCycle math value ⟨0, r2⟩ newSource clock2 seededConfiguration
          [("Fingerprinting", .ofFingerprinting NewFingerprinting)] 10
        = some [("Fingerprinting", ⟨[], 2, [], 2⟩)] := by
  obtain ⟨⟨dS0, dS⟩, ⟨dA1, dA2⟩, dB⟩ := seeded_distances math hsqrt
    (drawAt (newSource 42) 0 * 170) (drawAt (newSource 42) 1 * 270)
    (by linarith [h0.1]) (by linarith [h0.2]) (by linarith [h1.1]) (by linarith [h1.2])
  -- the read of `seed` at the origin observes the access point
  have hS := Read_received math hlog ⟨1, ⟨(newSource 42).draws, (newSource 42).pos + 2⟩⟩
    170 270 ⟨1, ⟨drawAt (newSource 42) 0 * 170, drawAt (newSource 42) 1 * 270⟩⟩ ⟨0, 0⟩
    (lt_of_eq_of_lt (Float64_of_pos ⟨(newSource 42).draws, (newSource 42).pos + 2⟩
      (newSource 42) 2 rfl rfl) h2) dS0 dS
  obtain ⟨v, hv⟩ := toSignals_single value _ 1 hS.1
  have e1 : seedLocations 10 seededConfiguration.MapWidth seededConfiguration.MapHeight
      seededConfiguration.SeedDistance = [⟨0, 0⟩] := seeded_seedLocations
  have e2 : testLocations 10 seededConfiguration.MapWidth seededConfiguration.MapHeight
      seededConfiguration.TestDistance = [⟨85, 85⟩, ⟨85, 185⟩] := seeded_testLocations
  constructor
  · -- the near location is read first, with the draw below 1/10
    have hA := Read_received math hlog _ 170 270
      ⟨1, ⟨drawAt (newSource 42) 0 * 170, drawAt (newSource 42) 1 * 270⟩⟩ ⟨85, 85⟩
      (lt_of_eq_of_lt (Float64_of_pos _ (newSource 42) 5 hS.2.1 hS.2.2) h5)
      (by linarith) dA2
    obtain ⟨w, hw⟩ := toSignals_single value _ 1 hA.1
    have hB := Read_far math hlog
      (Map.Read math
        (Map.Read math ⟨1, ⟨(newSource 42).draws, (newSource 42).pos + 2⟩⟩
          ⟨170, 270, [⟨1, ⟨drawAt (newSource 42) 0 * 170, drawAt (newSource 42) 1 * 270⟩⟩]⟩
          ⟨0, 0⟩).1
        ⟨170, 270, [⟨1, ⟨drawAt (newSource 42) 0 * 170, drawAt (newSource 42) 1 * 270⟩⟩]⟩
        ⟨85, 85⟩).1
      170 270 ⟨1, ⟨drawAt (newSource 42) 0 * 170, drawAt (newSource 42) 1 * 270⟩⟩ ⟨85, 185⟩ dB
    simp only [simulateFirstCycle, seeded_NewEngine, engine.firstCycle, e1, e2]
    simp only [seedLoop, hv, seeded_feed, shuffle_two, hc1, if_true, List.map_cons,
      List.map_nil, testLoop, seeded_inCenter.1, seeded_inCenter.2, hw, seeded_test_hit, hB.1,
      toSignals_nil, seeded_test_miss, List.nil_append]
  · -- the far location is read first, and the near one meets the draw of 6/10 or more
    have hB := Read_far math hlog
      (Map.Read math ⟨1, ⟨(newSource 42).draws, (newSource 42).pos + 2⟩⟩
        ⟨170, 270, [⟨1, ⟨drawAt (newSource 42) 0 * 170, drawAt (newSource 42) 1 * 270⟩⟩]⟩
        ⟨0, 0⟩).1
      170 270 ⟨1, ⟨drawAt (newSource 42) 0 * 170, drawAt (newSource 42) 1 * 270⟩⟩ ⟨85, 185⟩ dB
    have hA := Read_missed math hlog _ 170 270
      ⟨1, ⟨drawAt (newSource 42) 0 * 170, drawAt (newSource 42) 1 * 270⟩⟩ ⟨85, 85⟩
      (le_of_le_of_eq h6 (Float64_of_pos _ (newSource 42) 6 (by rw [hB.2.1, hS.2.1])
        (by rw [hB.2.2, hS.2.2])).symm)
      dA1
    simp only [simulateFirstCycle, seeded_NewEngine, engine.firstCycle, e1, e2]
    simp only [seedLoop, hv, seeded_feed, shuffle_two, hc2, List.map_cons,
      List.map_nil, testLoop, seeded_inCenter.1, seeded_inCenter.2, hB.1, hA.1,
      toSignals_nil, seeded_test_miss]

/-- Witness of C24: a stream of draws that meets the conditions, with a clock
that keeps the order of the test locations and one that swaps them. -/
theorem run_not_reproducible_witness :
    simulateFirstCycle (⟨Real.log, Real.sqrt, Real.sin, Real.pi⟩ : Math ℝ) (fun _ => 0)
        ⟨0, ⟨fun i => i, 0⟩⟩ (fun _ => ⟨exampleStream, 0⟩) ⟨fun _ => 1, 0⟩ seededConfiguration
        [("Fingerprinting", .ofFingerprinting NewFingerprinting)] 10
      = some [("Fingerprinting",
          ⟨[distance (⟨Real.log, Real.sqrt, Real.sin, Real.pi⟩ : Math ℝ) ⟨85, 85⟩
              (average [⟨0, 0⟩])], 1,
            [distance (⟨Real.log, Real.sqrt, Real.sin, Real.pi⟩ : Math ℝ) ⟨85, 85⟩
              (average [⟨0, 0⟩])], 1⟩)] ∧
      simulateFirstCycle (⟨Real.log, Real.sqrt, Real.sin, Real.pi⟩ : Math ℝ) (fun _ => 0)
          ⟨0, ⟨fun i => 5 * i + 1, 0⟩⟩ (fun _ => ⟨exampleStream, 0⟩) ⟨fun _ => 0, 0⟩
          seededConfiguration [("Fingerprinting", .ofFingerprinting NewFingerprinting)] 10
        = some [("Fingerprinting", ⟨[], 2, [], 2⟩)] :=
  run_not_reproducible ⟨Real.log, Real.sqrt, Real.sin, Real.pi⟩ rfl rfl (fun _ => 0)
    (fun _ => ⟨exampleStream, 0⟩) ⟨fun i => i, 0⟩ ⟨fun i => 5 * i + 1, 0⟩ ⟨fun _ => 1, 0⟩
    ⟨fun _ => 0, 0⟩ (by norm_num [drawAt, exampleStream]) (by norm_num [drawAt, exampleStream])
    (by norm_num [drawAt, exampleStream]) (by norm_num [drawAt, exampleStream])
    (by norm_num [drawAt, exampleStream]) rfl rfl

end wifi
